import Mathlib

/-!
# A TF-IDF search server: shallow embedding and verification

The C++ program keeps an inverted index over space-separated words and answers
ranked queries with plus- and minus-words.  The embedding below follows the
source function by function.

Modelling conventions.

* `std::string` is a list of characters.  The only characters the program
  inspects are the space and the minus sign, and `std::set<string>` orders
  strings lexicographically, which is the order of `List Char`.
* `std::set<K>` is a strictly ascending list, `std::map<K, V>` a list of pairs
  with strictly ascending keys; iteration is iteration over the list.
* `operator[]` of a map inserts a value-initialised entry when the key is
  missing; `at` fails with `out_of_range` when the key is missing.
* A `double` is read as an exact number: term frequencies are rationals, and a
  relevance lives in a linearly ordered field `R` that comes with a logarithm
  (the real numbers with `Real.log` for the claims about relevance values).
* `int` document ids and ratings are integers; the sum of the ratings wraps to
  32 bits.  The counters are natural numbers.
* `std::sort` is library code.  It is a parameter of `FindTopDocuments`,
  constrained by `SortContract`, which says what the call does when the
  comparison is a strict weak ordering on the records and nothing when it is
  not: the call may then not return, or return any list.  `sortByInsertion`,
  `sortOrFail` and `sortOrForeign` are instances.
* The results on the order and the number of the records returned are stated
  for an arbitrary list of records handed to the sort, so they do not depend
  on how the relevances in the records were computed.
-/

namespace SearchServer

/-- The type `std::string`. -/
abbrev Str := List Char

/-- The ways in which a call does not return a value: `out_of_range` is the exception
thrown by `at` on a missing key; `undefined` stands for library code that is called
outside its precondition and does not come back. -/
inductive Error where
  | out_of_range
  | undefined
  deriving DecidableEq

/-! ## Ordered containers -/

section Containers

variable {κ : Type} {ν : Type}

/-- The call `s.insert(a)` on a `std::set`. -/
def setInsert [LinearOrder κ] (a : κ) : List κ → List κ
  | [] => [a]
  | b :: l =>
    if a < b then a :: b :: l
    else if b < a then b :: setInsert a l
    else b :: l

/-- The call `s.count(a)` on a `std::set`. -/
def setCount [LinearOrder κ] (a : κ) (l : List κ) : Nat :=
  if a ∈ l then 1 else 0

/-- The call `s.erase(a)` on a `std::set`. -/
def setErase [LinearOrder κ] (a : κ) (l : List κ) : List κ :=
  l.filter (fun b => decide (b ≠ a))

/-- The lookup behind `m.find(k)`, `m.count(k)` and `m.at(k)` on a `std::map`. -/
def mapFind [LinearOrder κ] (k : κ) : List (κ × ν) → Option ν
  | [] => none
  | (k', v) :: m => if k = k' then some v else mapFind k m

/-- The call `m.count(k)` on a `std::map`. -/
def mapCount [LinearOrder κ] (k : κ) (m : List (κ × ν)) : Nat :=
  if (mapFind k m).isSome then 1 else 0

/-- The call `m.at(k)` on a `std::map`: it throws when the key is missing. -/
def mapAt [LinearOrder κ] (k : κ) (m : List (κ × ν)) : Except Error ν :=
  match mapFind k m with
  | some v => .ok v
  | none => .error .out_of_range

/-- The statement `m[k] = f(m[k])`: `operator[]` inserts the value-initialised
`d` under a missing key, then the entry is modified in place. -/
def mapUpdate [LinearOrder κ] (k : κ) (d : ν) (f : ν → ν) : List (κ × ν) → List (κ × ν)
  | [] => [(k, f d)]
  | (k', v) :: m =>
    if k < k' then (k, f d) :: (k', v) :: m
    else if k' < k then (k', v) :: mapUpdate k d f m
    else (k', f v) :: m

/-- The keys of a `std::map`, in iteration order. -/
def mapKeys (m : List (κ × ν)) : List κ :=
  m.map Prod.fst

end Containers

/-! ## The program -/

/-- The constant `MAX_RESULT_DOCUMENT_COUNT`. -/
def MAX_RESULT_DOCUMENT_COUNT : Nat := 5

section Epsilon

variable {R : Type} [LinearOrderedField R]

/-- The constant `EPSILON = 1e-6`. -/
def EPSILON : R := 1 / 1000000

end Epsilon

/-- The loop of `SplitIntoWords`: `words` and `word` are the two local variables,
the first argument is the rest of the text. -/
def SplitIntoWordsLoop : List Char → List Str → Str → List Str
  | [], words, word => if word ≠ [] then words ++ [word] else words
  | c :: text, words, word =>
    if c = ' ' then
      if word ≠ [] then SplitIntoWordsLoop text (words ++ [word]) []
      else SplitIntoWordsLoop text words word
    else SplitIntoWordsLoop text words (word ++ [c])

/-- The function `SplitIntoWords`. -/
def SplitIntoWords (text : Str) : List Str :=
  SplitIntoWordsLoop text [] []

/-- The struct `Document`, a result record. -/
structure Document (R : Type) where
  id : Int
  relevance : R
  rating : Int

/-- The enum `DocumentStatus`; `ACTUAL` is the value-initialised one. -/
inductive DocumentStatus where
  | ACTUAL
  | IRRELEVANT
  | BANNED
  | REMOVED
  deriving DecidableEq

/-- The struct `SearchServer::DocumentInformation`. -/
structure DocumentInformation where
  words : List Str
  status : DocumentStatus
  rating : Int
  deriving DecidableEq

/-- The value-initialised `DocumentInformation` that `operator[]` inserts. -/
def DocumentInformation.init : DocumentInformation :=
  { words := [], status := DocumentStatus.ACTUAL, rating := 0 }

/-- The struct `SearchServer::Query`. -/
structure Query where
  minus_words : List Str
  plus_words : List Str
  deriving DecidableEq

/-- The private state of the class `SearchServer`. -/
structure State where
  document_count_ : Nat
  words_to_documents_ : List (Str × List Int)
  documents_to_info_ : List (Int × DocumentInformation)
  words_to_frequencies_ : List (Str × List (Int × ℚ))
  stop_words_ : List Str

/-- The state of a freshly constructed `SearchServer`. -/
def State.init : State :=
  { document_count_ := 0, words_to_documents_ := [], documents_to_info_ := [],
    words_to_frequencies_ := [], stop_words_ := [] }

/-- The method `SetStopWords`. -/
def SetStopWords (s : State) (text : Str) : State :=
  (SplitIntoWords text).foldl
    (fun t word => { t with stop_words_ := setInsert word t.stop_words_ }) s

/-- The method `IsStopWord`. -/
def IsStopWord (s : State) (word : Str) : Bool :=
  decide (setCount word s.stop_words_ > 0)

/-- The method `SplitIntoWordsNoStop`. -/
def SplitIntoWordsNoStop (s : State) (text : Str) : List Str :=
  (SplitIntoWords text).foldl
    (fun words word => if !IsStopWord s word then words ++ [word] else words) []

/-- Two's-complement wrap of an `int`. -/
def wrapInt32 (x : Int) : Int :=
  (x + 2147483648) % 4294967296 - 2147483648

/-- The method `ComputeAverageRating`: `accumulate` adds in `int`, the size is cast to
`int`, the division truncates toward zero. A size that is a multiple of 2^32 makes the
divisor 0, where the division of the program is undefined; `Int.tdiv` gives 0 there, and
no result below is stated for such a sequence. -/
def ComputeAverageRating (ratings : List Int) : Int :=
  if ratings.length = 0 then 0
  else Int.tdiv (ratings.foldl (fun sum r => wrapInt32 (sum + r)) 0)
    (wrapInt32 (ratings.length : Int))

/-- One pass through the body of the loop of `AddDocument`. -/
def AddDocumentWord (document_id : Int) (status : DocumentStatus)
    (inverse_vector_size : ℚ) (s : State) (word : Str) : State :=
  let info1 := mapUpdate document_id DocumentInformation.init
    (fun i => { i with words := setInsert word i.words }) s.documents_to_info_
  let info2 := mapUpdate document_id DocumentInformation.init
    (fun i => { i with status := status }) info1
  let documents := mapUpdate word [] (setInsert document_id) s.words_to_documents_
  let frequencies := mapUpdate word []
    (mapUpdate document_id 0 (fun tf => tf + inverse_vector_size)) s.words_to_frequencies_
  { s with
    documents_to_info_ := info2
    words_to_documents_ := documents
    words_to_frequencies_ := frequencies }

/-- The method `AddDocument`. -/
def AddDocument (s : State) (document_id : Int) (document : Str)
    (status : DocumentStatus) (ratings : List Int) : State :=
  let words := SplitIntoWordsNoStop s document
  let inverse_vector_size : ℚ := 1 / (words.length : ℚ)
  let s1 := { s with document_count_ := s.document_count_ + 1 }
  let s2 := words.foldl (AddDocumentWord document_id status inverse_vector_size) s1
  let info := mapUpdate document_id DocumentInformation.init
    (fun i => { i with rating := ComputeAverageRating ratings }) s2.documents_to_info_
  { s2 with documents_to_info_ := info }

/-- The method `GetDocumentCount`. -/
def GetDocumentCount (s : State) : Nat :=
  s.documents_to_info_.length

/-- The body of the second loop of `ParseQuery`. -/
def ParseQueryWord (query : Query) (word : Str) : Query :=
  match word with
  | [] => query
  | c :: rest =>
    if c = '-' then { query with minus_words := setInsert rest query.minus_words }
    else { query with plus_words := setInsert word query.plus_words }

/-- The body of the third loop of `ParseQuery`. -/
def ParseQueryErase (query : Query) (word : Str) : Query :=
  if setCount word query.plus_words > 0 then
    { query with plus_words := setErase word query.plus_words }
  else query

/-- The method `ParseQuery`. -/
def ParseQuery (s : State) (text : Str) : Query :=
  let query_words := (SplitIntoWordsNoStop s text).foldl (fun q word => setInsert word q) []
  let query := query_words.foldl ParseQueryWord { minus_words := [], plus_words := [] }
  query.minus_words.foldl ParseQueryErase query

/-- The first loop of `MatchDocument`: the first minus-word found in the document
ends the call with the result built so far. -/
def MatchDocumentMinus (s : State) (document_id : Int) :
    List Str → Except Error Bool
  | [] => .ok false
  | word :: rest => do
    let info ← mapAt document_id s.documents_to_info_
    if setCount word info.words > 0 then pure true
    else MatchDocumentMinus s document_id rest

/-- The second loop of `MatchDocument`. -/
def MatchDocumentPlus (s : State) (document_id : Int) (matched_plus_words : List Str)
    (word : Str) : Except Error (List Str) := do
  let info ← mapAt document_id s.documents_to_info_
  if setCount word info.words > 0 then pure (matched_plus_words ++ [word])
  else pure matched_plus_words

/-- The method `MatchDocument`. -/
def MatchDocument (s : State) (raw_query : Str) (document_id : Int) :
    Except Error (List Str × DocumentStatus) := do
  let query := ParseQuery s raw_query
  let found ← MatchDocumentMinus s document_id query.minus_words
  if found then
    let info ← mapAt document_id s.documents_to_info_
    pure ([], info.status)
  else
    let matched_plus_words ← query.plus_words.foldlM (MatchDocumentPlus s document_id) []
    let info ← mapAt document_id s.documents_to_info_
    pure (matched_plus_words, info.status)

section Ranking

variable {R : Type} [LinearOrderedField R]

/-- The method `ComputeInverseDocumentFrequency`; `log` is `std::log`. -/
def ComputeInverseDocumentFrequency (log : R → R) (s : State) (word : Str) :
    Except Error R := do
  let documents ← mapAt word s.words_to_documents_
  pure (log ((s.document_count_ : R) / (documents.length : R)))

/-- The loop of `FindAllDocuments` that computes `allowed_document`. -/
def FindAllDocumentsAllowed (s : State) (query : Query) (id : Int) : Except Error Bool :=
  query.minus_words.foldlM
    (fun allowed_document minus_word => do
      let info ← mapAt id s.documents_to_info_
      if setCount minus_word info.words > 0 then pure false
      else pure allowed_document)
    true

/-- The body of the loop of `FindAllDocuments` over the documents of one word. -/
def FindAllDocumentsId (s : State) (query : Query)
    (predicate : Int → DocumentStatus → Int → Bool) (word : Str)
    (inverse_document_frequency : R) (ids_to_relevance : List (Int × R)) (id : Int) :
    Except Error (List (Int × R)) := do
  let allowed_document ← FindAllDocumentsAllowed s query id
  let pass ←
    if allowed_document then do
      let status_info ← mapAt id s.documents_to_info_
      let rating_info ← mapAt id s.documents_to_info_
      pure (predicate id status_info.status rating_info.rating)
    else pure false
  if !pass then pure ids_to_relevance
  else do
    let frequencies ← mapAt word s.words_to_frequencies_
    let frequency ← mapAt id frequencies
    pure (mapUpdate id 0
      (fun relevance => relevance + inverse_document_frequency * (frequency : R))
      ids_to_relevance)

/-- The body of the loop of `FindAllDocuments` over the plus-words. -/
def FindAllDocumentsWord (log : R → R) (s : State) (query : Query)
    (predicate : Int → DocumentStatus → Int → Bool) (ids_to_relevance : List (Int × R))
    (word : Str) : Except Error (List (Int × R)) :=
  if setCount word query.minus_words > 0 then pure ids_to_relevance
  else if mapCount word s.words_to_documents_ = 0 then pure ids_to_relevance
  else do
    let inverse_document_frequency ← ComputeInverseDocumentFrequency log s word
    let documents ← mapAt word s.words_to_documents_
    documents.foldlM (FindAllDocumentsId s query predicate word inverse_document_frequency)
      ids_to_relevance

/-- The last loop of `FindAllDocuments`: one record per key of `ids_to_relevance`. -/
def FindAllDocumentsPush (s : State) (matched_documents : List (Document R))
    (entry : Int × R) : Except Error (List (Document R)) := do
  let info ← mapAt entry.1 s.documents_to_info_
  pure (matched_documents ++ [{ id := entry.1, relevance := entry.2, rating := info.rating }])

/-- The method `FindAllDocuments`. -/
def FindAllDocuments (log : R → R) (s : State) (query : Query)
    (predicate : Int → DocumentStatus → Int → Bool) : Except Error (List (Document R)) := do
  let ids_to_relevance ←
    query.plus_words.foldlM (FindAllDocumentsWord log s query predicate) []
  ids_to_relevance.foldlM (FindAllDocumentsPush s) []

/-- The comparison passed to `sort` in `FindTopDocuments`. -/
def FindTopDocumentsLess (lhs rhs : Document R) : Bool :=
  decide (lhs.relevance > rhs.relevance) ||
    (decide (|lhs.relevance - rhs.relevance| < EPSILON) && decide (lhs.rating > rhs.rating))

/-- The statements of `FindTopDocuments` that follow the call of `FindAllDocuments`: the
call of `std::sort` on the records found, which may not return, and the `resize`. -/
def FindTopDocumentsSort
    (sort : (Document R → Document R → Bool) → List (Document R) →
      Except Error (List (Document R)))
    (matched_documents : List (Document R)) : Except Error (List (Document R)) := do
  let matched_documents ← sort FindTopDocumentsLess matched_documents
  if matched_documents.length > MAX_RESULT_DOCUMENT_COUNT then
    pure (matched_documents.take MAX_RESULT_DOCUMENT_COUNT)
  else pure matched_documents

/-- The method `FindTopDocuments` with a predicate. -/
def FindTopDocuments
    (sort : (Document R → Document R → Bool) → List (Document R) →
      Except Error (List (Document R)))
    (log : R → R) (s : State) (raw_query : Str)
    (predicate : Int → DocumentStatus → Int → Bool) : Except Error (List (Document R)) := do
  let query := ParseQuery s raw_query
  let matched_documents ← FindAllDocuments log s query predicate
  FindTopDocumentsSort sort matched_documents

/-- The method `FindTopDocuments` with a status. -/
def FindTopDocumentsStatus
    (sort : (Document R → Document R → Bool) → List (Document R) →
      Except Error (List (Document R)))
    (log : R → R) (s : State) (raw_query : Str) (document_status : DocumentStatus) :
    Except Error (List (Document R)) :=
  FindTopDocuments sort log s raw_query (fun _ status _ => decide (status = document_status))

/-- The method `FindTopDocuments` without a filter. -/
def FindTopDocumentsDefault
    (sort : (Document R → Document R → Bool) → List (Document R) →
      Except Error (List (Document R)))
    (log : R → R) (s : State) (raw_query : Str) : Except Error (List (Document R)) :=
  FindTopDocuments sort log s raw_query
    (fun _ status _ => decide (status = DocumentStatus.ACTUAL))

end Ranking

/-! ## Call sequences -/

/-- A call of one of the two mutating methods. -/
inductive Call where
  | setStopWords (text : Str)
  | addDocument (document_id : Int) (document : Str) (status : DocumentStatus)
      (ratings : List Int)

/-- The effect of one call. -/
def Call.apply (s : State) : Call → State
  | .setStopWords text => SetStopWords s text
  | .addDocument document_id document status ratings =>
    AddDocument s document_id document status ratings

/-- The state after a sequence of calls on a fresh server. -/
def run (calls : List Call) : State :=
  calls.foldl Call.apply State.init

/-- The calls of `main`. -/
def mainCalls : List Call :=
  [ .setStopWords "и в на".toList,
    .addDocument 0 "белый кот и модный ошейник".toList .ACTUAL [8, -3],
    .addDocument 1 "пушистый кот пушистый хвост".toList .ACTUAL [7, 2, 7],
    .addDocument 2 "ухоженный пёс выразительные глаза".toList .ACTUAL [5, -12, 2, 1],
    .addDocument 3 "ухоженный скворец евгений".toList .BANNED [9] ]

/-- The query of `main`. -/
def mainQuery : Str := "пушистый ухоженный кот".toList

/-! ## Reading the state -/

/-- The word set stored for a document; empty when the id has no metadata. -/
def wordsOf (s : State) (d : Int) : List Str :=
  ((mapFind d s.documents_to_info_).map DocumentInformation.words).getD []

/-- The status stored for a document. -/
def statusOf (s : State) (d : Int) : DocumentStatus :=
  ((mapFind d s.documents_to_info_).map DocumentInformation.status).getD DocumentStatus.ACTUAL

/-- The rating stored for a document. -/
def ratingOf (s : State) (d : Int) : Int :=
  ((mapFind d s.documents_to_info_).map DocumentInformation.rating).getD 0

/-- The set `words_to_documents_[w]`; empty when the word has no entry. -/
def docsOf (s : State) (w : Str) : List Int :=
  (mapFind w s.words_to_documents_).getD []

/-- The entry `words_to_frequencies_[w][d]`, when there is one. -/
def freqOf (s : State) (w : Str) (d : Int) : Option ℚ :=
  (mapFind w s.words_to_frequencies_).bind (mapFind d)

/-- The containers of a state are well formed: keys and set elements ascend strictly. -/
structure WF (s : State) : Prop where
  info_sorted : (mapKeys s.documents_to_info_).Pairwise (· < ·)
  docs_sorted : (mapKeys s.words_to_documents_).Pairwise (· < ·)
  freq_sorted : (mapKeys s.words_to_frequencies_).Pairwise (· < ·)
  docs_inner : ∀ w l, mapFind w s.words_to_documents_ = some l → l.Pairwise (· < ·)
  freq_inner : ∀ w m, mapFind w s.words_to_frequencies_ = some m →
    (mapKeys m).Pairwise (· < ·)
  words_inner : ∀ d i, mapFind d s.documents_to_info_ = some i → i.words.Pairwise (· < ·)

/-- The index is consistent: the three containers describe the same relation between
words and documents, and no entry of `words_to_documents_` is empty. -/
structure Inv (s : State) extends WF s : Prop where
  docs_nonempty : ∀ w l, mapFind w s.words_to_documents_ = some l → l ≠ []
  docs_words : ∀ w d, d ∈ docsOf s w ↔ w ∈ wordsOf s d
  docs_freq : ∀ w d, d ∈ docsOf s w ↔ (freqOf s w d).isSome

/-- What one `AddDocument` call ingests: the id, the stop-filtered words of the text at
the time of the call, the status and the ratings. -/
structure Ingested where
  id : Int
  words : List Str
  status : DocumentStatus
  ratings : List Int
  deriving DecidableEq

/-- The documents ingested by a sequence of calls issued in state `s`. -/
def ingestedFrom (s : State) : List Call → List Ingested
  | [] => []
  | .setStopWords text :: calls => ingestedFrom (SetStopWords s text) calls
  | .addDocument document_id document status ratings :: calls =>
    { id := document_id, words := SplitIntoWordsNoStop s document, status := status,
      ratings := ratings } ::
      ingestedFrom (AddDocument s document_id document status ratings) calls

/-- The documents ingested by a sequence of calls on a fresh server. -/
def ingested (calls : List Call) : List Ingested :=
  ingestedFrom State.init calls

section RankingSpec

variable {R : Type} [LinearOrderedField R]

/-- No minus-word of the query is in the stored word set of the document. -/
def allowedDoc (s : State) (query : Query) (d : Int) : Bool :=
  query.minus_words.all (fun w => decide (w ∉ wordsOf s d))

/-- The document passes both tests of the loop body of `FindAllDocuments`. -/
def passesDoc (s : State) (query : Query) (predicate : Int → DocumentStatus → Int → Bool)
    (d : Int) : Bool :=
  allowedDoc s query d && predicate d (statusOf s d) (ratingOf s d)

/-- The plus-words that add to the relevance of document `d`, in iteration order: those
that are no minus-words and whose entry in `words_to_documents_` holds `d`. -/
def scoringWords (s : State) (query : Query) (d : Int) : List Str :=
  query.plus_words.filter
    (fun w => decide (w ∉ query.minus_words) && decide (d ∈ docsOf s w))

/-- The inverse document frequency of a word, read off the state. -/
def idfOf (log : R → R) (s : State) (w : Str) : R :=
  log ((s.document_count_ : R) / ((docsOf s w).length : R))

/-- The relevance of a document for a query, read off the state. -/
def relevanceOf (log : R → R) (s : State) (query : Query) (d : Int) : R :=
  ((scoringWords s query d).map
    (fun w => idfOf log s w * (((freqOf s w d).getD 0 : ℚ) : R))).sum

/-- The ids of the records of `FindAllDocuments`, ascending. -/
def matchedIds (s : State) (query : Query) (predicate : Int → DocumentStatus → Int → Bool) :
    List Int :=
  (mapKeys s.documents_to_info_).filter
    (fun d => passesDoc s query predicate d && decide (scoringWords s query d ≠ []))

/-- The records of `FindAllDocuments`, read off the state. -/
def matchedDocuments (log : R → R) (s : State) (query : Query)
    (predicate : Int → DocumentStatus → Int → Bool) : List (Document R) :=
  (matchedIds s query predicate).map
    (fun d => { id := d, relevance := relevanceOf log s query d, rating := ratingOf s d })

end RankingSpec

/-! ## The contract of `std::sort` -/

section Sorting

variable {α : Type}

/-- The comparison `comp` is a strict weak ordering on the elements of `l`: irreflexive,
transitive, and with a transitive incomparability. -/
def StrictWeakOn (comp : α → α → Bool) (l : List α) : Prop :=
  (∀ a ∈ l, comp a a = false) ∧
  (∀ a ∈ l, ∀ b ∈ l, ∀ c ∈ l, comp a b = true → comp b c = true → comp a c = true) ∧
  (∀ a ∈ l, ∀ b ∈ l, ∀ c ∈ l, comp a b = false → comp b a = false →
    comp b c = false → comp c b = false → comp a c = false ∧ comp c a = false)

/-- The precondition of `std::sort` can be tested. -/
instance StrictWeakOn.decidable (comp : α → α → Bool) (l : List α) :
    Decidable (StrictWeakOn comp l) := by
  unfold StrictWeakOn
  infer_instance

/-- What is assumed of `std::sort`: when the comparison is a strict weak ordering on the
input, the call returns a rearrangement of the input in which no element is ordered
before one that precedes it. When it is not, the behaviour of `std::sort` is undefined
and nothing is assumed: the call may not return, or may return any list. -/
structure SortContract (sort : (α → α → Bool) → List α → Except Error (List α)) : Prop where
  sorted : ∀ comp l, StrictWeakOn comp l →
    ∃ out, sort comp l = .ok out ∧ out.Perm l ∧ out.Pairwise (fun a b => comp b a = false)

/-- Insertion of `a` in front of the first element it is ordered before. -/
def insertSorted (comp : α → α → Bool) (a : α) : List α → List α
  | [] => [a]
  | b :: l => if comp a b then a :: b :: l else b :: insertSorted comp a l

/-- Insertion sort. -/
def insertionSort (comp : α → α → Bool) : List α → List α
  | [] => []
  | a :: l => insertSorted comp a (insertionSort comp l)

/-- A `std::sort` that always returns: insertion sort, an instance of `SortContract`. -/
def sortByInsertion (comp : α → α → Bool) (l : List α) : Except Error (List α) :=
  .ok (insertionSort comp l)

/-- A `std::sort` that does not return when it is called outside its precondition, an
instance of `SortContract`. -/
def sortOrFail (comp : α → α → Bool) (l : List α) : Except Error (List α) :=
  if StrictWeakOn comp l then .ok (insertionSort comp l) else .error Error.undefined

/-- A `std::sort` that, called outside its precondition, returns one element `x` that
need not be in its input, an instance of `SortContract`. -/
def sortOrForeign (x : α) (comp : α → α → Bool) (l : List α) : Except Error (List α) :=
  if StrictWeakOn comp l then .ok (insertionSort comp l) else .ok [x]

end Sorting

/-! ## Properties of results -/

/-- The ids passed to `AddDocument` by a sequence of calls, in call order. -/
def addedIds : List Call → List Int
  | [] => []
  | .setStopWords _ :: calls => addedIds calls
  | .addDocument document_id _ _ _ :: calls => document_id :: addedIds calls

/-- A call of the `const` method `MatchDocument` as a state transition: what it returns
or throws, and the state it leaves. -/
def MatchDocumentCall (s : State) (raw_query : Str) (document_id : Int) :
    Except Error (List Str × DocumentStatus) × State :=
  (MatchDocument s raw_query document_id, s)

/-- The term frequency of a word in an ingested document: its occurrences among the
stop-filtered words of the text, divided by their number. -/
def termFrequency (D : Ingested) (w : Str) : ℚ :=
  (D.words.count w : ℚ) / (D.words.length : ℚ)

/-- The number of ingested documents that contain a word. -/
def documentFrequency (calls : List Call) (w : Str) : Nat :=
  ((ingested calls).filter (fun D => decide (w ∈ D.words))).length

section ResultProperties

variable {R : Type} [LinearOrderedField R]

/-- Record `a` is ranked strictly above record `b`: it has a strictly greater relevance,
or a relevance within `EPSILON` together with a strictly greater rating. -/
def RankedAbove (a b : Document R) : Prop :=
  a.relevance > b.relevance ∨
    (|a.relevance - b.relevance| < EPSILON ∧ a.rating > b.rating)

/-- No two records have relevances that differ by a non-zero amount below `EPSILON`. -/
def NoNearTies (l : List (Document R)) : Prop :=
  ∀ a ∈ l, ∀ b ∈ l, a.relevance = b.relevance ∨ EPSILON ≤ |a.relevance - b.relevance|

end ResultProperties

section IngestedRecords

variable {R : Type} [LinearOrderedField R]

/-- The two tests of the loop body of `FindAllDocuments` and the presence of a scoring
plus-word, in terms of what was ingested for the document. -/
def ingestedMatches (query : Query) (predicate : Int → DocumentStatus → Int → Bool)
    (D : Ingested) : Bool :=
  (query.minus_words.all (fun w => decide (w ∉ D.words)) &&
      predicate D.id (if D.words ≠ [] then D.status else DocumentStatus.ACTUAL)
        (ComputeAverageRating D.ratings)) &&
    decide (query.plus_words.filter
      (fun w => decide (w ∉ query.minus_words) && decide (w ∈ D.words)) ≠ [])

/-- The relevance of an ingested document, in terms of what was ingested. -/
def ingestedRelevance (log : R → R) (L : List Ingested) (query : Query) (D : Ingested) : R :=
  ((query.plus_words.filter
      (fun w => decide (w ∉ query.minus_words) && decide (w ∈ D.words))).map
    (fun w => log ((L.length : R) / ((L.filter (fun E => decide (w ∈ E.words))).length : R)) *
      ((termFrequency D w : ℚ) : R))).sum

/-- The records of `FindAllDocuments`, in terms of what was ingested. -/
def ingestedRecords (log : R → R) (L : List Ingested) (query : Query)
    (predicate : Int → DocumentStatus → Int → Bool) : List (Document R) :=
  (L.filter (ingestedMatches query predicate)).map
    (fun D => { id := D.id, relevance := ingestedRelevance log L query D,
                rating := ComputeAverageRating D.ratings })

end IngestedRecords

/-- The numbers behind one summand of a relevance: the number of ingested documents,
the number of those that contain the word, the occurrences of the word in the document,
and the word count of the document. -/
structure Summand where
  total : Nat
  containing : Nat
  occurrences : Nat
  length : Nat
  deriving DecidableEq

/-- A record of `FindAllDocuments` with its relevance left as the numbers behind its
summands. -/
structure Skeleton where
  id : Int
  summands : List Summand
  rating : Int
  deriving DecidableEq

/-- The summands of the relevance of an ingested document, one per scoring plus-word. -/
def ingestedSummands (L : List Ingested) (query : Query) (D : Ingested) : List Summand :=
  (query.plus_words.filter
      (fun w => decide (w ∉ query.minus_words) && decide (w ∈ D.words))).map
    (fun w =>
      { total := L.length,
        containing := (L.filter (fun E => decide (w ∈ E.words))).length,
        occurrences := D.words.count w,
        length := D.words.length })

/-- The records of `FindAllDocuments` as skeletons. -/
def ingestedSkeleton (L : List Ingested) (query : Query)
    (predicate : Int → DocumentStatus → Int → Bool) : List Skeleton :=
  (L.filter (ingestedMatches query predicate)).map
    (fun D =>
      { id := D.id, summands := ingestedSummands L query D,
        rating := ComputeAverageRating D.ratings })

section Summands

variable {R : Type} [LinearOrderedField R]

/-- The value of a summand: the logarithm of the number of documents over the document
frequency, times the occurrences over the word count. -/
def summandValue (log : R → R) (t : Summand) : R :=
  log ((t.total : R) / (t.containing : R)) * ((t.occurrences : R) / (t.length : R))

/-- The record that a skeleton stands for. -/
def skeletonRecord (log : R → R) (e : Skeleton) : Document R :=
  { id := e.id, relevance := (e.summands.map (summandValue log)).sum, rating := e.rating }

end Summands

/-! ## Two further call sequences -/

/-- The text that starts with the word `w` and goes on with `k` times the word `x`, the
words separated by one space. -/
def paddedText (k : Nat) : Str :=
  'w' :: (List.replicate k [' ', 'x']).flatten

/-- Six documents that hold the word `w` once among 1000 to 1005 words, with the ratings
0 to 5, and a seventh document without `w`. -/
def nearTieCalls : List Call :=
  [ .addDocument 0 (paddedText 999) .ACTUAL [0],
    .addDocument 1 (paddedText 1000) .ACTUAL [1],
    .addDocument 2 (paddedText 1001) .ACTUAL [2],
    .addDocument 3 (paddedText 1002) .ACTUAL [3],
    .addDocument 4 (paddedText 1003) .ACTUAL [4],
    .addDocument 5 (paddedText 1004) .ACTUAL [5],
    .addDocument 6 ['x'] .ACTUAL [] ]

/-- Six documents that hold the word `w` once among 1 to 6 words, with the ratings 0 to
5, and a seventh document without `w`. -/
def spreadCalls : List Call :=
  [ .addDocument 0 (paddedText 0) .ACTUAL [0],
    .addDocument 1 (paddedText 1) .ACTUAL [1],
    .addDocument 2 (paddedText 2) .ACTUAL [2],
    .addDocument 3 (paddedText 3) .ACTUAL [3],
    .addDocument 4 (paddedText 4) .ACTUAL [4],
    .addDocument 5 (paddedText 5) .ACTUAL [5],
    .addDocument 6 ['x'] .ACTUAL [] ]

/-- The query that asks for the word `w`. -/
def wQuery : Str := ['w']

/-- What `nearTieCalls` ingests. -/
def nearTieIngested : List Ingested :=
  [ { id := 0, words := ['w'] :: List.replicate 999 ['x'], status := .ACTUAL, ratings := [0] },
    { id := 1, words := ['w'] :: List.replicate 1000 ['x'], status := .ACTUAL, ratings := [1] },
    { id := 2, words := ['w'] :: List.replicate 1001 ['x'], status := .ACTUAL, ratings := [2] },
    { id := 3, words := ['w'] :: List.replicate 1002 ['x'], status := .ACTUAL, ratings := [3] },
    { id := 4, words := ['w'] :: List.replicate 1003 ['x'], status := .ACTUAL, ratings := [4] },
    { id := 5, words := ['w'] :: List.replicate 1004 ['x'], status := .ACTUAL, ratings := [5] },
    { id := 6, words := [['x']], status := .ACTUAL, ratings := [] } ]

/-- The records that `FindAllDocuments` finds for `wQuery` after `nearTieCalls`, as
skeletons. -/
def nearTieSkeleton : List Skeleton :=
  [⟨0, [⟨7, 6, 1, 1000⟩], 0⟩, ⟨1, [⟨7, 6, 1, 1001⟩], 1⟩, ⟨2, [⟨7, 6, 1, 1002⟩], 2⟩,
   ⟨3, [⟨7, 6, 1, 1003⟩], 3⟩, ⟨4, [⟨7, 6, 1, 1004⟩], 4⟩, ⟨5, [⟨7, 6, 1, 1005⟩], 5⟩]

/-- The records that `FindAllDocuments` finds for `wQuery` after `spreadCalls`, as
skeletons. -/
def spreadSkeleton : List Skeleton :=
  [⟨0, [⟨7, 6, 1, 1⟩], 0⟩, ⟨1, [⟨7, 6, 1, 2⟩], 1⟩, ⟨2, [⟨7, 6, 1, 3⟩], 2⟩,
   ⟨3, [⟨7, 6, 1, 4⟩], 3⟩, ⟨4, [⟨7, 6, 1, 5⟩], 4⟩, ⟨5, [⟨7, 6, 1, 6⟩], 5⟩]

/-! ## Further notions -/

/-- Following the description of the tokenizer: the pieces obtained by cutting the text
at every space, the empty pieces dropped. -/
def piecesBetweenSpaces (text : Str) : List Str :=
  (text.splitOn ' ').filter (fun piece => decide (piece ≠ []))

/-- The value fits a 32-bit signed `int`. -/
def FitsInt32 (x : Int) : Prop :=
  -2147483648 ≤ x ∧ x < 2147483648

/-- One call that ingests a text without words under a new id. -/
def emptyTextCalls : List Call :=
  [ .addDocument 7 [] .BANNED [1] ]

/-- Two calls that ingest the text `a` under the same id. -/
def readdCalls : List Call :=
  [ .addDocument 0 ['a'] .ACTUAL [], .addDocument 0 ['a'] .ACTUAL [] ]

/-- One call that makes `cat` a stop word. -/
def stopCatCalls : List Call :=
  [ .setStopWords "cat".toList ]

/-- A rating sequence of 2^32 + 1 entries: a one followed by zeros. -/
def longRatings : List Int :=
  1 :: List.replicate 4294967296 0

/-- Seventeen documents that hold the word `w` once among 1000 to 1016 words, with the
ratings 0 to 16, and an eighteenth document that holds the word `z` only. -/
def crowdCalls : List Call :=
  [ .addDocument 0 (paddedText 999) .ACTUAL [0],
    .addDocument 1 (paddedText 1000) .ACTUAL [1],
    .addDocument 2 (paddedText 1001) .ACTUAL [2],
    .addDocument 3 (paddedText 1002) .ACTUAL [3],
    .addDocument 4 (paddedText 1003) .ACTUAL [4],
    .addDocument 5 (paddedText 1004) .ACTUAL [5],
    .addDocument 6 (paddedText 1005) .ACTUAL [6],
    .addDocument 7 (paddedText 1006) .ACTUAL [7],
    .addDocument 8 (paddedText 1007) .ACTUAL [8],
    .addDocument 9 (paddedText 1008) .ACTUAL [9],
    .addDocument 10 (paddedText 1009) .ACTUAL [10],
    .addDocument 11 (paddedText 1010) .ACTUAL [11],
    .addDocument 12 (paddedText 1011) .ACTUAL [12],
    .addDocument 13 (paddedText 1012) .ACTUAL [13],
    .addDocument 14 (paddedText 1013) .ACTUAL [14],
    .addDocument 15 (paddedText 1014) .ACTUAL [15],
    .addDocument 16 (paddedText 1015) .ACTUAL [16],
    .addDocument 17 ['z'] .ACTUAL [] ]

/-- What `crowdCalls` ingests. -/
def crowdIngested : List Ingested :=
  [ { id := 0, words := ['w'] :: List.replicate 999 ['x'], status := .ACTUAL,
      ratings := [0] },
    { id := 1, words := ['w'] :: List.replicate 1000 ['x'], status := .ACTUAL,
      ratings := [1] },
    { id := 2, words := ['w'] :: List.replicate 1001 ['x'], status := .ACTUAL,
      ratings := [2] },
    { id := 3, words := ['w'] :: List.replicate 1002 ['x'], status := .ACTUAL,
      ratings := [3] },
    { id := 4, words := ['w'] :: List.replicate 1003 ['x'], status := .ACTUAL,
      ratings := [4] },
    { id := 5, words := ['w'] :: List.replicate 1004 ['x'], status := .ACTUAL,
      ratings := [5] },
    { id := 6, words := ['w'] :: List.replicate 1005 ['x'], status := .ACTUAL,
      ratings := [6] },
    { id := 7, words := ['w'] :: List.replicate 1006 ['x'], status := .ACTUAL,
      ratings := [7] },
    { id := 8, words := ['w'] :: List.replicate 1007 ['x'], status := .ACTUAL,
      ratings := [8] },
    { id := 9, words := ['w'] :: List.replicate 1008 ['x'], status := .ACTUAL,
      ratings := [9] },
    { id := 10, words := ['w'] :: List.replicate 1009 ['x'], status := .ACTUAL,
      ratings := [10] },
    { id := 11, words := ['w'] :: List.replicate 1010 ['x'], status := .ACTUAL,
      ratings := [11] },
    { id := 12, words := ['w'] :: List.replicate 1011 ['x'], status := .ACTUAL,
      ratings := [12] },
    { id := 13, words := ['w'] :: List.replicate 1012 ['x'], status := .ACTUAL,
      ratings := [13] },
    { id := 14, words := ['w'] :: List.replicate 1013 ['x'], status := .ACTUAL,
      ratings := [14] },
    { id := 15, words := ['w'] :: List.replicate 1014 ['x'], status := .ACTUAL,
      ratings := [15] },
    { id := 16, words := ['w'] :: List.replicate 1015 ['x'], status := .ACTUAL,
      ratings := [16] },
    { id := 17, words := [['z']], status := .ACTUAL, ratings := [] } ]

/-- The records that `FindAllDocuments` finds for `wQuery` after `crowdCalls`, as
skeletons. -/
def crowdSkeleton : List Skeleton :=
  [⟨0, [⟨18, 17, 1, 1000⟩], 0⟩, ⟨1, [⟨18, 17, 1, 1001⟩], 1⟩, ⟨2, [⟨18, 17, 1, 1002⟩], 2⟩,
   ⟨3, [⟨18, 17, 1, 1003⟩], 3⟩, ⟨4, [⟨18, 17, 1, 1004⟩], 4⟩, ⟨5, [⟨18, 17, 1, 1005⟩], 5⟩,
   ⟨6, [⟨18, 17, 1, 1006⟩], 6⟩, ⟨7, [⟨18, 17, 1, 1007⟩], 7⟩, ⟨8, [⟨18, 17, 1, 1008⟩], 8⟩,
   ⟨9, [⟨18, 17, 1, 1009⟩], 9⟩, ⟨10, [⟨18, 17, 1, 1010⟩], 10⟩, ⟨11, [⟨18, 17, 1, 1011⟩], 11⟩,
   ⟨12, [⟨18, 17, 1, 1012⟩], 12⟩, ⟨13, [⟨18, 17, 1, 1013⟩], 13⟩, ⟨14, [⟨18, 17, 1, 1014⟩], 14⟩,
   ⟨15, [⟨18, 17, 1, 1015⟩], 15⟩, ⟨16, [⟨18, 17, 1, 1016⟩], 16⟩]

/-- The query that asks for the word `w` and excludes the word `z`. -/
def crowdQuery : Str := "w -z".toList

/-- A record that `FindAllDocuments` does not produce for `crowdQuery` after `crowdCalls`:
it bears the id of the document that holds the word `z` only, and the relevance 1. -/
def foreignRecord {R : Type} [LinearOrderedField R] : Document R :=
  { id := 17, relevance := 1, rating := 0 }

/-! ## Ordered containers: lemmas -/

section ContainerLemmas

variable {κ : Type} {ν : Type} [LinearOrder κ]

theorem mem_setInsert (a x : κ) (l : List κ) : x ∈ setInsert a l ↔ x = a ∨ x ∈ l := by
  induction l with
  | nil => simp [setInsert]
  | cons b l ih =>
    unfold setInsert
    split_ifs with h1 h2
    · simp
    · simp only [List.mem_cons, ih]; tauto
    · have hab : a = b := le_antisymm (not_lt.mp h2) (not_lt.mp h1)
      subst hab; simp

theorem setInsert_sorted (a : κ) (l : List κ) (hl : l.Pairwise (· < ·)) :
    (setInsert a l).Pairwise (· < ·) := by
  induction l with
  | nil => simp [setInsert]
  | cons b l ih =>
    have hb := List.pairwise_cons.mp hl
    unfold setInsert
    split_ifs with h1 h2
    · refine List.pairwise_cons.mpr ⟨?_, hl⟩
      intro x hx
      rcases List.mem_cons.mp hx with rfl | hx
      · exact h1
      · exact lt_trans h1 (hb.1 x hx)
    · refine List.pairwise_cons.mpr ⟨?_, ih hb.2⟩
      intro x hx
      rcases (mem_setInsert a x l).mp hx with rfl | hx
      · exact h2
      · exact hb.1 x hx
    · exact hl

theorem setInsert_length (a : κ) (l : List κ) (hl : l.Pairwise (· < ·)) :
    (setInsert a l).length = if a ∈ l then l.length else l.length + 1 := by
  induction l with
  | nil => simp [setInsert]
  | cons b l ih =>
    have hb := List.pairwise_cons.mp hl
    rcases lt_trichotomy a b with h | h | h
    · have hn : a ∉ b :: l := by
        intro hx
        rcases List.mem_cons.mp hx with rfl | hx
        · exact lt_irrefl _ h
        · exact lt_asymm h (hb.1 a hx)
      simp [setInsert, h, hn]
    · subst h; simp [setInsert]
    · have h1 : ¬ a < b := not_lt.mpr h.le
      have hne : a ≠ b := ne_of_gt h
      simp only [setInsert, if_neg h1, if_pos h, List.length_cons, ih hb.2, List.mem_cons, hne,
        false_or]
      split_ifs <;> rfl

theorem setInsert_ne_nil (a : κ) (l : List κ) : setInsert a l ≠ [] := by
  intro h
  have := (mem_setInsert a a l).mpr (Or.inl rfl)
  rw [h] at this
  exact List.not_mem_nil _ this

theorem setCount_pos_iff (a : κ) (l : List κ) : setCount a l > 0 ↔ a ∈ l := by
  unfold setCount
  split_ifs with h <;> simp [h]

theorem mem_setErase (a x : κ) (l : List κ) : x ∈ setErase a l ↔ x ∈ l ∧ x ≠ a := by
  simp [setErase]

theorem setErase_sorted (a : κ) (l : List κ) (hl : l.Pairwise (· < ·)) :
    (setErase a l).Pairwise (· < ·) :=
  hl.filter _

theorem mapFind_eq_none_iff (k : κ) (m : List (κ × ν)) :
    mapFind k m = none ↔ k ∉ mapKeys m := by
  induction m with
  | nil => simp [mapFind, mapKeys]
  | cons p m ih =>
    obtain ⟨k', v⟩ := p
    unfold mapFind
    split_ifs with h
    · subst h; simp [mapKeys]
    · simp only [ih, mapKeys, List.map_cons, List.mem_cons, not_or]
      exact ⟨fun hm => ⟨h, hm⟩, fun hm => hm.2⟩

theorem mapFind_isSome_iff (k : κ) (m : List (κ × ν)) :
    (mapFind k m).isSome ↔ k ∈ mapKeys m := by
  rw [← not_iff_not, ← mapFind_eq_none_iff]
  cases mapFind k m <;> simp

theorem mapFind_mem (k : κ) (v : ν) (m : List (κ × ν)) (h : mapFind k m = some v) :
    (k, v) ∈ m := by
  induction m with
  | nil => simp [mapFind] at h
  | cons p m ih =>
    obtain ⟨k', v'⟩ := p
    unfold mapFind at h
    split_ifs at h with hk
    · subst hk; simp at h; subst h; exact List.mem_cons_self _ _
    · exact List.mem_cons_of_mem _ (ih h)

theorem mapFind_of_mem (k : κ) (v : ν) (m : List (κ × ν))
    (hm : (mapKeys m).Pairwise (· < ·)) (h : (k, v) ∈ m) : mapFind k m = some v := by
  induction m with
  | nil => simp at h
  | cons p m ih =>
    obtain ⟨k', v'⟩ := p
    have hs := List.pairwise_cons.mp hm
    unfold mapFind
    rcases List.mem_cons.mp h with heq | hin
    · simp only [Prod.mk.injEq] at heq
      simp [heq.1, heq.2]
    · have hk : k ∈ mapKeys m := List.mem_map.mpr ⟨(k, v), hin, rfl⟩
      have hlt : k' < k := hs.1 k hk
      rw [if_neg (ne_of_gt hlt)]
      exact ih hs.2 hin

theorem mem_mapKeys_mapUpdate (k x : κ) (d : ν) (f : ν → ν) (m : List (κ × ν)) :
    x ∈ mapKeys (mapUpdate k d f m) ↔ x = k ∨ x ∈ mapKeys m := by
  induction m with
  | nil => simp [mapUpdate, mapKeys]
  | cons p m ih =>
    obtain ⟨k', v⟩ := p
    unfold mapUpdate
    split_ifs with h1 h2
    · simp [mapKeys]
    · simp only [mapKeys, List.map_cons, List.mem_cons] at ih ⊢
      rw [ih]; tauto
    · have hab : k = k' := le_antisymm (not_lt.mp h2) (not_lt.mp h1)
      subst hab; simp [mapKeys]

theorem mapUpdate_sorted (k : κ) (d : ν) (f : ν → ν) (m : List (κ × ν))
    (hm : (mapKeys m).Pairwise (· < ·)) : (mapKeys (mapUpdate k d f m)).Pairwise (· < ·) := by
  induction m with
  | nil => simp [mapUpdate, mapKeys]
  | cons p m ih =>
    obtain ⟨k', v⟩ := p
    have hs := List.pairwise_cons.mp hm
    unfold mapUpdate
    split_ifs with h1 h2
    · refine List.pairwise_cons.mpr ⟨?_, hm⟩
      intro x hx
      rcases List.mem_cons.mp hx with rfl | hx
      · exact h1
      · exact lt_trans h1 (hs.1 x hx)
    · refine List.pairwise_cons.mpr ⟨?_, ih hs.2⟩
      intro x hx
      rcases (mem_mapKeys_mapUpdate k x d f m).mp hx with rfl | hx
      · exact h2
      · exact hs.1 x hx
    · exact hm

theorem mapFind_mapUpdate (k x : κ) (d : ν) (f : ν → ν) (m : List (κ × ν))
    (hm : (mapKeys m).Pairwise (· < ·)) :
    mapFind x (mapUpdate k d f m) =
      if x = k then some (f ((mapFind k m).getD d)) else mapFind x m := by
  induction m with
  | nil =>
    by_cases hx : x = k <;> simp [mapUpdate, mapFind, hx]
  | cons p m ih =>
    obtain ⟨k', v⟩ := p
    have hs := List.pairwise_cons.mp hm
    rcases lt_trichotomy k k' with h | h | h
    · have hnone : mapFind k ((k', v) :: m) = none := by
        rw [mapFind_eq_none_iff]
        intro hx
        rcases List.mem_cons.mp hx with h0 | hx
        · exact lt_irrefl _ (h0 ▸ h)
        · exact lt_asymm h (hs.1 k hx)
      rw [hnone]
      simp only [mapUpdate, if_pos h]
      by_cases hx : x = k
      · subst hx; simp [mapFind]
      · rw [if_neg hx]
        conv_lhs => unfold mapFind
        rw [if_neg hx]
    · subst h
      simp only [mapUpdate, lt_irrefl, if_false]
      by_cases hx : x = k <;> simp [mapFind, hx]
    · have h1 : ¬ k < k' := not_lt.mpr h.le
      have hne : k ≠ k' := ne_of_gt h
      simp only [mapUpdate, if_neg h1, if_pos h]
      by_cases hx : x = k'
      · subst hx
        simp [mapFind, hne.symm]
      · conv_lhs => unfold mapFind
        rw [if_neg hx, ih hs.2]
        by_cases hxk : x = k
        · subst hxk; simp [mapFind, hne]
        · simp [mapFind, hx, hxk]

theorem mapUpdate_length (k : κ) (d : ν) (f : ν → ν) (m : List (κ × ν))
    (hm : (mapKeys m).Pairwise (· < ·)) :
    (mapUpdate k d f m).length = if k ∈ mapKeys m then m.length else m.length + 1 := by
  have h1 : (mapKeys (mapUpdate k d f m)).length = (setInsert k (mapKeys m)).length := by
    clear hm
    induction m with
    | nil => simp [mapUpdate, mapKeys, setInsert]
    | cons p m ih =>
      obtain ⟨k', v⟩ := p
      simp only [mapUpdate, mapKeys, List.map_cons, setInsert]
      split_ifs <;> simp_all [mapKeys]
  have h2 := setInsert_length k (mapKeys m) hm
  simp only [mapKeys, List.length_map] at h1 h2 ⊢
  rw [h1, h2]

theorem mapSorted_ext (m₁ m₂ : List (κ × ν)) (h₁ : (mapKeys m₁).Pairwise (· < ·))
    (h₂ : (mapKeys m₂).Pairwise (· < ·)) (h : ∀ k, mapFind k m₁ = mapFind k m₂) :
    m₁ = m₂ := by
  induction m₁ generalizing m₂ with
  | nil =>
    cases m₂ with
    | nil => rfl
    | cons p m₂ =>
      obtain ⟨k, v⟩ := p
      have := h k
      simp [mapFind] at this
  | cons p m₁ ih =>
    obtain ⟨k, v⟩ := p
    cases m₂ with
    | nil =>
      have := h k
      simp [mapFind] at this
    | cons p₂ m₂ =>
      obtain ⟨k₂, v₂⟩ := p₂
      have hs₁ := List.pairwise_cons.mp h₁
      have hs₂ := List.pairwise_cons.mp h₂
      have hk : k = k₂ := by
        by_contra hne
        rcases lt_or_gt_of_ne hne with hlt | hgt
        · have e := h k
          have hnone : mapFind k ((k₂, v₂) :: m₂) = none := by
            rw [mapFind_eq_none_iff]
            intro hx
            rcases List.mem_cons.mp hx with h0 | hx
            · exact hne h0
            · exact lt_asymm hlt (hs₂.1 k hx)
          rw [hnone] at e
          simp [mapFind] at e
        · have e := h k₂
          have hnone : mapFind k₂ ((k, v) :: m₁) = none := by
            rw [mapFind_eq_none_iff]
            intro hx
            rcases List.mem_cons.mp hx with h0 | hx
            · exact hne h0.symm
            · exact lt_asymm hgt (hs₁.1 k₂ hx)
          rw [hnone] at e
          simp [mapFind] at e
      subst hk
      have hv : v = v₂ := by
        have e := h k
        simpa [mapFind] using e
      subst hv
      have hrest : m₁ = m₂ := by
        apply ih m₂ hs₁.2 hs₂.2
        intro x
        have e := h x
        by_cases hx : x = k
        · subst hx
          have n₁ : mapFind x m₁ = none := by
            rw [mapFind_eq_none_iff]; exact fun hx => lt_irrefl _ (hs₁.1 x hx)
          have n₂ : mapFind x m₂ = none := by
            rw [mapFind_eq_none_iff]; exact fun hx => lt_irrefl _ (hs₂.1 x hx)
          rw [n₁, n₂]
        · simpa [mapFind, hx] using e
      rw [hrest]

end ContainerLemmas

/-! ## The loop body of `AddDocument` -/

theorem AddDocumentWord_info_find (document_id : Int) (status : DocumentStatus) (inv : ℚ)
    (s : State) (word : Str) (h : WF s) (d : Int) :
    mapFind d (AddDocumentWord document_id status inv s word).documents_to_info_ =
      if d = document_id then
        some { words := setInsert word (wordsOf s document_id), status := status,
               rating := ratingOf s document_id }
      else mapFind d s.documents_to_info_ := by
  unfold AddDocumentWord
  simp only
  rw [mapFind_mapUpdate _ _ _ _ _ (mapUpdate_sorted _ _ _ _ h.info_sorted)]
  by_cases hd : d = document_id
  · subst hd
    rw [if_pos rfl, if_pos rfl, mapFind_mapUpdate _ _ _ _ _ h.info_sorted, if_pos rfl]
    cases hfind : mapFind d s.documents_to_info_ <;>
      simp [wordsOf, ratingOf, hfind, DocumentInformation.init]
  · rw [if_neg hd, if_neg hd, mapFind_mapUpdate _ _ _ _ _ h.info_sorted, if_neg hd]

theorem AddDocumentWord_docs_find (document_id : Int) (status : DocumentStatus) (inv : ℚ)
    (s : State) (word : Str) (h : WF s) (w : Str) :
    mapFind w (AddDocumentWord document_id status inv s word).words_to_documents_ =
      if w = word then some (setInsert document_id (docsOf s word))
      else mapFind w s.words_to_documents_ := by
  unfold AddDocumentWord
  simp only
  rw [mapFind_mapUpdate _ _ _ _ _ h.docs_sorted]
  by_cases hw : w = word
  · simp [hw, docsOf]
  · simp [hw]

theorem AddDocumentWord_freq_find (document_id : Int) (status : DocumentStatus) (inv : ℚ)
    (s : State) (word : Str) (h : WF s) (w : Str) :
    mapFind w (AddDocumentWord document_id status inv s word).words_to_frequencies_ =
      if w = word then
        some (mapUpdate document_id 0 (fun tf => tf + inv)
          ((mapFind word s.words_to_frequencies_).getD []))
      else mapFind w s.words_to_frequencies_ := by
  unfold AddDocumentWord
  simp only
  rw [mapFind_mapUpdate _ _ _ _ _ h.freq_sorted]
  by_cases hw : w = word
  · simp [hw]
  · simp [hw]

theorem AddDocumentWord_wordsOf (document_id : Int) (status : DocumentStatus) (inv : ℚ)
    (s : State) (word : Str) (h : WF s) (d : Int) :
    wordsOf (AddDocumentWord document_id status inv s word) d =
      if d = document_id then setInsert word (wordsOf s document_id) else wordsOf s d := by
  unfold wordsOf
  rw [AddDocumentWord_info_find _ _ _ _ _ h]
  by_cases hd : d = document_id
  · simp [hd, wordsOf]
  · simp [hd]

theorem AddDocumentWord_ratingOf (document_id : Int) (status : DocumentStatus) (inv : ℚ)
    (s : State) (word : Str) (h : WF s) (d : Int) :
    ratingOf (AddDocumentWord document_id status inv s word) d = ratingOf s d := by
  unfold ratingOf
  rw [AddDocumentWord_info_find _ _ _ _ _ h]
  by_cases hd : d = document_id
  · simp [hd, ratingOf]
  · simp [hd]

theorem AddDocumentWord_statusOf (document_id : Int) (status : DocumentStatus) (inv : ℚ)
    (s : State) (word : Str) (h : WF s) (d : Int) :
    statusOf (AddDocumentWord document_id status inv s word) d =
      if d = document_id then status else statusOf s d := by
  unfold statusOf
  rw [AddDocumentWord_info_find _ _ _ _ _ h]
  by_cases hd : d = document_id
  · simp [hd]
  · simp [hd]

theorem AddDocumentWord_docsOf (document_id : Int) (status : DocumentStatus) (inv : ℚ)
    (s : State) (word : Str) (h : WF s) (w : Str) :
    docsOf (AddDocumentWord document_id status inv s word) w =
      if w = word then setInsert document_id (docsOf s word) else docsOf s w := by
  unfold docsOf
  rw [AddDocumentWord_docs_find _ _ _ _ _ h]
  by_cases hw : w = word
  · simp [hw, docsOf]
  · simp [hw]

theorem AddDocumentWord_freqOf (document_id : Int) (status : DocumentStatus) (inv : ℚ)
    (s : State) (word : Str) (h : WF s) (w : Str) (d : Int) :
    freqOf (AddDocumentWord document_id status inv s word) w d =
      if w = word ∧ d = document_id then some ((freqOf s w d).getD 0 + inv)
      else freqOf s w d := by
  unfold freqOf
  rw [AddDocumentWord_freq_find _ _ _ _ _ h]
  by_cases hw : w = word
  · subst hw
    have hin : (mapKeys ((mapFind w s.words_to_frequencies_).getD [])).Pairwise (· < ·) := by
      cases hfind : mapFind w s.words_to_frequencies_ with
      | none => simp [mapKeys]
      | some m => simpa using h.freq_inner w m hfind
    have hup := mapFind_mapUpdate document_id d (0 : ℚ) (fun tf => tf + inv) _ hin
    by_cases hd : d = document_id
    · subst hd
      cases hfind : mapFind w s.words_to_frequencies_ <;> simp_all [mapFind]
    · cases hfind : mapFind w s.words_to_frequencies_ <;> simp_all [mapFind]
  · simp [hw]

theorem AddDocumentWord_WF (document_id : Int) (status : DocumentStatus) (inv : ℚ)
    (s : State) (word : Str) (h : WF s) :
    WF (AddDocumentWord document_id status inv s word) := by
  refine ⟨?_, ?_, ?_, ?_, ?_, ?_⟩
  · exact mapUpdate_sorted _ _ _ _ (mapUpdate_sorted _ _ _ _ h.info_sorted)
  · exact mapUpdate_sorted _ _ _ _ h.docs_sorted
  · exact mapUpdate_sorted _ _ _ _ h.freq_sorted
  · intro w l hl
    rw [AddDocumentWord_docs_find _ _ _ _ _ h] at hl
    by_cases hw : w = word
    · rw [if_pos hw] at hl
      cases hl
      apply setInsert_sorted
      unfold docsOf
      cases hfind : mapFind word s.words_to_documents_ with
      | none => simp
      | some m => simpa using h.docs_inner word m hfind
    · rw [if_neg hw] at hl
      exact h.docs_inner w l hl
  · intro w m hm
    rw [AddDocumentWord_freq_find _ _ _ _ _ h] at hm
    by_cases hw : w = word
    · rw [if_pos hw] at hm
      cases hm
      apply mapUpdate_sorted
      cases hfind : mapFind word s.words_to_frequencies_ with
      | none => simp [mapKeys]
      | some m => simpa using h.freq_inner word m hfind
    · rw [if_neg hw] at hm
      exact h.freq_inner w m hm
  · intro d i hi
    rw [AddDocumentWord_info_find _ _ _ _ _ h] at hi
    by_cases hd : d = document_id
    · rw [if_pos hd] at hi
      cases hi
      apply setInsert_sorted
      unfold wordsOf
      cases hfind : mapFind document_id s.documents_to_info_ with
      | none => simp
      | some i => simpa using h.words_inner document_id i hfind
    · rw [if_neg hd] at hi
      exact h.words_inner d i hi

theorem AddDocumentWord_Inv (document_id : Int) (status : DocumentStatus) (inv : ℚ)
    (s : State) (word : Str) (h : Inv s) :
    Inv (AddDocumentWord document_id status inv s word) := by
  have hwf := h.toWF
  refine { toWF := AddDocumentWord_WF _ _ _ _ _ hwf, docs_nonempty := ?_, docs_words := ?_,
           docs_freq := ?_ }
  · intro w l hl
    rw [AddDocumentWord_docs_find _ _ _ _ _ hwf] at hl
    by_cases hw : w = word
    · rw [if_pos hw] at hl
      cases hl
      exact setInsert_ne_nil _ _
    · rw [if_neg hw] at hl
      exact h.docs_nonempty w l hl
  · intro w d
    rw [AddDocumentWord_docsOf _ _ _ _ _ hwf, AddDocumentWord_wordsOf _ _ _ _ _ hwf]
    by_cases hw : w = word <;> by_cases hd : d = document_id
    · simp [hw, hd, mem_setInsert]
    · subst hw
      simp [hd, mem_setInsert, h.docs_words]
    · subst hd
      simp [hw, mem_setInsert, h.docs_words]
    · simp [hw, hd, h.docs_words]
  · intro w d
    rw [AddDocumentWord_docsOf _ _ _ _ _ hwf, AddDocumentWord_freqOf _ _ _ _ _ hwf]
    by_cases hw : w = word <;> by_cases hd : d = document_id
    · simp [hw, hd, mem_setInsert]
    · subst hw
      simp [hd, mem_setInsert, h.docs_freq]
    · subst hd
      simp [hw, h.docs_freq]
    · simp [hw, hd, h.docs_freq]

theorem AddDocumentWord_count (document_id : Int) (status : DocumentStatus) (inv : ℚ)
    (s : State) (word : Str) :
    (AddDocumentWord document_id status inv s word).document_count_ = s.document_count_ := rfl

theorem AddDocumentWord_stop (document_id : Int) (status : DocumentStatus) (inv : ℚ)
    (s : State) (word : Str) :
    (AddDocumentWord document_id status inv s word).stop_words_ = s.stop_words_ := rfl

/-! ## The loop of `AddDocument` -/

theorem AddDocumentLoop_Inv (document_id : Int) (status : DocumentStatus) (inv : ℚ)
    (words : List Str) (s : State) (h : Inv s) :
    Inv (words.foldl (AddDocumentWord document_id status inv) s) := by
  induction words generalizing s with
  | nil => exact h
  | cons w ws ih => exact ih _ (AddDocumentWord_Inv _ _ _ _ _ h)

theorem AddDocumentLoop_count (document_id : Int) (status : DocumentStatus) (inv : ℚ)
    (words : List Str) (s : State) :
    (words.foldl (AddDocumentWord document_id status inv) s).document_count_ =
      s.document_count_ := by
  induction words generalizing s with
  | nil => rfl
  | cons w ws ih => rw [List.foldl_cons, ih, AddDocumentWord_count]

theorem AddDocumentLoop_stop (document_id : Int) (status : DocumentStatus) (inv : ℚ)
    (words : List Str) (s : State) :
    (words.foldl (AddDocumentWord document_id status inv) s).stop_words_ = s.stop_words_ := by
  induction words generalizing s with
  | nil => rfl
  | cons w ws ih => rw [List.foldl_cons, ih, AddDocumentWord_stop]

theorem AddDocumentLoop_docsOf (document_id : Int) (status : DocumentStatus) (inv : ℚ)
    (words : List Str) (s : State) (h : Inv s) (w : Str) (d : Int) :
    d ∈ docsOf (words.foldl (AddDocumentWord document_id status inv) s) w ↔
      d ∈ docsOf s w ∨ (d = document_id ∧ w ∈ words) := by
  induction words generalizing s with
  | nil => simp
  | cons w0 ws ih =>
    rw [List.foldl_cons, ih _ (AddDocumentWord_Inv _ _ _ _ _ h),
      AddDocumentWord_docsOf _ _ _ _ _ h.toWF]
    by_cases hw : w = w0
    · subst hw
      simp only [if_true, mem_setInsert, List.mem_cons, true_or, and_true]
      tauto
    · simp [hw]

theorem AddDocumentLoop_freqOf (document_id : Int) (status : DocumentStatus) (inv : ℚ)
    (words : List Str) (s : State) (h : Inv s) (w : Str) (d : Int) :
    (freqOf (words.foldl (AddDocumentWord document_id status inv) s) w d).getD 0 =
      (freqOf s w d).getD 0 + if d = document_id then (words.count w : ℚ) * inv else 0 := by
  induction words generalizing s with
  | nil => simp
  | cons w0 ws ih =>
    rw [List.foldl_cons, ih _ (AddDocumentWord_Inv _ _ _ _ _ h),
      AddDocumentWord_freqOf _ _ _ _ _ h.toWF]
    by_cases hw : w = w0 <;> by_cases hd : d = document_id
    · subst hw; subst hd
      simp only [and_self, if_true, Option.getD_some, List.count_cons_self]
      push_cast
      ring
    · subst hw
      simp [hd]
    · have hw' : ¬ (w0 == w) = true := by simpa using fun e => hw e.symm
      simp [hw, hd, List.count_cons, hw']
    · simp [hw, hd]

theorem AddDocumentLoop_ratingOf (document_id : Int) (status : DocumentStatus) (inv : ℚ)
    (words : List Str) (s : State) (h : Inv s) (d : Int) :
    ratingOf (words.foldl (AddDocumentWord document_id status inv) s) d = ratingOf s d := by
  induction words generalizing s with
  | nil => rfl
  | cons w0 ws ih =>
    rw [List.foldl_cons, ih _ (AddDocumentWord_Inv _ _ _ _ _ h),
      AddDocumentWord_ratingOf _ _ _ _ _ h.toWF]

theorem AddDocumentLoop_statusOf (document_id : Int) (status : DocumentStatus) (inv : ℚ)
    (words : List Str) (s : State) (h : Inv s) (d : Int) :
    statusOf (words.foldl (AddDocumentWord document_id status inv) s) d =
      if d = document_id ∧ words ≠ [] then status else statusOf s d := by
  induction words generalizing s with
  | nil => simp
  | cons w0 ws ih =>
    rw [List.foldl_cons, ih _ (AddDocumentWord_Inv _ _ _ _ _ h),
      AddDocumentWord_statusOf _ _ _ _ _ h.toWF]
    by_cases hd : d = document_id
    · by_cases hws : ws = [] <;> simp [hd, hws]
    · simp [hd]

theorem AddDocumentLoop_keys (document_id : Int) (status : DocumentStatus) (inv : ℚ)
    (words : List Str) (s : State) (h : Inv s) (d : Int) :
    d ∈ mapKeys (words.foldl (AddDocumentWord document_id status inv) s).documents_to_info_ ↔
      d ∈ mapKeys s.documents_to_info_ ∨ (d = document_id ∧ words ≠ []) := by
  induction words generalizing s with
  | nil => simp
  | cons w0 ws ih =>
    rw [List.foldl_cons, ih _ (AddDocumentWord_Inv _ _ _ _ _ h)]
    have hstep : d ∈ mapKeys (AddDocumentWord document_id status inv s w0).documents_to_info_ ↔
        d = document_id ∨ d ∈ mapKeys s.documents_to_info_ := by
      unfold AddDocumentWord
      simp only [mem_mapKeys_mapUpdate]
      tauto
    rw [hstep]
    by_cases hws : ws = [] <;> simp [hws] <;> tauto

/-! ## `AddDocument`, `SetStopWords` and call sequences -/

theorem Inv_congr (s t : State) (h1 : t.words_to_documents_ = s.words_to_documents_)
    (h2 : t.documents_to_info_ = s.documents_to_info_)
    (h3 : t.words_to_frequencies_ = s.words_to_frequencies_) (h : Inv s) : Inv t := by
  obtain ⟨c, a, b, f, st⟩ := s
  obtain ⟨c', a', b', f', st'⟩ := t
  simp only at h1 h2 h3
  subst h1 h2 h3
  exact
    { info_sorted := h.info_sorted, docs_sorted := h.docs_sorted, freq_sorted := h.freq_sorted,
      docs_inner := h.docs_inner, freq_inner := h.freq_inner, words_inner := h.words_inner,
      docs_nonempty := h.docs_nonempty, docs_words := h.docs_words, docs_freq := h.docs_freq }

theorem AddDocument_info_find (s : State) (document_id : Int) (document : Str)
    (status : DocumentStatus) (ratings : List Int) (h : Inv s) (d : Int) :
    mapFind d (AddDocument s document_id document status ratings).documents_to_info_ =
      if d = document_id then
        some { words := wordsOf (AddDocument s document_id document status ratings) d,
               status := statusOf (AddDocument s document_id document status ratings) d,
               rating := ComputeAverageRating ratings }
      else mapFind d ((SplitIntoWordsNoStop s document).foldl
        (AddDocumentWord document_id status (1 / ((SplitIntoWordsNoStop s document).length : ℚ)))
        { s with document_count_ := s.document_count_ + 1 }).documents_to_info_ := by
  have h1 : Inv { s with document_count_ := s.document_count_ + 1 } :=
    Inv_congr s _ rfl rfl rfl h
  have h2 := AddDocumentLoop_Inv document_id status
    (1 / ((SplitIntoWordsNoStop s document).length : ℚ)) (SplitIntoWordsNoStop s document) _ h1
  unfold wordsOf statusOf AddDocument
  simp only
  rw [mapFind_mapUpdate _ _ _ _ _ h2.info_sorted]
  by_cases hd : d = document_id
  · subst hd
    simp only [if_true]
    cases hfind : mapFind d ((SplitIntoWordsNoStop s document).foldl
        (AddDocumentWord d status (1 / ((SplitIntoWordsNoStop s document).length : ℚ)))
        { s with document_count_ := s.document_count_ + 1 }).documents_to_info_ <;>
      simp [DocumentInformation.init]
  · simp [hd]

theorem AddDocument_maps (s : State) (document_id : Int) (document : Str)
    (status : DocumentStatus) (ratings : List Int) :
    (AddDocument s document_id document status ratings).words_to_documents_ =
        ((SplitIntoWordsNoStop s document).foldl
          (AddDocumentWord document_id status
            (1 / ((SplitIntoWordsNoStop s document).length : ℚ)))
          { s with document_count_ := s.document_count_ + 1 }).words_to_documents_ ∧
      (AddDocument s document_id document status ratings).words_to_frequencies_ =
        ((SplitIntoWordsNoStop s document).foldl
          (AddDocumentWord document_id status
            (1 / ((SplitIntoWordsNoStop s document).length : ℚ)))
          { s with document_count_ := s.document_count_ + 1 }).words_to_frequencies_ :=
  ⟨rfl, rfl⟩

theorem AddDocument_docsOf (s : State) (document_id : Int) (document : Str)
    (status : DocumentStatus) (ratings : List Int) (h : Inv s) (w : Str) (d : Int) :
    d ∈ docsOf (AddDocument s document_id document status ratings) w ↔
      d ∈ docsOf s w ∨ (d = document_id ∧ w ∈ SplitIntoWordsNoStop s document) := by
  have h1 : Inv { s with document_count_ := s.document_count_ + 1 } :=
    Inv_congr s _ rfl rfl rfl h
  have := AddDocumentLoop_docsOf document_id status
    (1 / ((SplitIntoWordsNoStop s document).length : ℚ)) (SplitIntoWordsNoStop s document) _ h1 w d
  exact this

theorem AddDocument_freqOf (s : State) (document_id : Int) (document : Str)
    (status : DocumentStatus) (ratings : List Int) (h : Inv s) (w : Str) (d : Int) :
    (freqOf (AddDocument s document_id document status ratings) w d).getD 0 =
      (freqOf s w d).getD 0 +
        if d = document_id then
          ((SplitIntoWordsNoStop s document).count w : ℚ) *
            (1 / ((SplitIntoWordsNoStop s document).length : ℚ))
        else 0 := by
  have h1 : Inv { s with document_count_ := s.document_count_ + 1 } :=
    Inv_congr s _ rfl rfl rfl h
  have := AddDocumentLoop_freqOf document_id status
    (1 / ((SplitIntoWordsNoStop s document).length : ℚ)) (SplitIntoWordsNoStop s document) _ h1 w d
  exact this

theorem AddDocument_freqOf_isSome (s : State) (document_id : Int) (document : Str)
    (status : DocumentStatus) (ratings : List Int) (w : Str) (d : Int) :
    freqOf (AddDocument s document_id document status ratings) w d =
      freqOf ((SplitIntoWordsNoStop s document).foldl
          (AddDocumentWord document_id status
            (1 / ((SplitIntoWordsNoStop s document).length : ℚ)))
          { s with document_count_ := s.document_count_ + 1 }) w d := rfl

theorem AddDocument_wordsOf_eq (s : State) (document_id : Int) (document : Str)
    (status : DocumentStatus) (ratings : List Int) (h : Inv s) (d : Int) :
    wordsOf (AddDocument s document_id document status ratings) d =
      wordsOf ((SplitIntoWordsNoStop s document).foldl
          (AddDocumentWord document_id status
            (1 / ((SplitIntoWordsNoStop s document).length : ℚ)))
          { s with document_count_ := s.document_count_ + 1 }) d := by
  have h1 : Inv { s with document_count_ := s.document_count_ + 1 } :=
    Inv_congr s _ rfl rfl rfl h
  have h2 := AddDocumentLoop_Inv document_id status
    (1 / ((SplitIntoWordsNoStop s document).length : ℚ)) (SplitIntoWordsNoStop s document) _ h1
  unfold wordsOf AddDocument
  simp only
  rw [mapFind_mapUpdate _ _ _ _ _ h2.info_sorted]
  by_cases hd : d = document_id
  · subst hd
    simp only [if_true]
    cases hfind : mapFind d ((SplitIntoWordsNoStop s document).foldl
        (AddDocumentWord d status (1 / ((SplitIntoWordsNoStop s document).length : ℚ)))
        { s with document_count_ := s.document_count_ + 1 }).documents_to_info_ <;>
      simp [DocumentInformation.init]
  · simp [hd]

theorem AddDocument_statusOf_eq (s : State) (document_id : Int) (document : Str)
    (status : DocumentStatus) (ratings : List Int) (h : Inv s) (d : Int) :
    statusOf (AddDocument s document_id document status ratings) d =
      statusOf ((SplitIntoWordsNoStop s document).foldl
          (AddDocumentWord document_id status
            (1 / ((SplitIntoWordsNoStop s document).length : ℚ)))
          { s with document_count_ := s.document_count_ + 1 }) d := by
  have h1 : Inv { s with document_count_ := s.document_count_ + 1 } :=
    Inv_congr s _ rfl rfl rfl h
  have h2 := AddDocumentLoop_Inv document_id status
    (1 / ((SplitIntoWordsNoStop s document).length : ℚ)) (SplitIntoWordsNoStop s document) _ h1
  unfold statusOf AddDocument
  simp only
  rw [mapFind_mapUpdate _ _ _ _ _ h2.info_sorted]
  by_cases hd : d = document_id
  · subst hd
    simp only [if_true]
    cases hfind : mapFind d ((SplitIntoWordsNoStop s document).foldl
        (AddDocumentWord d status (1 / ((SplitIntoWordsNoStop s document).length : ℚ)))
        { s with document_count_ := s.document_count_ + 1 }).documents_to_info_ <;>
      simp [DocumentInformation.init]
  · simp [hd]

theorem AddDocument_ratingOf (s : State) (document_id : Int) (document : Str)
    (status : DocumentStatus) (ratings : List Int) (h : Inv s) (d : Int) :
    ratingOf (AddDocument s document_id document status ratings) d =
      if d = document_id then ComputeAverageRating ratings else ratingOf s d := by
  have h1 : Inv { s with document_count_ := s.document_count_ + 1 } :=
    Inv_congr s _ rfl rfl rfl h
  have h2 := AddDocumentLoop_Inv document_id status
    (1 / ((SplitIntoWordsNoStop s document).length : ℚ)) (SplitIntoWordsNoStop s document) _ h1
  have h3 := AddDocumentLoop_ratingOf document_id status
    (1 / ((SplitIntoWordsNoStop s document).length : ℚ)) (SplitIntoWordsNoStop s document) _ h1 d
  by_cases hd : d = document_id
  · rw [if_pos hd]
    unfold ratingOf
    rw [AddDocument_info_find _ _ _ _ _ h, if_pos hd]
    rfl
  · rw [if_neg hd]
    unfold ratingOf at h3 ⊢
    rw [AddDocument_info_find _ _ _ _ _ h, if_neg hd, h3]

theorem AddDocument_statusOf (s : State) (document_id : Int) (document : Str)
    (status : DocumentStatus) (ratings : List Int) (h : Inv s) (d : Int) :
    statusOf (AddDocument s document_id document status ratings) d =
      if d = document_id ∧ SplitIntoWordsNoStop s document ≠ [] then status
      else statusOf s d := by
  have h1 : Inv { s with document_count_ := s.document_count_ + 1 } :=
    Inv_congr s _ rfl rfl rfl h
  rw [AddDocument_statusOf_eq _ _ _ _ _ h, AddDocumentLoop_statusOf _ _ _ _ _ h1]
  rfl

theorem AddDocument_keys (s : State) (document_id : Int) (document : Str)
    (status : DocumentStatus) (ratings : List Int) (h : Inv s) (d : Int) :
    d ∈ mapKeys (AddDocument s document_id document status ratings).documents_to_info_ ↔
      d ∈ mapKeys s.documents_to_info_ ∨ d = document_id := by
  have h1 : Inv { s with document_count_ := s.document_count_ + 1 } :=
    Inv_congr s _ rfl rfl rfl h
  have h3 := AddDocumentLoop_keys document_id status
    (1 / ((SplitIntoWordsNoStop s document).length : ℚ)) (SplitIntoWordsNoStop s document) _ h1 d
  unfold AddDocument
  simp only [mem_mapKeys_mapUpdate]
  rw [h3]
  tauto

theorem AddDocument_count (s : State) (document_id : Int) (document : Str)
    (status : DocumentStatus) (ratings : List Int) :
    (AddDocument s document_id document status ratings).document_count_ =
      s.document_count_ + 1 := by
  unfold AddDocument
  simp only
  rw [AddDocumentLoop_count]

theorem AddDocument_stop (s : State) (document_id : Int) (document : Str)
    (status : DocumentStatus) (ratings : List Int) :
    (AddDocument s document_id document status ratings).stop_words_ = s.stop_words_ := by
  unfold AddDocument
  simp only
  rw [AddDocumentLoop_stop]

theorem AddDocument_Inv (s : State) (document_id : Int) (document : Str)
    (status : DocumentStatus) (ratings : List Int) (h : Inv s) :
    Inv (AddDocument s document_id document status ratings) := by
  have h1 : Inv { s with document_count_ := s.document_count_ + 1 } :=
    Inv_congr s _ rfl rfl rfl h
  have h2 := AddDocumentLoop_Inv document_id status
    (1 / ((SplitIntoWordsNoStop s document).length : ℚ)) (SplitIntoWordsNoStop s document) _ h1
  have hw := AddDocument_wordsOf_eq s document_id document status ratings h
  refine
    { info_sorted := ?_, docs_sorted := h2.docs_sorted, freq_sorted := h2.freq_sorted,
      docs_inner := h2.docs_inner, freq_inner := h2.freq_inner, words_inner := ?_,
      docs_nonempty := h2.docs_nonempty, docs_words := ?_, docs_freq := h2.docs_freq }
  · exact mapUpdate_sorted _ _ _ _ h2.info_sorted
  · intro d i hi
    have hwd := hw d
    unfold wordsOf at hwd
    rw [hi] at hwd
    simp only [Option.map_some', Option.getD_some] at hwd
    rw [hwd]
    cases hfind : mapFind d ((SplitIntoWordsNoStop s document).foldl
        (AddDocumentWord document_id status
          (1 / ((SplitIntoWordsNoStop s document).length : ℚ)))
        { s with document_count_ := s.document_count_ + 1 }).documents_to_info_ with
    | none => simp
    | some j => simpa using h2.words_inner d j hfind
  · intro w d
    rw [hw d]
    exact h2.docs_words w d

theorem AddDocument_wordsOf (s : State) (document_id : Int) (document : Str)
    (status : DocumentStatus) (ratings : List Int) (h : Inv s) (w : Str) (d : Int) :
    w ∈ wordsOf (AddDocument s document_id document status ratings) d ↔
      w ∈ wordsOf s d ∨ (d = document_id ∧ w ∈ SplitIntoWordsNoStop s document) := by
  rw [← (AddDocument_Inv s document_id document status ratings h).docs_words,
    AddDocument_docsOf _ _ _ _ _ h, h.docs_words]

theorem SetStopWords_maps (s : State) (text : Str) :
    (SetStopWords s text).words_to_documents_ = s.words_to_documents_ ∧
      (SetStopWords s text).documents_to_info_ = s.documents_to_info_ ∧
      (SetStopWords s text).words_to_frequencies_ = s.words_to_frequencies_ ∧
      (SetStopWords s text).document_count_ = s.document_count_ := by
  unfold SetStopWords
  induction SplitIntoWords text generalizing s with
  | nil => exact ⟨rfl, rfl, rfl, rfl⟩
  | cons w ws ih =>
    rw [List.foldl_cons]
    exact ih _

theorem SetStopWords_Inv (s : State) (text : Str) (h : Inv s) : Inv (SetStopWords s text) :=
  Inv_congr s _ (SetStopWords_maps s text).1 (SetStopWords_maps s text).2.1
    (SetStopWords_maps s text).2.2.1 h

theorem Inv_init : Inv State.init := by
  refine
    { info_sorted := List.Pairwise.nil, docs_sorted := List.Pairwise.nil,
      freq_sorted := List.Pairwise.nil, docs_inner := ?_, freq_inner := ?_, words_inner := ?_,
      docs_nonempty := ?_, docs_words := ?_, docs_freq := ?_ }
  · intro w l hl; simp [State.init, mapFind] at hl
  · intro w l hl; simp [State.init, mapFind] at hl
  · intro w l hl; simp [State.init, mapFind] at hl
  · intro w l hl; simp [State.init, mapFind] at hl
  · intro w d; simp [State.init, docsOf, wordsOf, mapFind]
  · intro w d; simp [State.init, docsOf, freqOf, mapFind]

theorem Call_apply_Inv (s : State) (c : Call) (h : Inv s) : Inv (c.apply s) := by
  cases c with
  | setStopWords text => exact SetStopWords_Inv s text h
  | addDocument document_id document status ratings =>
    exact AddDocument_Inv s document_id document status ratings h

theorem foldl_apply_Inv (calls : List Call) (s : State) (h : Inv s) :
    Inv (calls.foldl Call.apply s) := by
  induction calls generalizing s with
  | nil => exact h
  | cons c cs ih => exact ih _ (Call_apply_Inv s c h)

theorem run_Inv (calls : List Call) : Inv (run calls) :=
  foldl_apply_Inv calls _ Inv_init

/-! ## `FindAllDocuments` -/

section FindAll

variable {R : Type} [LinearOrderedField R]

theorem wordsOf_of_find (s : State) (d : Int) (i : DocumentInformation)
    (h : mapFind d s.documents_to_info_ = some i) : wordsOf s d = i.words := by
  simp [wordsOf, h]

theorem statusOf_of_find (s : State) (d : Int) (i : DocumentInformation)
    (h : mapFind d s.documents_to_info_ = some i) : statusOf s d = i.status := by
  simp [statusOf, h]

theorem ratingOf_of_find (s : State) (d : Int) (i : DocumentInformation)
    (h : mapFind d s.documents_to_info_ = some i) : ratingOf s d = i.rating := by
  simp [ratingOf, h]

theorem mapAt_of_find {κ ν : Type} [LinearOrder κ] (k : κ) (m : List (κ × ν)) (v : ν)
    (h : mapFind k m = some v) : mapAt k m = .ok v := by
  simp [mapAt, h]

theorem has_info_of_mem_docsOf (s : State) (h : Inv s) (w : Str) (d : Int)
    (hd : d ∈ docsOf s w) : ∃ i, mapFind d s.documents_to_info_ = some i := by
  have hw := (h.docs_words w d).mp hd
  cases hfind : mapFind d s.documents_to_info_ with
  | none => simp [wordsOf, hfind] at hw
  | some i => exact ⟨i, rfl⟩

theorem foldlM_ok {α β : Type} (f : β → α → β) (l : List α) (b : β) :
    l.foldlM (fun b a => (Except.ok (f b a) : Except Error β)) b = .ok (l.foldl f b) := by
  induction l generalizing b with
  | nil => rfl
  | cons a l ih =>
    rw [List.foldlM_cons, List.foldl_cons]
    exact ih (f b a)

theorem allowed_foldl (words : List Str) (ws : List Str) (b : Bool) :
    ws.foldl (fun allowed w => if setCount w words > 0 then false else allowed) b =
      (b && ws.all (fun w => decide (w ∉ words))) := by
  induction ws generalizing b with
  | nil => simp
  | cons w ws ih =>
    rw [List.foldl_cons, ih]
    by_cases hw : w ∈ words
    · have hc : setCount w words > 0 := (setCount_pos_iff _ _).mpr hw
      simp [hc, hw]
    · have hc : ¬ setCount w words > 0 := fun hc => hw ((setCount_pos_iff _ _).mp hc)
      simp [hc, hw]

theorem FindAllDocumentsAllowed_eq (s : State) (query : Query) (d : Int)
    (i : DocumentInformation) (hi : mapFind d s.documents_to_info_ = some i) :
    FindAllDocumentsAllowed s query d = .ok (allowedDoc s query d) := by
  unfold FindAllDocumentsAllowed allowedDoc
  have hstep : (fun (allowed_document : Bool) (minus_word : Str) => (do
        let info ← mapAt d s.documents_to_info_
        if setCount minus_word info.words > 0 then pure false
        else pure allowed_document : Except Error Bool)) =
      fun allowed_document minus_word => Except.ok
        (if setCount minus_word i.words > 0 then false else allowed_document) := by
    funext allowed_document minus_word
    rw [mapAt_of_find _ _ _ hi]
    by_cases hc : setCount minus_word i.words > 0 <;>
      simp [bind, Except.bind, pure, Except.pure, hc]
  rw [hstep, foldlM_ok, allowed_foldl, wordsOf_of_find s d i hi]
  rfl

theorem FindAllDocumentsId_eq (s : State) (h : Inv s) (query : Query)
    (predicate : Int → DocumentStatus → Int → Bool) (word : Str) (idf : R)
    (acc : List (Int × R)) (d : Int) (hd : d ∈ docsOf s word) :
    FindAllDocumentsId s query predicate word idf acc d =
      .ok (if passesDoc s query predicate d then
        mapUpdate d 0 (fun r => r + idf * (((freqOf s word d).getD 0 : ℚ) : R)) acc
      else acc) := by
  obtain ⟨i, hi⟩ := has_info_of_mem_docsOf s h word d hd
  have hf := (h.docs_freq word d).mp hd
  unfold freqOf at hf
  cases hfw : mapFind word s.words_to_frequencies_ with
  | none => simp [hfw] at hf
  | some m =>
    rw [hfw] at hf
    change (mapFind d m).isSome = true at hf
    cases hfd : mapFind d m with
    | none => simp [hfd] at hf
    | some tf =>
      unfold FindAllDocumentsId
      rw [FindAllDocumentsAllowed_eq s query d i hi, mapAt_of_find _ _ _ hi,
        mapAt_of_find _ _ _ hfw]
      have hat := mapAt_of_find d m tf hfd
      unfold passesDoc
      rw [statusOf_of_find s d i hi, ratingOf_of_find s d i hi]
      have hfreq : freqOf s word d = some tf := by simp [freqOf, hfw, hfd]
      rw [hfreq]
      cases hal : allowedDoc s query d <;> cases hp : predicate d i.status i.rating <;>
        simp [bind, Except.bind, pure, Except.pure, hp, hat]

theorem FindAllDocumentsId_loop (s : State) (h : Inv s) (query : Query)
    (predicate : Int → DocumentStatus → Int → Bool) (word : Str) (idf : R)
    (docs : List Int) (hdocs : ∀ d ∈ docs, d ∈ docsOf s word) (hnd : docs.Nodup)
    (acc : List (Int × R)) (hacc : (mapKeys acc).Pairwise (· < ·)) :
    ∃ acc', docs.foldlM (FindAllDocumentsId s query predicate word idf) acc = .ok acc' ∧
      (mapKeys acc').Pairwise (· < ·) ∧
      ∀ x, mapFind x acc' =
        if x ∈ docs ∧ passesDoc s query predicate x = true then
          some ((mapFind x acc).getD 0 + idf * (((freqOf s word x).getD 0 : ℚ) : R))
        else mapFind x acc := by
  induction docs generalizing acc with
  | nil => exact ⟨acc, rfl, hacc, fun x => by simp⟩
  | cons d ds ih =>
    have hd : d ∈ docsOf s word := hdocs d (List.mem_cons_self _ _)
    have hnd' := List.nodup_cons.mp hnd
    rw [List.foldlM_cons, FindAllDocumentsId_eq s h query predicate word idf acc d hd]
    simp only [bind, Except.bind]
    by_cases hp : passesDoc s query predicate d = true
    · rw [if_pos hp]
      obtain ⟨acc', e, hs, hfind⟩ := ih (fun x hx => hdocs x (List.mem_cons_of_mem _ hx)) hnd'.2
        (mapUpdate d 0 (fun r => r + idf * (((freqOf s word d).getD 0 : ℚ) : R)) acc)
        (mapUpdate_sorted _ _ _ _ hacc)
      refine ⟨acc', e, hs, fun x => ?_⟩
      rw [hfind x, mapFind_mapUpdate _ _ _ _ _ hacc]
      by_cases hxd : x = d
      · subst hxd
        simp [hnd'.1, hp]
      · simp [hxd]
    · rw [if_neg hp]
      obtain ⟨acc', e, hs, hfind⟩ := ih (fun x hx => hdocs x (List.mem_cons_of_mem _ hx)) hnd'.2
        acc hacc
      refine ⟨acc', e, hs, fun x => ?_⟩
      rw [hfind x]
      by_cases hxd : x = d
      · subst hxd
        simp [hnd'.1, hp]
      · simp [hxd]

theorem FindAllDocumentsWord_eq (log : R → R) (s : State) (h : Inv s) (query : Query)
    (predicate : Int → DocumentStatus → Int → Bool) (acc : List (Int × R))
    (hacc : (mapKeys acc).Pairwise (· < ·)) (word : Str) :
    ∃ acc', FindAllDocumentsWord log s query predicate acc word = .ok acc' ∧
      (mapKeys acc').Pairwise (· < ·) ∧
      ∀ x, mapFind x acc' =
        if (word ∉ query.minus_words ∧ x ∈ docsOf s word) ∧
            passesDoc s query predicate x = true then
          some ((mapFind x acc).getD 0 + idfOf log s word * (((freqOf s word x).getD 0 : ℚ) : R))
        else mapFind x acc := by
  unfold FindAllDocumentsWord
  by_cases hm : word ∈ query.minus_words
  · have hc : setCount word query.minus_words > 0 := (setCount_pos_iff _ _).mpr hm
    rw [if_pos hc]
    exact ⟨acc, rfl, hacc, fun x => by simp [hm]⟩
  · have hc : ¬ setCount word query.minus_words > 0 :=
      fun hc => hm ((setCount_pos_iff _ _).mp hc)
    rw [if_neg hc]
    cases hfind : mapFind word s.words_to_documents_ with
    | none =>
      have hcount : mapCount word s.words_to_documents_ = 0 := by simp [mapCount, hfind]
      rw [if_pos hcount]
      refine ⟨acc, rfl, hacc, fun x => ?_⟩
      simp [docsOf, hfind]
    | some docs =>
      have hcount : ¬ mapCount word s.words_to_documents_ = 0 := by simp [mapCount, hfind]
      rw [if_neg hcount]
      have hdocs : docsOf s word = docs := by simp [docsOf, hfind]
      have hidf : ComputeInverseDocumentFrequency log s word = .ok (idfOf log s word) := by
        unfold ComputeInverseDocumentFrequency idfOf
        rw [mapAt_of_find _ _ _ hfind, hdocs]
        rfl
      rw [hidf, mapAt_of_find _ _ _ hfind]
      simp only [bind, Except.bind]
      have hnd : docs.Nodup := (h.docs_inner word docs hfind).imp (fun hlt => ne_of_lt hlt)
      obtain ⟨acc', e, hs, hf⟩ := FindAllDocumentsId_loop s h query predicate word
        (idfOf log s word) docs (fun d hd => hdocs ▸ hd) hnd acc hacc
      refine ⟨acc', e, hs, fun x => ?_⟩
      rw [hf x, hdocs]
      simp [hm]

theorem FindAllDocumentsWord_loop (log : R → R) (s : State) (h : Inv s) (query : Query)
    (predicate : Int → DocumentStatus → Int → Bool) (ws : List Str) (acc : List (Int × R))
    (hacc : (mapKeys acc).Pairwise (· < ·)) :
    ∃ acc', ws.foldlM (FindAllDocumentsWord log s query predicate) acc = .ok acc' ∧
      (mapKeys acc').Pairwise (· < ·) ∧
      ∀ x, mapFind x acc' =
        if passesDoc s query predicate x = true ∧
            ws.filter (fun w => decide (w ∉ query.minus_words) && decide (x ∈ docsOf s w)) ≠ []
        then
          some ((mapFind x acc).getD 0 +
            ((ws.filter (fun w => decide (w ∉ query.minus_words) &&
                decide (x ∈ docsOf s w))).map
              (fun w => idfOf log s w * (((freqOf s w x).getD 0 : ℚ) : R))).sum)
        else mapFind x acc := by
  induction ws generalizing acc with
  | nil => exact ⟨acc, rfl, hacc, fun x => by simp⟩
  | cons w ws ih =>
    obtain ⟨acc1, e1, hs1, hf1⟩ := FindAllDocumentsWord_eq log s h query predicate acc hacc w
    obtain ⟨acc', e, hs, hf⟩ := ih acc1 hs1
    rw [List.foldlM_cons, e1]
    simp only [bind, Except.bind]
    refine ⟨acc', e, hs, fun x => ?_⟩
    rw [hf x, hf1 x]
    by_cases hp : passesDoc s query predicate x = true
    · by_cases hw : w ∉ query.minus_words ∧ x ∈ docsOf s w
      · have hfil : List.filter (fun w => decide (w ∉ query.minus_words) &&
            decide (x ∈ docsOf s w)) (w :: ws) = w :: List.filter (fun w =>
            decide (w ∉ query.minus_words) && decide (x ∈ docsOf s w)) ws := by
          rw [List.filter_cons_of_pos]
          simp [hw.1, hw.2]
        rw [hfil]
        generalize List.filter (fun w => decide (w ∉ query.minus_words) &&
            decide (x ∈ docsOf s w)) ws = F
        cases F with
        | nil => simp [hp, hw]
        | cons a F => simp [hp, hw, add_assoc]
      · have hfil : List.filter (fun w => decide (w ∉ query.minus_words) &&
            decide (x ∈ docsOf s w)) (w :: ws) = List.filter (fun w =>
            decide (w ∉ query.minus_words) && decide (x ∈ docsOf s w)) ws := by
          rw [List.filter_cons_of_neg]
          simpa using hw
        rw [hfil]
        simp [hp, hw]
    · simp [hp]

theorem mapFind_map_mk {ν : Type} (l : List Int) (g : Int → ν) (x : Int) :
    mapFind x (l.map (fun d => (d, g d))) = if x ∈ l then some (g x) else none := by
  induction l with
  | nil => simp [mapFind]
  | cons a l ih =>
    simp only [List.map_cons, mapFind, ih, List.mem_cons]
    by_cases hxa : x = a
    · subst hxa; simp
    · simp [hxa]

theorem matchedIds_sorted (s : State) (h : Inv s) (query : Query)
    (predicate : Int → DocumentStatus → Int → Bool) :
    (matchedIds s query predicate).Pairwise (· < ·) :=
  h.info_sorted.filter _

theorem mem_matchedIds (s : State) (h : Inv s) (query : Query)
    (predicate : Int → DocumentStatus → Int → Bool) (d : Int) :
    d ∈ matchedIds s query predicate ↔
      passesDoc s query predicate d = true ∧ scoringWords s query d ≠ [] := by
  unfold matchedIds
  simp only [List.mem_filter, Bool.and_eq_true, decide_eq_true_eq]
  constructor
  · exact fun hd => hd.2
  · intro hd
    refine ⟨?_, hd⟩
    obtain ⟨w, hw⟩ := List.exists_mem_of_ne_nil _ hd.2
    have hw2 := (List.mem_filter.mp hw).2
    simp only [Bool.and_eq_true, decide_eq_true_eq] at hw2
    obtain ⟨i, hi⟩ := has_info_of_mem_docsOf s h w d hw2.2
    rw [← mapFind_isSome_iff, hi]
    rfl

omit [LinearOrderedField R] in
theorem FindAllDocumentsPush_loop (s : State) (l : List (Int × R))
    (hl : ∀ e ∈ l, ∃ i, mapFind e.1 s.documents_to_info_ = some i) (out : List (Document R)) :
    l.foldlM (FindAllDocumentsPush s) out =
      .ok (out ++ l.map (fun e => { id := e.1, relevance := e.2, rating := ratingOf s e.1 })) := by
  induction l generalizing out with
  | nil => simp [pure, Except.pure]
  | cons e l ih =>
    obtain ⟨i, hi⟩ := hl e (List.mem_cons_self _ _)
    have hstep : FindAllDocumentsPush s out e =
        .ok (out ++ [{ id := e.1, relevance := e.2, rating := ratingOf s e.1 }]) := by
      unfold FindAllDocumentsPush
      rw [mapAt_of_find _ _ _ hi, ratingOf_of_find s e.1 i hi]
      rfl
    rw [List.foldlM_cons, hstep]
    simp only [bind, Except.bind]
    rw [ih (fun e he => hl e (List.mem_cons_of_mem _ he))]
    simp

/-- On a consistent state `FindAllDocuments` returns, and returns exactly the records
read off the state, in ascending order of id. -/
theorem FindAllDocuments_eq (log : R → R) (s : State) (h : Inv s) (query : Query)
    (predicate : Int → DocumentStatus → Int → Bool) :
    FindAllDocuments log s query predicate = .ok (matchedDocuments log s query predicate) := by
  obtain ⟨acc, e, hs, hf⟩ := FindAllDocumentsWord_loop log s h query predicate
    query.plus_words [] List.Pairwise.nil
  have hacc : acc = (matchedIds s query predicate).map
      (fun d => (d, relevanceOf log s query d)) := by
    apply mapSorted_ext _ _ hs
    · simpa [mapKeys, Function.comp_def] using matchedIds_sorted s h query predicate
    · intro x
      rw [hf x, mapFind_map_mk]
      by_cases hc : passesDoc s query predicate x = true ∧ scoringWords s query x ≠ []
      · have hc' := hc
        unfold scoringWords at hc'
        rw [if_pos hc', if_pos ((mem_matchedIds s h query predicate x).mpr hc)]
        simp [mapFind, relevanceOf, scoringWords]
      · have hc' := hc
        unfold scoringWords at hc'
        rw [if_neg hc', if_neg (fun hm => hc ((mem_matchedIds s h query predicate x).mp hm))]
        rfl
  unfold FindAllDocuments
  rw [e]
  simp only [bind, Except.bind]
  rw [FindAllDocumentsPush_loop]
  · rw [hacc]
    simp [matchedDocuments, Function.comp_def]
  · intro e he
    rw [hacc] at he
    obtain ⟨d, hd, rfl⟩ := List.mem_map.mp he
    have hk := (List.mem_filter.mp hd).1
    rw [← mapFind_isSome_iff] at hk
    exact Option.isSome_iff_exists.mp hk

end FindAll

/-! ## The state in terms of the calls that produced it -/

theorem SetStopWords_docsOf (s : State) (text : Str) (w : Str) :
    docsOf (SetStopWords s text) w = docsOf s w := by
  unfold docsOf; rw [(SetStopWords_maps s text).1]

theorem SetStopWords_freqOf (s : State) (text : Str) (w : Str) (d : Int) :
    freqOf (SetStopWords s text) w d = freqOf s w d := by
  unfold freqOf; rw [(SetStopWords_maps s text).2.2.1]

theorem SetStopWords_ratingOf (s : State) (text : Str) (d : Int) :
    ratingOf (SetStopWords s text) d = ratingOf s d := by
  unfold ratingOf; rw [(SetStopWords_maps s text).2.1]

theorem SetStopWords_statusOf (s : State) (text : Str) (d : Int) :
    statusOf (SetStopWords s text) d = statusOf s d := by
  unfold statusOf; rw [(SetStopWords_maps s text).2.1]

theorem apply_setStopWords (s : State) (text : Str) :
    Call.apply s (.setStopWords text) = SetStopWords s text := rfl

theorem apply_addDocument (s : State) (document_id : Int) (document : Str)
    (status : DocumentStatus) (ratings : List Int) :
    Call.apply s (.addDocument document_id document status ratings) =
      AddDocument s document_id document status ratings := rfl

theorem foldl_apply_count (calls : List Call) (s : State) :
    (calls.foldl Call.apply s).document_count_ =
      s.document_count_ + (ingestedFrom s calls).length := by
  induction calls generalizing s with
  | nil => rfl
  | cons c cs ih =>
    cases c with
    | setStopWords text =>
      rw [List.foldl_cons, ih]
      simp only [Call.apply, ingestedFrom, (SetStopWords_maps s text).2.2.2]
    | addDocument document_id document status ratings =>
      rw [List.foldl_cons, ih]
      simp only [Call.apply, ingestedFrom, AddDocument_count, List.length_cons]
      omega

theorem foldl_apply_docsOf (calls : List Call) (s : State) (h : Inv s) (w : Str) (d : Int) :
    d ∈ docsOf (calls.foldl Call.apply s) w ↔
      d ∈ docsOf s w ∨ ∃ D ∈ ingestedFrom s calls, D.id = d ∧ w ∈ D.words := by
  induction calls generalizing s with
  | nil => simp [ingestedFrom]
  | cons c cs ih =>
    cases c with
    | setStopWords text =>
      rw [List.foldl_cons, apply_setStopWords, ih _ (SetStopWords_Inv s text h)]
      simp only [Call.apply, ingestedFrom, SetStopWords_docsOf]
    | addDocument document_id document status ratings =>
      rw [List.foldl_cons, apply_addDocument,
        ih _ (AddDocument_Inv s document_id document status ratings h)]
      simp only [Call.apply, ingestedFrom, AddDocument_docsOf _ _ _ _ _ h, List.mem_cons,
        exists_eq_or_imp]
      constructor
      · rintro ((h1 | ⟨h1, h2⟩) | h3)
        · exact Or.inl h1
        · exact Or.inr (Or.inl ⟨h1.symm, h2⟩)
        · exact Or.inr (Or.inr h3)
      · rintro (h1 | ⟨h1, h2⟩ | h3)
        · exact Or.inl (Or.inl h1)
        · exact Or.inl (Or.inr ⟨h1.symm, h2⟩)
        · exact Or.inr h3

theorem foldl_apply_freqOf (calls : List Call) (s : State) (h : Inv s) (w : Str) (d : Int) :
    (freqOf (calls.foldl Call.apply s) w d).getD 0 =
      (freqOf s w d).getD 0 +
        (((ingestedFrom s calls).filter (fun D => decide (D.id = d))).map
          (fun D => (D.words.count w : ℚ) * (1 / (D.words.length : ℚ)))).sum := by
  induction calls generalizing s with
  | nil => simp [ingestedFrom]
  | cons c cs ih =>
    cases c with
    | setStopWords text =>
      rw [List.foldl_cons, apply_setStopWords, ih _ (SetStopWords_Inv s text h)]
      simp only [Call.apply, ingestedFrom, SetStopWords_freqOf]
    | addDocument document_id document status ratings =>
      rw [List.foldl_cons, apply_addDocument,
        ih _ (AddDocument_Inv s document_id document status ratings h)]
      simp only [Call.apply, ingestedFrom, AddDocument_freqOf _ _ _ _ _ h]
      by_cases hd : document_id = d
      · subst hd
        simp [List.filter_cons, add_assoc]
      · have hd' : ¬ d = document_id := fun e => hd e.symm
        simp [List.filter_cons, hd, hd']

theorem foldl_apply_keys (calls : List Call) (s : State) (h : Inv s) (d : Int) :
    d ∈ mapKeys (calls.foldl Call.apply s).documents_to_info_ ↔
      d ∈ mapKeys s.documents_to_info_ ∨ d ∈ (ingestedFrom s calls).map Ingested.id := by
  induction calls generalizing s with
  | nil => simp [ingestedFrom]
  | cons c cs ih =>
    cases c with
    | setStopWords text =>
      rw [List.foldl_cons, apply_setStopWords, ih _ (SetStopWords_Inv s text h)]
      simp only [Call.apply, ingestedFrom, (SetStopWords_maps s text).2.1]
    | addDocument document_id document status ratings =>
      rw [List.foldl_cons, apply_addDocument,
        ih _ (AddDocument_Inv s document_id document status ratings h)]
      simp only [Call.apply, ingestedFrom, AddDocument_keys _ _ _ _ _ h, List.map_cons,
        List.mem_cons]
      tauto

theorem foldl_apply_untouched (calls : List Call) (s : State) (h : Inv s) (d : Int)
    (hd : d ∉ (ingestedFrom s calls).map Ingested.id) :
    ratingOf (calls.foldl Call.apply s) d = ratingOf s d ∧
      statusOf (calls.foldl Call.apply s) d = statusOf s d := by
  induction calls generalizing s with
  | nil => exact ⟨rfl, rfl⟩
  | cons c cs ih =>
    cases c with
    | setStopWords text =>
      rw [List.foldl_cons, apply_setStopWords]
      have := ih _ (SetStopWords_Inv s text h) (by simpa [ingestedFrom] using hd)
      simpa only [SetStopWords_ratingOf, SetStopWords_statusOf] using this
    | addDocument document_id document status ratings =>
      rw [List.foldl_cons, apply_addDocument]
      simp only [ingestedFrom, List.map_cons, List.mem_cons, not_or] at hd
      have := ih _ (AddDocument_Inv s document_id document status ratings h) hd.2
      rw [this.1, this.2, AddDocument_ratingOf _ _ _ _ _ h, AddDocument_statusOf _ _ _ _ _ h]
      simp [hd.1]

theorem foldl_apply_stored (calls : List Call) (s : State) (h : Inv s)
    (hnd : ((ingestedFrom s calls).map Ingested.id).Nodup) (D : Ingested)
    (hD : D ∈ ingestedFrom s calls) :
    ratingOf (calls.foldl Call.apply s) D.id = ComputeAverageRating D.ratings ∧
      statusOf (calls.foldl Call.apply s) D.id =
        if D.words ≠ [] then D.status else statusOf s D.id := by
  induction calls generalizing s with
  | nil => simp [ingestedFrom] at hD
  | cons c cs ih =>
    cases c with
    | setStopWords text =>
      rw [List.foldl_cons, apply_setStopWords]
      have := ih _ (SetStopWords_Inv s text h) (by simpa [ingestedFrom] using hnd)
        (by simpa [ingestedFrom] using hD)
      simpa only [SetStopWords_statusOf] using this
    | addDocument document_id document status ratings =>
      rw [List.foldl_cons, apply_addDocument]
      simp only [ingestedFrom, List.map_cons, List.nodup_cons] at hnd
      simp only [ingestedFrom, List.mem_cons] at hD
      have hinv := AddDocument_Inv s document_id document status ratings h
      rcases hD with hD | hD
      · subst hD
        have := foldl_apply_untouched cs _ hinv document_id hnd.1
        rw [this.1, this.2, AddDocument_ratingOf _ _ _ _ _ h, AddDocument_statusOf _ _ _ _ _ h]
        by_cases hw : SplitIntoWordsNoStop s document = [] <;> simp [hw]
      · have := ih _ hinv hnd.2 hD
        rw [this.1, this.2, AddDocument_statusOf _ _ _ _ _ h]
        have hne : D.id ≠ document_id := by
          intro e
          have hmem : D.id ∈ List.map Ingested.id
              (ingestedFrom (AddDocument s document_id document status ratings) cs) :=
            List.mem_map_of_mem _ hD
          rw [e] at hmem
          exact hnd.1 hmem
        simp [hne]

theorem docsOf_init (w : Str) : docsOf State.init w = [] := rfl

theorem freqOf_init (w : Str) (d : Int) : freqOf State.init w d = none := rfl

theorem run_count (calls : List Call) :
    (run calls).document_count_ = (ingested calls).length := by
  unfold run ingested
  rw [foldl_apply_count]
  simp [State.init]

theorem run_docsOf (calls : List Call) (w : Str) (d : Int) :
    d ∈ docsOf (run calls) w ↔ ∃ D ∈ ingested calls, D.id = d ∧ w ∈ D.words := by
  unfold run ingested
  rw [foldl_apply_docsOf _ _ Inv_init]
  simp [docsOf_init]

theorem run_wordsOf (calls : List Call) (w : Str) (d : Int) :
    w ∈ wordsOf (run calls) d ↔ ∃ D ∈ ingested calls, D.id = d ∧ w ∈ D.words := by
  rw [← (run_Inv calls).docs_words, run_docsOf]

theorem run_keys (calls : List Call) (d : Int) :
    d ∈ mapKeys (run calls).documents_to_info_ ↔ d ∈ (ingested calls).map Ingested.id := by
  unfold run ingested
  rw [foldl_apply_keys _ _ Inv_init]
  simp [State.init, mapKeys]

theorem run_freqOf (calls : List Call) (w : Str) (d : Int) :
    (freqOf (run calls) w d).getD 0 =
      (((ingested calls).filter (fun D => decide (D.id = d))).map
        (fun D => (D.words.count w : ℚ) * (1 / (D.words.length : ℚ)))).sum := by
  unfold run ingested
  rw [foldl_apply_freqOf _ _ Inv_init]
  simp [freqOf_init]

theorem filter_id_eq_of_nodup (L : List Ingested) (hnd : (L.map Ingested.id).Nodup)
    (D : Ingested) (hD : D ∈ L) : L.filter (fun E => decide (E.id = D.id)) = [D] := by
  induction L with
  | nil => simp at hD
  | cons E L ih =>
    simp only [List.map_cons, List.nodup_cons] at hnd
    rcases List.mem_cons.mp hD with hD | hD
    · subst hD
      rw [List.filter_cons_of_pos (by simp)]
      congr 1
      rw [List.filter_eq_nil_iff]
      intro E hE
      simp only [decide_eq_true_eq]
      intro e
      exact hnd.1 (e ▸ List.mem_map_of_mem _ hE)
    · have hne : ¬ E.id = D.id := by
        intro e
        exact hnd.1 (e ▸ List.mem_map_of_mem _ hD)
      rw [List.filter_cons_of_neg (by simpa using hne)]
      exact ih hnd.2 hD

theorem run_freqOf_nodup (calls : List Call)
    (hnd : ((ingested calls).map Ingested.id).Nodup) (D : Ingested)
    (hD : D ∈ ingested calls) (w : Str) :
    (freqOf (run calls) w D.id).getD 0 =
      (D.words.count w : ℚ) / (D.words.length : ℚ) := by
  rw [run_freqOf, filter_id_eq_of_nodup _ hnd D hD]
  simp [div_eq_mul_inv]

theorem run_wordsOf_nodup (calls : List Call)
    (hnd : ((ingested calls).map Ingested.id).Nodup) (D : Ingested)
    (hD : D ∈ ingested calls) (w : Str) :
    w ∈ wordsOf (run calls) D.id ↔ w ∈ D.words := by
  rw [run_wordsOf]
  constructor
  · rintro ⟨E, hE, hid, hw⟩
    have : E ∈ (ingested calls).filter (fun E => decide (E.id = D.id)) :=
      List.mem_filter.mpr ⟨hE, by simpa using hid⟩
    rw [filter_id_eq_of_nodup _ hnd D hD] at this
    rw [List.mem_singleton.mp this] at hw
    exact hw
  · exact fun hw => ⟨D, hD, rfl, hw⟩

theorem run_stored (calls : List Call) (hnd : ((ingested calls).map Ingested.id).Nodup)
    (D : Ingested) (hD : D ∈ ingested calls) :
    ratingOf (run calls) D.id = ComputeAverageRating D.ratings ∧
      statusOf (run calls) D.id =
        if D.words ≠ [] then D.status else DocumentStatus.ACTUAL := by
  have := foldl_apply_stored calls State.init Inv_init hnd D hD
  exact this

theorem run_docsOf_length (calls : List Call)
    (hnd : ((ingested calls).map Ingested.id).Nodup) (w : Str) :
    (docsOf (run calls) w).length =
      ((ingested calls).filter (fun D => decide (w ∈ D.words))).length := by
  have hsorted : (docsOf (run calls) w).Pairwise (· < ·) := by
    unfold docsOf
    cases hfind : mapFind w (run calls).words_to_documents_ with
    | none => simp
    | some l => simpa using (run_Inv calls).docs_inner w l hfind
  have hnd1 : (docsOf (run calls) w).Nodup := hsorted.imp (fun hlt => ne_of_lt hlt)
  have hnd2 : (((ingested calls).filter (fun D => decide (w ∈ D.words))).map
      Ingested.id).Nodup := by
    refine (List.Nodup.sublist ?_ hnd)
    exact (List.filter_sublist _).map _
  have hperm : (docsOf (run calls) w).Perm
      (((ingested calls).filter (fun D => decide (w ∈ D.words))).map Ingested.id) := by
    rw [List.perm_ext_iff_of_nodup hnd1 hnd2]
    intro d
    rw [run_docsOf]
    simp only [List.mem_map, List.mem_filter, decide_eq_true_eq]
    constructor
    · rintro ⟨D, hD, hid, hw⟩
      exact ⟨D, ⟨hD, hw⟩, hid⟩
    · rintro ⟨D, ⟨hD, hw⟩, hid⟩
      exact ⟨D, hD, hid, hw⟩
  rw [hperm.length_eq, List.length_map]

theorem run_keys_length (calls : List Call) :
    GetDocumentCount (run calls) = ((ingested calls).map Ingested.id).dedup.length := by
  unfold GetDocumentCount
  have hsorted := (run_Inv calls).info_sorted
  have hnd1 : (mapKeys (run calls).documents_to_info_).Nodup :=
    hsorted.imp (fun hlt => ne_of_lt hlt)
  have hperm : (mapKeys (run calls).documents_to_info_).Perm
      ((ingested calls).map Ingested.id).dedup := by
    rw [List.perm_ext_iff_of_nodup hnd1 (List.nodup_dedup _)]
    intro d
    rw [run_keys, List.mem_dedup]
  rw [← hperm.length_eq]
  simp [mapKeys]

/-! ## `ParseQuery` -/

theorem ParseQueryErase_step (q : Query) (m : Str) :
    (ParseQueryErase q m).minus_words = q.minus_words ∧
      (∀ w, w ∈ (ParseQueryErase q m).plus_words ↔ w ∈ q.plus_words ∧ w ≠ m) ∧
      (q.plus_words.Pairwise (· < ·) → (ParseQueryErase q m).plus_words.Pairwise (· < ·)) := by
  unfold ParseQueryErase
  by_cases hc : setCount m q.plus_words > 0
  · rw [if_pos hc]
    exact ⟨rfl, fun w => mem_setErase m w q.plus_words, fun hq => setErase_sorted _ _ hq⟩
  · rw [if_neg hc]
    have hm : m ∉ q.plus_words := fun hm => hc ((setCount_pos_iff _ _).mpr hm)
    exact ⟨rfl, fun w => ⟨fun hw => ⟨hw, fun e => hm (e ▸ hw)⟩, fun hw => hw.1⟩, fun hq => hq⟩

theorem ParseQueryErase_loop (ms : List Str) (q : Query) :
    (ms.foldl ParseQueryErase q).minus_words = q.minus_words ∧
      (∀ w, w ∈ (ms.foldl ParseQueryErase q).plus_words ↔ w ∈ q.plus_words ∧ w ∉ ms) ∧
      (q.plus_words.Pairwise (· < ·) →
        (ms.foldl ParseQueryErase q).plus_words.Pairwise (· < ·)) := by
  induction ms generalizing q with
  | nil => simp
  | cons m ms ih =>
    rw [List.foldl_cons]
    obtain ⟨h1, h2, h3⟩ := ih (ParseQueryErase q m)
    obtain ⟨g1, g2, g3⟩ := ParseQueryErase_step q m
    refine ⟨h1.trans g1, fun w => ?_, fun hq => h3 (g3 hq)⟩
    rw [h2 w, g2 w]
    simp only [List.mem_cons, not_or]
    tauto

theorem ParseQuery_disjoint (s : State) (text : Str) (w : Str)
    (hw : w ∈ (ParseQuery s text).plus_words) : w ∉ (ParseQuery s text).minus_words := by
  unfold ParseQuery at hw ⊢
  simp only at hw ⊢
  rw [(ParseQueryErase_loop _ _).1]
  exact (((ParseQueryErase_loop _ _).2.1 w).mp hw).2

theorem ParseQueryWord_loop_sorted (ws : List Str) (q : Query)
    (hq : q.plus_words.Pairwise (· < ·)) :
    (ws.foldl ParseQueryWord q).plus_words.Pairwise (· < ·) := by
  induction ws generalizing q with
  | nil => exact hq
  | cons w ws ih =>
    rw [List.foldl_cons]
    apply ih
    unfold ParseQueryWord
    cases w with
    | nil => exact hq
    | cons c rest =>
      simp only
      by_cases hc : c = '-'
      · rw [if_pos hc]; exact hq
      · rw [if_neg hc]; exact setInsert_sorted _ _ hq

theorem ParseQuery_plus_sorted (s : State) (text : Str) :
    (ParseQuery s text).plus_words.Pairwise (· < ·) := by
  unfold ParseQuery
  simp only
  exact (ParseQueryErase_loop _ _).2.2 (ParseQueryWord_loop_sorted _ _ List.Pairwise.nil)

/-! ## Sorting -/

section SortingLemmas

variable {α : Type}

theorem insertSorted_perm (comp : α → α → Bool) (a : α) (l : List α) :
    (insertSorted comp a l).Perm (a :: l) := by
  induction l with
  | nil => exact List.Perm.refl _
  | cons b l ih =>
    unfold insertSorted
    by_cases hc : comp a b = true
    · rw [if_pos hc]
    · rw [if_neg hc]
      exact (List.Perm.cons b ih).trans (List.Perm.swap a b l)

theorem insertionSort_perm (comp : α → α → Bool) (l : List α) :
    (insertionSort comp l).Perm l := by
  induction l with
  | nil => exact List.Perm.refl _
  | cons a l ih =>
    unfold insertionSort
    exact (insertSorted_perm comp a _).trans (List.Perm.cons a ih)

theorem insertSorted_pairwise (comp : α → α → Bool) (a : α) (l : List α)
    (hirr : ∀ b ∈ l, comp b b = false)
    (htrans : ∀ y ∈ l, ∀ b ∈ l, comp y a = true → comp a b = true → comp y b = true)
    (hl : l.Pairwise (fun x y => comp y x = false)) :
    (insertSorted comp a l).Pairwise (fun x y => comp y x = false) := by
  induction l with
  | nil => simp [insertSorted]
  | cons b l ih =>
    have hb := List.pairwise_cons.mp hl
    unfold insertSorted
    by_cases hc : comp a b = true
    · rw [if_pos hc]
      refine List.pairwise_cons.mpr ⟨?_, hl⟩
      intro y hy
      by_contra hya
      have hya' : comp y a = true := by simpa using hya
      have hyb := htrans y hy b (List.mem_cons_self _ _) hya' hc
      rcases List.mem_cons.mp hy with rfl | hyl
      · rw [hirr y hy] at hyb
        exact Bool.false_ne_true hyb
      · rw [hb.1 y hyl] at hyb
        exact Bool.false_ne_true hyb
    · rw [if_neg hc]
      refine List.pairwise_cons.mpr ⟨?_, ?_⟩
      · intro y hy
        rcases List.mem_cons.mp ((insertSorted_perm comp a l).subset hy) with rfl | hyl
        · simpa using hc
        · exact hb.1 y hyl
      · exact ih (fun y hy => hirr y (List.mem_cons_of_mem _ hy))
          (fun y hy c hc' => htrans y (List.mem_cons_of_mem _ hy) c
            (List.mem_cons_of_mem _ hc')) hb.2

theorem insertionSort_sorted (comp : α → α → Bool) (l : List α) (h : StrictWeakOn comp l) :
    (insertionSort comp l).Pairwise (fun x y => comp y x = false) := by
  induction l with
  | nil => exact List.Pairwise.nil
  | cons a l ih =>
    unfold insertionSort
    have hsub : ∀ x ∈ insertionSort comp l, x ∈ a :: l :=
      fun x hx => List.mem_cons_of_mem _ ((insertionSort_perm comp l).subset hx)
    apply insertSorted_pairwise
    · exact fun b hb => h.1 b (hsub b hb)
    · exact fun y hy b hb => h.2.1 y (hsub y hy) a (List.mem_cons_self _ _) b (hsub b hb)
    · apply ih
      refine ⟨fun x hx => h.1 x (List.mem_cons_of_mem _ hx), ?_, ?_⟩
      · exact fun x hx y hy z hz => h.2.1 x (List.mem_cons_of_mem _ hx) y
          (List.mem_cons_of_mem _ hy) z (List.mem_cons_of_mem _ hz)
      · exact fun x hx y hy z hz => h.2.2 x (List.mem_cons_of_mem _ hx) y
          (List.mem_cons_of_mem _ hy) z (List.mem_cons_of_mem _ hz)

theorem sortByInsertion_contract : SortContract (@sortByInsertion α) :=
  ⟨fun comp l h => ⟨_, rfl, insertionSort_perm comp l, insertionSort_sorted comp l h⟩⟩

theorem sortOrFail_contract : SortContract (@sortOrFail α) :=
  ⟨fun comp l h => ⟨_, if_pos h, insertionSort_perm comp l, insertionSort_sorted comp l h⟩⟩

theorem sortOrForeign_contract (x : α) : SortContract (sortOrForeign x) :=
  ⟨fun comp l h => ⟨_, if_pos h, insertionSort_perm comp l, insertionSort_sorted comp l h⟩⟩

end SortingLemmas

/-! ## `FindTopDocuments` -/

section FindTop

variable {R : Type} [LinearOrderedField R]

theorem FindTopDocuments_bind
    (sort : (Document R → Document R → Bool) → List (Document R) →
      Except Error (List (Document R)))
    (log : R → R) (s : State) (raw_query : Str)
    (predicate : Int → DocumentStatus → Int → Bool) :
    FindTopDocuments sort log s raw_query predicate =
      FindAllDocuments log s (ParseQuery s raw_query) predicate >>=
        FindTopDocumentsSort sort :=
  rfl

theorem FindTopDocuments_of_all
    (sort : (Document R → Document R → Bool) → List (Document R) →
      Except Error (List (Document R)))
    (log : R → R) (s : State) (raw_query : Str)
    (predicate : Int → DocumentStatus → Int → Bool) (all : List (Document R))
    (hall : FindAllDocuments log s (ParseQuery s raw_query) predicate = .ok all) :
    FindTopDocuments sort log s raw_query predicate = FindTopDocumentsSort sort all := by
  rw [FindTopDocuments_bind, hall]
  rfl

theorem FindTopDocuments_eq
    (sort : (Document R → Document R → Bool) → List (Document R) →
      Except Error (List (Document R)))
    (log : R → R) (s : State) (h : Inv s) (raw_query : Str)
    (predicate : Int → DocumentStatus → Int → Bool) :
    FindTopDocuments sort log s raw_query predicate =
      FindTopDocumentsSort sort (matchedDocuments log s (ParseQuery s raw_query) predicate) :=
  FindTopDocuments_of_all sort log s raw_query predicate _ (FindAllDocuments_eq log s h _ _)

theorem FindTopDocumentsSort_ok
    (sort : (Document R → Document R → Bool) → List (Document R) →
      Except Error (List (Document R)))
    (matched out : List (Document R)) (hout : sort FindTopDocumentsLess matched = .ok out) :
    FindTopDocumentsSort sort matched = .ok (out.take MAX_RESULT_DOCUMENT_COUNT) := by
  unfold FindTopDocumentsSort
  rw [hout]
  simp only [bind, Except.bind, pure, Except.pure]
  split_ifs with hlen
  · rfl
  · rw [List.take_of_length_le (not_lt.mp hlen)]

theorem FindTopDocumentsSort_error
    (sort : (Document R → Document R → Bool) → List (Document R) →
      Except Error (List (Document R)))
    (matched : List (Document R)) (e : Error)
    (hout : sort FindTopDocumentsLess matched = .error e) :
    FindTopDocumentsSort sort matched = .error e := by
  unfold FindTopDocumentsSort
  rw [hout]
  rfl

/-- Within its precondition `std::sort` returns, and `FindTopDocuments` goes on with the
first five elements of a sorted rearrangement of the records. -/
theorem FindTopDocumentsSort_of_strictWeak
    (sort : (Document R → Document R → Bool) → List (Document R) →
      Except Error (List (Document R)))
    (hsort : SortContract sort) (matched : List (Document R))
    (h : StrictWeakOn FindTopDocumentsLess matched) :
    ∃ out : List (Document R), out.Perm matched ∧
      out.Pairwise (fun a b => FindTopDocumentsLess b a = false) ∧
      FindTopDocumentsSort sort matched = .ok (out.take MAX_RESULT_DOCUMENT_COUNT) := by
  obtain ⟨out, hout, hperm, hsorted⟩ := hsort.sorted _ _ h
  exact ⟨out, hperm, hsorted, FindTopDocumentsSort_ok sort matched out hout⟩

theorem FindTopDocumentsSort_subset
    (sort : (Document R → Document R → Bool) → List (Document R) →
      Except Error (List (Document R)))
    (hsort : SortContract sort) (matched : List (Document R))
    (h : StrictWeakOn FindTopDocumentsLess matched) :
    ∃ top, FindTopDocumentsSort sort matched = .ok top ∧ ∀ r ∈ top, r ∈ matched := by
  obtain ⟨out, hperm, _, htop⟩ := FindTopDocumentsSort_of_strictWeak sort hsort matched h
  exact ⟨_, htop, fun r hr => hperm.subset (List.mem_of_mem_take hr)⟩

theorem EPSILON_pos : (0 : R) < EPSILON := by
  unfold EPSILON
  positivity

theorem FindTopDocumentsLess_iff (a b : Document R) :
    FindTopDocumentsLess a b = true ↔ RankedAbove a b := by
  unfold FindTopDocumentsLess RankedAbove
  simp only [Bool.or_eq_true, Bool.and_eq_true, decide_eq_true_eq]

theorem FindTopDocumentsLess_eq_false_iff (a b : Document R) :
    FindTopDocumentsLess a b = false ↔ ¬ RankedAbove a b := by
  rw [← FindTopDocumentsLess_iff]
  simp

theorem RankedAbove_lex (l : List (Document R)) (hgap : NoNearTies l) (a b : Document R)
    (ha : a ∈ l) (hb : b ∈ l) :
    RankedAbove a b ↔
      a.relevance > b.relevance ∨ (a.relevance = b.relevance ∧ a.rating > b.rating) := by
  unfold RankedAbove
  constructor
  · rintro (h | ⟨h1, h2⟩)
    · exact Or.inl h
    · rcases hgap a ha b hb with he | hge
      · exact Or.inr ⟨he, h2⟩
      · exact absurd h1 (not_lt.mpr hge)
  · rintro (h | ⟨h1, h2⟩)
    · exact Or.inl h
    · refine Or.inr ⟨?_, h2⟩
      rw [h1, sub_self, abs_zero]
      exact EPSILON_pos

theorem strictWeakOn_of_noNearTies (l : List (Document R)) (hgap : NoNearTies l) :
    StrictWeakOn FindTopDocumentsLess l := by
  refine ⟨?_, ?_, ?_⟩
  · intro a ha
    rw [FindTopDocumentsLess_eq_false_iff, RankedAbove_lex l hgap a a ha ha]
    simp
  · intro a ha b hb c hc hab hbc
    rw [FindTopDocumentsLess_iff, RankedAbove_lex l hgap _ _ ha hb] at hab
    rw [FindTopDocumentsLess_iff, RankedAbove_lex l hgap _ _ hb hc] at hbc
    rw [FindTopDocumentsLess_iff, RankedAbove_lex l hgap _ _ ha hc]
    rcases hab with h1 | ⟨h1, h2⟩ <;> rcases hbc with h3 | ⟨h3, h4⟩
    · exact Or.inl (lt_trans h3 h1)
    · exact Or.inl (h3 ▸ h1)
    · exact Or.inl (h1 ▸ h3)
    · exact Or.inr ⟨h1.trans h3, lt_trans h4 h2⟩
  · intro a ha b hb c hc hab hba hbc hcb
    rw [FindTopDocumentsLess_eq_false_iff, RankedAbove_lex l hgap _ _ ha hb] at hab
    rw [FindTopDocumentsLess_eq_false_iff, RankedAbove_lex l hgap _ _ hb ha] at hba
    rw [FindTopDocumentsLess_eq_false_iff, RankedAbove_lex l hgap _ _ hb hc] at hbc
    rw [FindTopDocumentsLess_eq_false_iff, RankedAbove_lex l hgap _ _ hc hb] at hcb
    rw [FindTopDocumentsLess_eq_false_iff, RankedAbove_lex l hgap _ _ ha hc,
      FindTopDocumentsLess_eq_false_iff, RankedAbove_lex l hgap _ _ hc ha]
    push_neg at hab hba hbc hcb ⊢
    have e1 : a.relevance = b.relevance := le_antisymm hab.1 hba.1
    have e2 : b.relevance = c.relevance := le_antisymm hbc.1 hcb.1
    have r1 : a.rating = b.rating := le_antisymm (hab.2 e1) (hba.2 e1.symm)
    have r2 : b.rating = c.rating := le_antisymm (hbc.2 e2) (hcb.2 e2.symm)
    refine ⟨⟨le_of_eq (e1.trans e2), fun _ => le_of_eq (r1.trans r2)⟩,
      ⟨le_of_eq (e1.trans e2).symm, fun _ => le_of_eq (r1.trans r2).symm⟩⟩

end FindTop

/-! ## `MatchDocument` -/

theorem MatchDocumentMinus_eq (s : State) (d : Int) (i : DocumentInformation)
    (hi : mapFind d s.documents_to_info_ = some i) (ms : List Str) :
    MatchDocumentMinus s d ms = .ok (ms.any (fun w => decide (w ∈ i.words))) := by
  induction ms with
  | nil => rfl
  | cons m ms ih =>
    unfold MatchDocumentMinus
    rw [mapAt_of_find _ _ _ hi]
    by_cases hm : m ∈ i.words
    · have hc : setCount m i.words > 0 := (setCount_pos_iff _ _).mpr hm
      simp [bind, Except.bind, pure, Except.pure, hc, hm]
    · have hc : ¬ setCount m i.words > 0 := fun hc => hm ((setCount_pos_iff _ _).mp hc)
      simp [bind, Except.bind, hc, hm, ih]

theorem MatchDocumentPlus_loop (s : State) (d : Int) (i : DocumentInformation)
    (hi : mapFind d s.documents_to_info_ = some i) (ps : List Str) (acc : List Str) :
    ps.foldlM (MatchDocumentPlus s d) acc =
      .ok (acc ++ ps.filter (fun w => decide (w ∈ i.words))) := by
  induction ps generalizing acc with
  | nil => simp [pure, Except.pure]
  | cons p ps ih =>
    have hstep : MatchDocumentPlus s d acc p =
        .ok (if p ∈ i.words then acc ++ [p] else acc) := by
      unfold MatchDocumentPlus
      rw [mapAt_of_find _ _ _ hi]
      by_cases hp : p ∈ i.words
      · have hc : setCount p i.words > 0 := (setCount_pos_iff _ _).mpr hp
        simp [bind, Except.bind, pure, Except.pure, hc, hp]
      · have hc : ¬ setCount p i.words > 0 := fun hc => hp ((setCount_pos_iff _ _).mp hc)
        simp [bind, Except.bind, pure, Except.pure, hc, hp]
    rw [List.foldlM_cons, hstep]
    simp only [bind, Except.bind]
    rw [ih]
    by_cases hp : p ∈ i.words
    · simp [hp]
    · simp [hp]

theorem MatchDocument_of_info (s : State) (raw_query : Str) (d : Int)
    (i : DocumentInformation) (hi : mapFind d s.documents_to_info_ = some i) :
    MatchDocument s raw_query d =
      .ok (if (ParseQuery s raw_query).minus_words.any (fun w => decide (w ∈ i.words)) then []
        else (ParseQuery s raw_query).plus_words.filter (fun w => decide (w ∈ i.words)),
        i.status) := by
  unfold MatchDocument
  simp only
  rw [MatchDocumentMinus_eq s d i hi, MatchDocumentPlus_loop s d i hi, mapAt_of_find _ _ _ hi]
  cases hany : (ParseQuery s raw_query).minus_words.any (fun w => decide (w ∈ i.words)) <;>
    simp [bind, Except.bind, pure, Except.pure]

theorem MatchDocument_of_no_info (s : State) (raw_query : Str) (d : Int)
    (hi : mapFind d s.documents_to_info_ = none) :
    MatchDocument s raw_query d = .error Error.out_of_range := by
  have hat : mapAt d s.documents_to_info_ = .error Error.out_of_range := by
    simp [mapAt, hi]
  unfold MatchDocument
  simp only
  cases hms : (ParseQuery s raw_query).minus_words with
  | cons m ms =>
    unfold MatchDocumentMinus
    rw [hat]
    rfl
  | nil =>
    have hminus : MatchDocumentMinus s d [] = .ok false := rfl
    rw [hminus]
    simp only [bind, Except.bind]
    cases hps : (ParseQuery s raw_query).plus_words with
    | nil =>
      simp only [List.foldlM_nil, pure, Except.pure, Bool.false_eq_true, if_false]
      rw [hat]
    | cons p ps =>
      rw [List.foldlM_cons]
      unfold MatchDocumentPlus
      rw [hat]
      rfl

theorem ingestedFrom_ids (calls : List Call) (s : State) :
    (ingestedFrom s calls).map Ingested.id = addedIds calls := by
  induction calls generalizing s with
  | nil => rfl
  | cons c cs ih =>
    cases c with
    | setStopWords text => simpa [ingestedFrom, addedIds] using ih _
    | addDocument document_id document status ratings =>
      simpa [ingestedFrom, addedIds] using ih _

/-! ## Results about relevance and matching -/

theorem ingested_ids (calls : List Call) :
    (ingested calls).map Ingested.id = addedIds calls :=
  ingestedFrom_ids calls State.init

theorem mem_matchedDocuments {R : Type} [LinearOrderedField R] (log : R → R) (s : State)
    (query : Query) (predicate : Int → DocumentStatus → Int → Bool) (r : Document R) :
    r ∈ matchedDocuments log s query predicate ↔
      r.id ∈ matchedIds s query predicate ∧ r.relevance = relevanceOf log s query r.id ∧
        r.rating = ratingOf s r.id := by
  unfold matchedDocuments
  rw [List.mem_map]
  constructor
  · rintro ⟨d, hd, rfl⟩
    exact ⟨hd, rfl, rfl⟩
  · rintro ⟨hd, hrel, hrat⟩
    refine ⟨r.id, hd, ?_⟩
    cases r
    simp only at hrel hrat
    rw [hrel, hrat]

theorem matchedDocuments_ids {R : Type} [LinearOrderedField R] (log : R → R) (s : State)
    (query : Query) (predicate : Int → DocumentStatus → Int → Bool) :
    (matchedDocuments log s query predicate).map Document.id =
      matchedIds s query predicate := by
  unfold matchedDocuments
  rw [List.map_map]
  exact List.map_id _

theorem allowedDoc_iff (s : State) (query : Query) (d : Int) :
    allowedDoc s query d = true ↔ ∀ w ∈ query.minus_words, w ∉ wordsOf s d := by
  unfold allowedDoc
  simp [List.all_eq_true]

theorem scoringWords_ne_nil_iff (s : State) (h : Inv s) (raw_query : Str) (d : Int) :
    scoringWords s (ParseQuery s raw_query) d ≠ [] ↔
      ∃ w ∈ (ParseQuery s raw_query).plus_words, w ∈ wordsOf s d := by
  unfold scoringWords
  rw [Ne, List.filter_eq_nil_iff]
  push_neg
  constructor
  · rintro ⟨w, hw, hc⟩
    simp only [Bool.and_eq_true, decide_eq_true_eq] at hc
    exact ⟨w, hw, (h.docs_words w d).mp hc.2⟩
  · rintro ⟨w, hw, hd⟩
    refine ⟨w, hw, ?_⟩
    simp only [Bool.and_eq_true, decide_eq_true_eq]
    exact ⟨ParseQuery_disjoint s raw_query w hw, (h.docs_words w d).mpr hd⟩

theorem relevanceOf_run (calls : List Call) (hids : (addedIds calls).Nodup) (raw_query : Str)
    (D : Ingested) (hD : D ∈ ingested calls) :
    relevanceOf Real.log (run calls) (ParseQuery (run calls) raw_query) D.id =
      (((ParseQuery (run calls) raw_query).plus_words.filter
          (fun w => decide (w ∈ D.words))).map
        (fun w => ((termFrequency D w : ℚ) : ℝ) *
          Real.log ((GetDocumentCount (run calls) : ℝ) / (documentFrequency calls w : ℝ)))).sum := by
  have hnd : ((ingested calls).map Ingested.id).Nodup := by rw [ingested_ids]; exact hids
  have hcount : GetDocumentCount (run calls) = (run calls).document_count_ := by
    rw [run_keys_length, run_count, ingested_ids, List.Nodup.dedup hids, ← ingested_ids,
      List.length_map]
  unfold relevanceOf scoringWords
  have hfilter : (ParseQuery (run calls) raw_query).plus_words.filter
      (fun w => decide (w ∉ (ParseQuery (run calls) raw_query).minus_words) &&
        decide (D.id ∈ docsOf (run calls) w)) =
      (ParseQuery (run calls) raw_query).plus_words.filter (fun w => decide (w ∈ D.words)) := by
    apply List.filter_congr
    intro w hw
    have h1 := ParseQuery_disjoint (run calls) raw_query w hw
    have h2 : D.id ∈ docsOf (run calls) w ↔ w ∈ D.words := by
      rw [(run_Inv calls).docs_words, run_wordsOf_nodup calls hnd D hD]
    by_cases hwD : w ∈ D.words
    · simp [h1, h2, hwD]
    · simp [h1, h2, hwD]
  rw [hfilter]
  congr 1
  apply List.map_congr_left
  intro w _
  unfold idfOf termFrequency documentFrequency
  rw [run_freqOf_nodup calls hnd D hD, run_docsOf_length calls hnd, hcount, mul_comm]

/-- C1, as amended: when every document id was ingested once, every record of
`FindAllDocuments` carries as relevance the sum, over the plus-words of the query that
occur in the document, of the term frequency times the natural logarithm of the document
count divided by the document frequency. `FindTopDocuments` hands these records to the
sort, and whenever the comparison is a strict weak ordering on the records handed to the
sort, it returns, and every record it returns is one of them. -/
theorem C1_relevance_is_tf_idf (calls : List Call) (hids : (addedIds calls).Nodup)
    (raw_query : Str) (predicate : Int → DocumentStatus → Int → Bool) :
    ∃ all, FindAllDocuments Real.log (run calls) (ParseQuery (run calls) raw_query)
        predicate = .ok all ∧
      (∀ r ∈ all, ∃ D ∈ ingested calls, D.id = r.id ∧
        r.relevance =
          (((ParseQuery (run calls) raw_query).plus_words.filter
              (fun w => decide (w ∈ D.words))).map
            (fun w => ((termFrequency D w : ℚ) : ℝ) *
              Real.log ((GetDocumentCount (run calls) : ℝ) /
                (documentFrequency calls w : ℝ)))).sum) ∧
      (∀ sort, SortContract sort →
        FindTopDocuments sort Real.log (run calls) raw_query predicate =
          FindTopDocumentsSort sort all ∧
        ∀ matched : List (Document ℝ), StrictWeakOn FindTopDocumentsLess matched →
          ∃ top, FindTopDocumentsSort sort matched = .ok top ∧ ∀ r ∈ top, r ∈ matched) := by
  have hinv := run_Inv calls
  have hall := FindAllDocuments_eq Real.log (run calls) hinv
    (ParseQuery (run calls) raw_query) predicate
  refine ⟨_, hall, ?_, ?_⟩
  · intro r hr
    rw [mem_matchedDocuments] at hr
    have hkey : r.id ∈ mapKeys (run calls).documents_to_info_ :=
      (List.mem_filter.mp hr.1).1
    rw [run_keys] at hkey
    obtain ⟨D, hD, hid⟩ := List.mem_map.mp hkey
    refine ⟨D, hD, hid, ?_⟩
    rw [hr.2.1, ← hid]
    exact relevanceOf_run calls hids raw_query D hD
  · intro sort hsort
    exact ⟨FindTopDocuments_of_all sort Real.log _ raw_query predicate _ hall,
      FindTopDocumentsSort_subset sort hsort⟩

/-- C2, as amended: every record of `FindAllDocuments` belongs to a document with
metadata whose stored word set contains no minus-word of the parsed query.
`FindTopDocuments` hands these records to the sort, and whenever the comparison is a
strict weak ordering on the records handed to the sort, it returns, and every record it
returns is one of them. -/
theorem C2_minus_word_excludes {R : Type} [LinearOrderedField R]
    (sort : (Document R → Document R → Bool) → List (Document R) →
      Except Error (List (Document R)))
    (hsort : SortContract sort) (log : R → R) (calls : List Call) (raw_query : Str)
    (predicate : Int → DocumentStatus → Int → Bool) :
    ∃ all, FindAllDocuments log (run calls) (ParseQuery (run calls) raw_query)
        predicate = .ok all ∧
      (∀ r ∈ all, ∃ info, mapFind r.id (run calls).documents_to_info_ = some info ∧
        ∀ w ∈ (ParseQuery (run calls) raw_query).minus_words, w ∉ info.words) ∧
      FindTopDocuments sort log (run calls) raw_query predicate =
        FindTopDocumentsSort sort all ∧
      ∀ matched : List (Document R), StrictWeakOn FindTopDocumentsLess matched →
        ∃ top, FindTopDocumentsSort sort matched = .ok top ∧ ∀ r ∈ top, r ∈ matched := by
  have hinv := run_Inv calls
  have hall := FindAllDocuments_eq log (run calls) hinv
    (ParseQuery (run calls) raw_query) predicate
  refine ⟨_, hall, ?_, FindTopDocuments_of_all sort log _ raw_query predicate _ hall,
    FindTopDocumentsSort_subset sort hsort⟩
  intro r hmem
  rw [mem_matchedDocuments] at hmem
  have hkey : r.id ∈ mapKeys (run calls).documents_to_info_ := (List.mem_filter.mp hmem.1).1
  rw [← mapFind_isSome_iff] at hkey
  obtain ⟨info, hinfo⟩ := Option.isSome_iff_exists.mp hkey
  refine ⟨info, hinfo, fun w hw => ?_⟩
  have hpass := ((mem_matchedIds _ hinv _ _ _).mp hmem.1).1
  unfold passesDoc at hpass
  rw [Bool.and_eq_true] at hpass
  have := (allowedDoc_iff _ _ _).mp hpass.1 w hw
  rwa [wordsOf_of_find _ _ _ hinfo] at this

/-- C3: `FindAllDocuments` on a parsed query returns one record for each ingested id whose
stored word set contains a plus-word and no minus-word and whose stored status and rating
satisfy the predicate, no record for any other id, each id once, and every record carries
the stored rating. -/
theorem C3_matched_ids {R : Type} [LinearOrderedField R] (log : R → R) (calls : List Call)
    (raw_query : Str) (predicate : Int → DocumentStatus → Int → Bool) :
    ∃ all, FindAllDocuments log (run calls) (ParseQuery (run calls) raw_query)
        predicate = .ok all ∧
      (all.map Document.id).Nodup ∧
      (∀ d, d ∈ all.map Document.id ↔
        d ∈ addedIds calls ∧
        (∃ w ∈ (ParseQuery (run calls) raw_query).plus_words, w ∈ wordsOf (run calls) d) ∧
        (∀ w ∈ (ParseQuery (run calls) raw_query).minus_words, w ∉ wordsOf (run calls) d) ∧
        predicate d (statusOf (run calls) d) (ratingOf (run calls) d) = true) ∧
      (∀ r ∈ all, r.rating = ratingOf (run calls) r.id) := by
  have hinv := run_Inv calls
  refine ⟨_, FindAllDocuments_eq log (run calls) hinv _ predicate, ?_, ?_, ?_⟩
  · rw [matchedDocuments_ids]
    exact (matchedIds_sorted _ hinv _ _).imp (fun hlt => ne_of_lt hlt)
  · intro d
    rw [matchedDocuments_ids]
    unfold matchedIds
    rw [List.mem_filter, run_keys, ingested_ids, Bool.and_eq_true, decide_eq_true_eq,
      scoringWords_ne_nil_iff _ hinv]
    unfold passesDoc
    rw [Bool.and_eq_true, allowedDoc_iff]
    tauto
  · intro r hr
    exact ((mem_matchedDocuments _ _ _ _ _).mp hr).2.2

/-- C8: for an ingested id `MatchDocument` returns; the word list is empty when the stored
word set contains a minus-word of the parsed query, otherwise it holds exactly the
plus-words found in the stored word set, strictly ascending; the second component is the
stored status. -/
theorem C8_match_document (calls : List Call) (raw_query : Str) (document_id : Int)
    (hid : document_id ∈ addedIds calls) :
    ∃ matched, MatchDocument (run calls) raw_query document_id =
        .ok (matched, statusOf (run calls) document_id) ∧
      ((∃ w ∈ (ParseQuery (run calls) raw_query).minus_words,
          w ∈ wordsOf (run calls) document_id) → matched = []) ∧
      ((∀ w ∈ (ParseQuery (run calls) raw_query).minus_words,
          w ∉ wordsOf (run calls) document_id) →
        matched.Pairwise (· < ·) ∧
          ∀ w, w ∈ matched ↔
            w ∈ (ParseQuery (run calls) raw_query).plus_words ∧
              w ∈ wordsOf (run calls) document_id) := by
  have hkey : document_id ∈ mapKeys (run calls).documents_to_info_ := by
    rw [run_keys, ingested_ids]; exact hid
  rw [← mapFind_isSome_iff] at hkey
  obtain ⟨i, hi⟩ := Option.isSome_iff_exists.mp hkey
  refine ⟨if (ParseQuery (run calls) raw_query).minus_words.any
      (fun w => decide (w ∈ i.words)) then []
    else (ParseQuery (run calls) raw_query).plus_words.filter
      (fun w => decide (w ∈ i.words)), ?_, ?_, ?_⟩
  · rw [MatchDocument_of_info _ _ _ i hi, statusOf_of_find _ _ _ hi]
  · rintro ⟨w, hw, hwd⟩
    rw [wordsOf_of_find _ _ _ hi] at hwd
    have hany : (ParseQuery (run calls) raw_query).minus_words.any
        (fun w => decide (w ∈ i.words)) = true := by
      rw [List.any_eq_true]
      exact ⟨w, hw, by simpa using hwd⟩
    rw [hany]
    rfl
  · intro hnone
    rw [wordsOf_of_find _ _ _ hi] at hnone ⊢
    have hany : (ParseQuery (run calls) raw_query).minus_words.any
        (fun w => decide (w ∈ i.words)) = false := by
      rw [List.any_eq_false]
      intro w hw
      simpa using hnone w hw
    rw [hany]
    refine ⟨(ParseQuery_plus_sorted _ _).filter _, fun w => ?_⟩
    simp [List.mem_filter]

/-- C9: `MatchDocument` throws exactly when the id was never passed to `AddDocument`,
which is exactly when the id has no metadata; and the call leaves the state as it was. -/
theorem C9_match_document_fails_iff (calls : List Call) (raw_query : Str)
    (document_id : Int) :
    ((∃ e, MatchDocument (run calls) raw_query document_id = .error e) ↔
        document_id ∉ addedIds calls) ∧
      (document_id ∉ addedIds calls ↔
        mapFind document_id (run calls).documents_to_info_ = none) ∧
      (MatchDocumentCall (run calls) raw_query document_id).2 = run calls := by
  have hkeys : document_id ∉ addedIds calls ↔
      mapFind document_id (run calls).documents_to_info_ = none := by
    rw [mapFind_eq_none_iff, run_keys, ingested_ids]
  refine ⟨?_, hkeys, rfl⟩
  rw [hkeys]
  cases hi : mapFind document_id (run calls).documents_to_info_ with
  | none =>
    rw [MatchDocument_of_no_info _ _ _ hi]
    exact ⟨fun _ => rfl, fun _ => ⟨Error.out_of_range, rfl⟩⟩
  | some i =>
    rw [MatchDocument_of_info _ _ _ i hi]
    simp

/-- C10: `GetDocumentCount` is the number of distinct ids passed to `AddDocument`,
whatever the texts were and however often an id was passed. -/
theorem C10_document_count (calls : List Call) :
    GetDocumentCount (run calls) = (addedIds calls).dedup.length := by
  rw [run_keys_length, ingested_ids]

/-! ## Records in terms of what was ingested -/

theorem run_keys_eq (calls : List Call) (hasc : (addedIds calls).Pairwise (· < ·)) :
    mapKeys (run calls).documents_to_info_ = addedIds calls := by
  have h1 : List.Sorted (· < ·) (mapKeys (run calls).documents_to_info_) :=
    (run_Inv calls).info_sorted
  have h2 : List.Sorted (· < ·) (addedIds calls) := hasc
  refine List.eq_of_perm_of_sorted ?_ h1 h2
  rw [List.perm_ext_iff_of_nodup (h1.imp (fun hlt => ne_of_lt hlt))
    (h2.imp (fun hlt => ne_of_lt hlt))]
  intro d
  rw [run_keys, ingested_ids]

theorem scoringWords_run (calls : List Call) (hnd : ((ingested calls).map Ingested.id).Nodup)
    (query : Query) (D : Ingested) (hD : D ∈ ingested calls) :
    scoringWords (run calls) query D.id =
      query.plus_words.filter
        (fun w => decide (w ∉ query.minus_words) && decide (w ∈ D.words)) := by
  unfold scoringWords
  apply List.filter_congr
  intro w _
  have h2 : D.id ∈ docsOf (run calls) w ↔ w ∈ D.words := by
    rw [(run_Inv calls).docs_words, run_wordsOf_nodup calls hnd D hD]
  by_cases hwD : w ∈ D.words
  · simp [h2, hwD]
  · simp [h2, hwD]

theorem passesDoc_run (calls : List Call) (hnd : ((ingested calls).map Ingested.id).Nodup)
    (query : Query) (predicate : Int → DocumentStatus → Int → Bool) (D : Ingested)
    (hD : D ∈ ingested calls) :
    passesDoc (run calls) query predicate D.id =
      (query.minus_words.all (fun w => decide (w ∉ D.words)) &&
        predicate D.id (if D.words ≠ [] then D.status else DocumentStatus.ACTUAL)
          (ComputeAverageRating D.ratings)) := by
  unfold passesDoc allowedDoc
  rw [(run_stored calls hnd D hD).1, (run_stored calls hnd D hD).2]
  congr 1
  rw [Bool.eq_iff_iff]
  simp only [List.all_eq_true, decide_eq_true_eq, run_wordsOf_nodup calls hnd D hD]

theorem relevanceOf_ingested {R : Type} [LinearOrderedField R] (log : R → R)
    (calls : List Call) (hnd : ((ingested calls).map Ingested.id).Nodup) (query : Query)
    (D : Ingested) (hD : D ∈ ingested calls) :
    relevanceOf log (run calls) query D.id = ingestedRelevance log (ingested calls) query D := by
  unfold relevanceOf ingestedRelevance
  rw [scoringWords_run calls hnd query D hD]
  congr 1
  apply List.map_congr_left
  intro w _
  unfold idfOf termFrequency
  rw [run_freqOf_nodup calls hnd D hD, run_docsOf_length calls hnd, run_count]

theorem matchedDocuments_run {R : Type} [LinearOrderedField R] (log : R → R)
    (calls : List Call) (hasc : (addedIds calls).Pairwise (· < ·)) (query : Query)
    (predicate : Int → DocumentStatus → Int → Bool) :
    matchedDocuments log (run calls) query predicate =
      ingestedRecords log (ingested calls) query predicate := by
  have hnd : ((ingested calls).map Ingested.id).Nodup := by
    rw [ingested_ids]
    exact hasc.imp (fun hlt => ne_of_lt hlt)
  unfold matchedDocuments matchedIds ingestedRecords
  rw [run_keys_eq calls hasc, ← ingested_ids, List.filter_map, List.map_map]
  have hfilter : (ingested calls).filter
      ((fun d => passesDoc (run calls) query predicate d &&
        decide (scoringWords (run calls) query d ≠ [])) ∘ Ingested.id) =
      (ingested calls).filter (ingestedMatches query predicate) := by
    apply List.filter_congr
    intro D hD
    simp only [Function.comp]
    unfold ingestedMatches
    rw [passesDoc_run calls hnd query predicate D hD, scoringWords_run calls hnd query D hD]
  rw [hfilter]
  apply List.map_congr_left
  intro D hD
  have hD' := (List.mem_filter.mp hD).1
  simp only [Function.comp]
  rw [relevanceOf_ingested log calls hnd query D hD', (run_stored calls hnd D hD').1]

theorem sorted_perm_unique {α : Type} (comp : α → α → Bool) (t out : List α)
    (ht : t.Pairwise (fun a b => comp a b = true)) (hperm : out.Perm t)
    (hout : out.Pairwise (fun a b => comp b a = false)) : out = t := by
  induction t generalizing out with
  | nil => exact hperm.eq_nil
  | cons x t ih =>
    cases out with
    | nil => exact absurd hperm.symm.eq_nil (List.cons_ne_nil _ _)
    | cons y out =>
      have hx := List.pairwise_cons.mp ht
      have hy := List.pairwise_cons.mp hout
      have hyx : y = x := by
        by_contra hne
        have hxout : x ∈ out := by
          have : x ∈ y :: out := hperm.symm.subset (List.mem_cons_self _ _)
          rcases List.mem_cons.mp this with h | h
          · exact absurd h.symm hne
          · exact h
        have hyt : y ∈ t := by
          have : y ∈ x :: t := hperm.subset (List.mem_cons_self _ _)
          rcases List.mem_cons.mp this with h | h
          · exact absurd h hne
          · exact h
        have h1 := hy.1 x hxout
        have h2 := hx.1 y hyt
        rw [h1] at h2
        exact Bool.false_ne_true h2
      subst hyx
      rw [ih out hx.2 (List.Perm.cons_inv hperm) hy.2]

theorem ingestedRecords_eq_skeleton {R : Type} [LinearOrderedField R] (log : R → R)
    (L : List Ingested) (query : Query) (predicate : Int → DocumentStatus → Int → Bool) :
    ingestedRecords log L query predicate =
      (ingestedSkeleton L query predicate).map (skeletonRecord log) := by
  unfold ingestedRecords ingestedSkeleton
  rw [List.map_map]
  apply List.map_congr_left
  intro D _
  simp only [Function.comp, skeletonRecord, ingestedRelevance, ingestedSummands, List.map_map]
  congr 2
  apply List.map_congr_left
  intro w _
  simp only [Function.comp, summandValue, termFrequency]
  push_cast
  rfl

theorem mainCalls_ascending : (addedIds mainCalls).Pairwise (· < ·) := by decide

theorem main_skeleton_default :
    ingestedSkeleton (ingested mainCalls) (ParseQuery (run mainCalls) mainQuery)
        (fun _ status _ => decide (status = DocumentStatus.ACTUAL)) =
      [⟨0, [⟨4, 2, 1, 4⟩], 2⟩, ⟨1, [⟨4, 2, 1, 4⟩, ⟨4, 1, 2, 4⟩], 5⟩, ⟨2, [⟨4, 2, 1, 4⟩], -1⟩] := by
  decide!

theorem main_skeleton_banned :
    ingestedSkeleton (ingested mainCalls) (ParseQuery (run mainCalls) mainQuery)
        (fun _ status _ => decide (status = DocumentStatus.BANNED)) =
      [⟨3, [⟨4, 2, 1, 3⟩], 9⟩] := by
  decide!

theorem main_skeleton_even :
    ingestedSkeleton (ingested mainCalls) (ParseQuery (run mainCalls) mainQuery)
        (fun document_id _ _ => decide (document_id % 2 = 0)) =
      [⟨0, [⟨4, 2, 1, 4⟩], 2⟩, ⟨2, [⟨4, 2, 1, 4⟩], -1⟩] := by
  decide!

theorem noNearTies_of_perm {R : Type} [LinearOrderedField R] (l t : List (Document R))
    (hperm : t.Perm l) (h : NoNearTies t) : NoNearTies l :=
  fun a ha b hb => h a (hperm.symm.subset ha) b (hperm.symm.subset hb)

theorem FindTopDocuments_of_chain {R : Type} [LinearOrderedField R]
    (sort : (Document R → Document R → Bool) → List (Document R) →
      Except Error (List (Document R)))
    (hsort : SortContract sort) (log : R → R) (s : State) (h : Inv s) (raw_query : Str)
    (predicate : Int → DocumentStatus → Int → Bool) (t : List (Document R))
    (hperm : t.Perm (matchedDocuments log s (ParseQuery s raw_query) predicate))
    (hgap : NoNearTies t)
    (hchain : t.Pairwise (fun a b => FindTopDocumentsLess a b = true)) :
    FindTopDocuments sort log s raw_query predicate =
      .ok (t.take MAX_RESULT_DOCUMENT_COUNT) := by
  rw [FindTopDocuments_eq sort log s h]
  have hgap' := noNearTies_of_perm _ t hperm hgap
  obtain ⟨out, hout, hsorted, htop⟩ := FindTopDocumentsSort_of_strictWeak sort hsort _
    (strictWeakOn_of_noNearTies _ hgap')
  rw [htop, sorted_perm_unique FindTopDocumentsLess t out hchain (hout.trans hperm.symm)
    hsorted]

theorem main_found_default :
    matchedDocuments Real.log (run mainCalls) (ParseQuery (run mainCalls) mainQuery)
        (fun _ status _ => decide (status = DocumentStatus.ACTUAL)) =
      [{ id := 0, relevance := Real.log 2 * (1 / 4), rating := 2 },
       { id := 1, relevance := Real.log 2 * (1 / 4) + Real.log 4 * (1 / 2), rating := 5 },
       { id := 2, relevance := Real.log 2 * (1 / 4), rating := -1 }] := by
  rw [matchedDocuments_run _ _ mainCalls_ascending, ingestedRecords_eq_skeleton,
    main_skeleton_default]
  simp only [List.map, skeletonRecord, summandValue, List.sum_cons, List.sum_nil, add_zero,
    Nat.cast_ofNat, Nat.cast_one]
  norm_num

theorem main_found_banned :
    matchedDocuments Real.log (run mainCalls) (ParseQuery (run mainCalls) mainQuery)
        (fun _ status _ => decide (status = DocumentStatus.BANNED)) =
      [{ id := 3, relevance := Real.log 2 * (1 / 3), rating := 9 }] := by
  rw [matchedDocuments_run _ _ mainCalls_ascending, ingestedRecords_eq_skeleton,
    main_skeleton_banned]
  simp only [List.map, skeletonRecord, summandValue, List.sum_cons, List.sum_nil, add_zero,
    Nat.cast_ofNat, Nat.cast_one]
  norm_num

theorem main_found_even :
    matchedDocuments Real.log (run mainCalls) (ParseQuery (run mainCalls) mainQuery)
        (fun document_id _ _ => decide (document_id % 2 = 0)) =
      [{ id := 0, relevance := Real.log 2 * (1 / 4), rating := 2 },
       { id := 2, relevance := Real.log 2 * (1 / 4), rating := -1 }] := by
  rw [matchedDocuments_run _ _ mainCalls_ascending, ingestedRecords_eq_skeleton,
    main_skeleton_even]
  simp only [List.map, skeletonRecord, summandValue, List.sum_cons, List.sum_nil, add_zero,
    Nat.cast_ofNat, Nat.cast_one]
  norm_num

theorem log_four_lower : (3 : ℝ) / 4 ≤ Real.log 4 := by
  have h := Real.one_sub_inv_le_log_of_pos (show (0 : ℝ) < 4 by norm_num)
  norm_num at h
  linarith

theorem log_two_lower : (1 : ℝ) / 2 ≤ Real.log 2 := by
  have h := Real.one_sub_inv_le_log_of_pos (show (0 : ℝ) < 2 by norm_num)
  norm_num at h
  linarith

theorem main_top_default
    (sort : (Document ℝ → Document ℝ → Bool) → List (Document ℝ) →
      Except Error (List (Document ℝ)))
    (hsort : SortContract sort) :
    FindTopDocumentsDefault sort Real.log (run mainCalls) mainQuery =
      .ok [{ id := 1, relevance := Real.log 2 * (1 / 4) + Real.log 4 * (1 / 2), rating := 5 },
           { id := 0, relevance := Real.log 2 * (1 / 4), rating := 2 },
           { id := 2, relevance := Real.log 2 * (1 / 4), rating := -1 }] := by
  have hy := log_four_lower
  unfold FindTopDocumentsDefault
  rw [FindTopDocuments_of_chain sort hsort Real.log _ (run_Inv _) _ _
    [{ id := 1, relevance := Real.log 2 * (1 / 4) + Real.log 4 * (1 / 2), rating := 5 },
     { id := 0, relevance := Real.log 2 * (1 / 4), rating := 2 },
     { id := 2, relevance := Real.log 2 * (1 / 4), rating := -1 }]]
  · rfl
  · rw [main_found_default]
    exact List.Perm.swap _ _ _
  · intro a ha b hb
    simp only [List.mem_cons, List.mem_singleton, List.not_mem_nil, or_false] at ha hb
    rcases ha with rfl | rfl | rfl <;> rcases hb with rfl | rfl | rfl <;>
      first
        | exact Or.inl rfl
        | (right
           rw [le_abs]
           unfold EPSILON
           first
             | (left; dsimp only; linarith)
             | (right; dsimp only; linarith))
  · simp only [List.pairwise_cons, List.mem_cons, List.mem_singleton, List.not_mem_nil,
      forall_eq_or_imp, forall_eq, FindTopDocumentsLess_iff, RankedAbove, EPSILON,
      IsEmpty.forall_iff, implies_true, List.Pairwise.nil, and_true]
    refine ⟨⟨Or.inl (by linarith), Or.inl (by linarith)⟩, Or.inr ⟨by norm_num, by norm_num⟩⟩

theorem main_top_banned
    (sort : (Document ℝ → Document ℝ → Bool) → List (Document ℝ) →
      Except Error (List (Document ℝ)))
    (hsort : SortContract sort) :
    FindTopDocumentsStatus sort Real.log (run mainCalls) mainQuery DocumentStatus.BANNED =
      .ok [{ id := 3, relevance := Real.log 2 * (1 / 3), rating := 9 }] := by
  unfold FindTopDocumentsStatus
  rw [FindTopDocuments_of_chain sort hsort Real.log _ (run_Inv _) _ _
    [{ id := 3, relevance := Real.log 2 * (1 / 3), rating := 9 }]]
  · rfl
  · rw [main_found_banned]
  · intro a ha b hb
    simp only [List.mem_singleton] at ha hb
    subst ha hb
    exact Or.inl rfl
  · simp

/-- C6, as amended: in the scenario of `main` the default call of `FindTopDocuments`
returns the documents 1, 0, 2 in this order, whatever conforming sort is used. -/
theorem C6_main_default_order
    (sort : (Document ℝ → Document ℝ → Bool) → List (Document ℝ) →
      Except Error (List (Document ℝ)))
    (hsort : SortContract sort) :
    ∃ top, FindTopDocumentsDefault sort Real.log (run mainCalls) mainQuery = .ok top ∧
      top.map Document.id = [1, 0, 2] :=
  ⟨_, main_top_default sort hsort, rfl⟩

/-- C6, witness: insertion sort. -/
theorem C6_main_default_order_witness :
    SortContract (@sortByInsertion (Document ℝ)) ∧
      ∃ top, FindTopDocumentsDefault sortByInsertion Real.log (run mainCalls) mainQuery =
          .ok top ∧ top.map Document.id = [1, 0, 2] :=
  ⟨sortByInsertion_contract, C6_main_default_order sortByInsertion sortByInsertion_contract⟩

/-- C6 as stated fails: no conforming sort makes the default call in the scenario of
`main` return the ids 1, 2, 0 in this order. -/
theorem C6_counterexample :
    ¬ ∃ sort : (Document ℝ → Document ℝ → Bool) → List (Document ℝ) →
        Except Error (List (Document ℝ)),
      SortContract sort ∧
        ∃ top, FindTopDocumentsDefault sort Real.log (run mainCalls) mainQuery = .ok top ∧
          top.map Document.id = [1, 2, 0] := by
  rintro ⟨sort, hsort, top, htop, hids⟩
  rw [main_top_default sort hsort] at htop
  cases htop
  simp at hids

/-- C7, as amended: in the scenario of `main` the call of `FindTopDocuments` with status
`BANNED` returns exactly one record, with id 3, rating 9 and relevance `ln 2 / 3`, which
lies between 0.231 and 0.2311. -/
theorem C7_main_banned
    (sort : (Document ℝ → Document ℝ → Bool) → List (Document ℝ) →
      Except Error (List (Document ℝ)))
    (hsort : SortContract sort) :
    ∃ r, FindTopDocumentsStatus sort Real.log (run mainCalls) mainQuery
          DocumentStatus.BANNED = .ok [r] ∧
      r.id = 3 ∧ r.rating = 9 ∧ r.relevance = Real.log 2 / 3 ∧
      0.231 < r.relevance ∧ r.relevance < 0.2311 := by
  refine ⟨_, main_top_banned sort hsort, rfl, rfl, ?_, ?_, ?_⟩
  · ring
  · have := Real.log_two_gt_d9
    norm_num at this ⊢
    linarith
  · have := Real.log_two_lt_d9
    norm_num at this ⊢
    linarith

/-- C7, witness: insertion sort. -/
theorem C7_main_banned_witness :
    SortContract (@sortByInsertion (Document ℝ)) ∧
      ∃ r, FindTopDocumentsStatus sortByInsertion Real.log (run mainCalls) mainQuery
            DocumentStatus.BANNED = .ok [r] ∧
        r.id = 3 ∧ r.rating = 9 ∧ r.relevance = Real.log 2 / 3 ∧
        0.231 < r.relevance ∧ r.relevance < 0.2311 :=
  ⟨sortByInsertion_contract, C7_main_banned sortByInsertion sortByInsertion_contract⟩

/-- C7 as stated fails: no conforming sort makes the call with status `BANNED` in the
scenario of `main` return a single record with id 3, relevance 0 and rating 9. -/
theorem C7_counterexample :
    ¬ ∃ sort : (Document ℝ → Document ℝ → Bool) → List (Document ℝ) →
        Except Error (List (Document ℝ)),
      SortContract sort ∧
        ∃ r, FindTopDocumentsStatus sort Real.log (run mainCalls) mainQuery
              DocumentStatus.BANNED = .ok [r] ∧
          r.id = 3 ∧ r.relevance = 0 ∧ r.rating = 9 := by
  rintro ⟨sort, hsort, r, htop, -, hrel, -⟩
  rw [main_top_banned sort hsort] at htop
  cases htop
  have := log_two_lower
  simp only at hrel
  linarith

/-- C3, witness: in the scenario of `main` the predicate "the id is even" makes
`FindAllDocuments` return records for exactly the ids 0 and 2. -/
theorem C3_matched_ids_witness :
    ∃ all, FindAllDocuments Real.log (run mainCalls) (ParseQuery (run mainCalls) mainQuery)
        (fun document_id _ _ => decide (document_id % 2 = 0)) = .ok all ∧
      all.map Document.id = [0, 2] := by
  refine ⟨_, FindAllDocuments_eq Real.log (run mainCalls) (run_Inv _) _ _, ?_⟩
  rw [main_found_even]
  rfl

/-! ## The two further call sequences -/

theorem SplitIntoWordsLoop_padding (k : Nat) (words : List Str) (word : Str)
    (hword : word ≠ []) :
    SplitIntoWordsLoop (List.replicate k [' ', 'x']).flatten words word =
      words ++ word :: List.replicate k ['x'] := by
  induction k generalizing words word with
  | zero => simp [SplitIntoWordsLoop, hword]
  | succ k ih =>
    rw [List.replicate_succ, List.flatten_cons]
    have h1 : SplitIntoWordsLoop ([' ', 'x'] ++ (List.replicate k [' ', 'x']).flatten) words
        word = SplitIntoWordsLoop (List.replicate k [' ', 'x']).flatten (words ++ [word])
          ['x'] := by
      simp [SplitIntoWordsLoop, hword]
    rw [h1, ih _ _ (by simp), List.replicate_succ]
    simp

theorem SplitIntoWords_paddedText (k : Nat) :
    SplitIntoWords (paddedText k) = ['w'] :: List.replicate k ['x'] := by
  unfold SplitIntoWords paddedText
  have h1 : SplitIntoWordsLoop ('w' :: (List.replicate k [' ', 'x']).flatten) [] [] =
      SplitIntoWordsLoop (List.replicate k [' ', 'x']).flatten [] ['w'] := by
    simp [SplitIntoWordsLoop]
  rw [h1, SplitIntoWordsLoop_padding _ _ _ (by simp)]
  rfl

theorem SplitIntoWordsNoStop_of_no_stop (s : State) (hs : s.stop_words_ = []) (text : Str) :
    SplitIntoWordsNoStop s text = SplitIntoWords text := by
  unfold SplitIntoWordsNoStop
  have hstop : ∀ w, IsStopWord s w = false := by
    intro w
    simp [IsStopWord, setCount, hs]
  have hfun : (fun (words : List Str) (word : Str) =>
      if !IsStopWord s word then words ++ [word] else words) =
      fun words word => words ++ [word] := by
    funext words word
    simp [hstop word]
  have hfold : ∀ (l acc : List Str),
      l.foldl (fun words word => words ++ [word]) acc = acc ++ l := by
    intro l
    induction l with
    | nil => simp
    | cons w l ih =>
      intro acc
      rw [List.foldl_cons, ih]
      simp
  rw [hfun, hfold]
  rfl

theorem ParseQuery_congr (s t : State) (h : s.stop_words_ = t.stop_words_) (text : Str) :
    ParseQuery s text = ParseQuery t text := by
  unfold ParseQuery SplitIntoWordsNoStop IsStopWord
  rw [h]

theorem ingestedFrom_addDocument_no_stop (s : State) (hs : s.stop_words_ = [])
    (document_id : Int) (document : Str) (status : DocumentStatus) (ratings : List Int)
    (calls : List Call) :
    ingestedFrom s (.addDocument document_id document status ratings :: calls) =
      { id := document_id, words := SplitIntoWords document, status := status,
        ratings := ratings } ::
        ingestedFrom (AddDocument s document_id document status ratings) calls ∧
      (AddDocument s document_id document status ratings).stop_words_ = [] := by
  refine ⟨?_, by rw [AddDocument_stop, hs]⟩
  rw [ingestedFrom, SplitIntoWordsNoStop_of_no_stop s hs]

theorem foldl_apply_stop_nil (calls : List Call) (s : State) (hs : s.stop_words_ = [])
    (hcalls : ∀ c ∈ calls, ∃ d t st r, c = Call.addDocument d t st r) :
    (calls.foldl Call.apply s).stop_words_ = [] := by
  induction calls generalizing s with
  | nil => exact hs
  | cons c cs ih =>
    obtain ⟨d, t, st, r, rfl⟩ := hcalls _ (List.mem_cons_self _ _)
    rw [List.foldl_cons, apply_addDocument]
    exact ih _ (by rw [AddDocument_stop, hs]) (fun c hc => hcalls c (List.mem_cons_of_mem _ hc))

theorem ingestedFrom_no_stop (calls : List Call) (s : State) (hs : s.stop_words_ = [])
    (hcalls : ∀ c ∈ calls, ∃ d t st r, c = Call.addDocument d t st r) :
    ingestedFrom s calls = calls.filterMap (fun c =>
      match c with
      | .setStopWords _ => none
      | .addDocument d t st r =>
        some { id := d, words := SplitIntoWords t, status := st, ratings := r }) := by
  induction calls generalizing s with
  | nil => rfl
  | cons c cs ih =>
    obtain ⟨d, t, st, r, rfl⟩ := hcalls _ (List.mem_cons_self _ _)
    obtain ⟨h1, h2⟩ := ingestedFrom_addDocument_no_stop s hs d t st r cs
    rw [h1, ih _ h2 (fun c hc => hcalls c (List.mem_cons_of_mem _ hc))]
    rfl

theorem nearTie_ingested : ingested nearTieCalls = nearTieIngested := by
  unfold ingested
  rw [ingestedFrom_no_stop nearTieCalls State.init rfl (by
    intro c hc
    simp only [nearTieCalls, List.mem_cons, List.mem_singleton, List.not_mem_nil,
      or_false] at hc
    rcases hc with rfl | rfl | rfl | rfl | rfl | rfl | rfl <;> exact ⟨_, _, _, _, rfl⟩)]
  simp only [nearTieCalls, List.filterMap_cons, List.filterMap_nil, SplitIntoWords_paddedText]
  rfl

theorem nearTie_query :
    ParseQuery (run nearTieCalls) wQuery = { minus_words := [], plus_words := [['w']] } := by
  rw [ParseQuery_congr (run nearTieCalls) State.init]
  · decide
  · unfold run
    rw [foldl_apply_stop_nil nearTieCalls State.init rfl (by
      intro c hc
      simp only [nearTieCalls, List.mem_cons, List.mem_singleton, List.not_mem_nil,
        or_false] at hc
      rcases hc with rfl | rfl | rfl | rfl | rfl | rfl | rfl <;> exact ⟨_, _, _, _, rfl⟩)]
    rfl

theorem nearTie_skeleton :
    ingestedSkeleton nearTieIngested { minus_words := [], plus_words := [['w']] }
        (fun _ status _ => decide (status = DocumentStatus.ACTUAL)) = nearTieSkeleton := by
  decide!

theorem nearTie_found :
    matchedDocuments Real.log (run nearTieCalls) (ParseQuery (run nearTieCalls) wQuery)
        (fun _ status _ => decide (status = DocumentStatus.ACTUAL)) =
      nearTieSkeleton.map (skeletonRecord Real.log) := by
  rw [matchedDocuments_run _ _ (by decide), nearTie_ingested, nearTie_query,
    ingestedRecords_eq_skeleton, nearTie_skeleton]

theorem spread_skeleton :
    ingestedSkeleton (ingested spreadCalls) (ParseQuery (run spreadCalls) wQuery)
        (fun _ status _ => decide (status = DocumentStatus.ACTUAL)) = spreadSkeleton := by
  decide!

theorem spread_found :
    matchedDocuments Real.log (run spreadCalls) (ParseQuery (run spreadCalls) wQuery)
        (fun _ status _ => decide (status = DocumentStatus.ACTUAL)) =
      spreadSkeleton.map (skeletonRecord Real.log) := by
  rw [matchedDocuments_run _ _ (by decide), ingestedRecords_eq_skeleton, spread_skeleton]

theorem log_seven_sixths_bounds :
    (1 : ℝ) / 7 ≤ Real.log (7 / 6) ∧ Real.log (7 / 6) ≤ 1 / 6 := by
  constructor
  · have h := Real.one_sub_inv_le_log_of_pos (show (0 : ℝ) < 7 / 6 by norm_num)
    norm_num at h
    linarith
  · have h := Real.log_le_sub_one_of_pos (show (0 : ℝ) < 7 / 6 by norm_num)
    norm_num at h
    linarith

theorem nearTie_mutual (a b : Skeleton) (ha : a ∈ nearTieSkeleton) (hb : b ∈ nearTieSkeleton)
    (hne : a ≠ b) :
    RankedAbove (skeletonRecord Real.log a) (skeletonRecord Real.log b) := by
  obtain ⟨h1, h2⟩ := log_seven_sixths_bounds
  simp only [nearTieSkeleton, List.mem_cons, List.mem_singleton, List.not_mem_nil,
    or_false] at ha hb
  rcases ha with rfl | rfl | rfl | rfl | rfl | rfl <;>
    rcases hb with rfl | rfl | rfl | rfl | rfl | rfl <;>
    first
      | exact absurd rfl hne
      | (left
         simp only [skeletonRecord, summandValue, List.map, List.sum_cons, List.sum_nil,
           Nat.cast_ofNat, Nat.cast_one, add_zero]
         linarith)
      | (right
         simp only [skeletonRecord, summandValue, List.map, List.sum_cons, List.sum_nil,
           Nat.cast_ofNat, Nat.cast_one, add_zero, EPSILON]
         refine ⟨?_, by norm_num⟩
         rw [abs_lt]
         constructor <;> linarith)

theorem spread_noNearTies : NoNearTies (spreadSkeleton.map (skeletonRecord Real.log)) := by
  obtain ⟨h1, h2⟩ := log_seven_sixths_bounds
  intro a ha b hb
  simp only [spreadSkeleton, List.map, List.mem_cons, List.mem_singleton, List.not_mem_nil,
    or_false] at ha hb
  rcases ha with rfl | rfl | rfl | rfl | rfl | rfl <;>
    rcases hb with rfl | rfl | rfl | rfl | rfl | rfl <;>
    first
      | exact Or.inl rfl
      | (right
         simp only [skeletonRecord, summandValue, List.map, List.sum_cons, List.sum_nil,
           Nat.cast_ofNat, Nat.cast_one, add_zero, EPSILON]
         rw [le_abs]
         first
           | (left; linarith)
           | (right; linarith))

theorem nearTie_found_mutual (x y : Document ℝ)
    (hx : x ∈ nearTieSkeleton.map (skeletonRecord Real.log))
    (hy : y ∈ nearTieSkeleton.map (skeletonRecord Real.log)) (hne : x ≠ y) :
    RankedAbove x y := by
  obtain ⟨a, ha, rfl⟩ := List.mem_map.mp hx
  obtain ⟨b, hb, rfl⟩ := List.mem_map.mp hy
  exact nearTie_mutual a b ha hb (fun e => hne (e ▸ rfl))

theorem crowd_calls_add :
    ∀ c ∈ crowdCalls, ∃ d t st r, c = Call.addDocument d t st r := by
  intro c hc
  simp only [crowdCalls, List.mem_cons, List.mem_singleton, List.not_mem_nil,
    or_false] at hc
  rcases hc with rfl | rfl | rfl | rfl | rfl | rfl | rfl | rfl | rfl | rfl | rfl | rfl |
    rfl | rfl | rfl | rfl | rfl | rfl <;> exact ⟨_, _, _, _, rfl⟩

theorem crowd_ingested : ingested crowdCalls = crowdIngested := by
  unfold ingested
  rw [ingestedFrom_no_stop crowdCalls State.init rfl crowd_calls_add]
  simp only [crowdCalls, List.filterMap_cons, List.filterMap_nil, SplitIntoWords_paddedText]
  rfl

theorem crowd_query :
    ParseQuery (run crowdCalls) crowdQuery =
      { minus_words := [['z']], plus_words := [['w']] } := by
  rw [ParseQuery_congr (run crowdCalls) State.init]
  · decide
  · unfold run
    rw [foldl_apply_stop_nil crowdCalls State.init rfl crowd_calls_add]
    rfl

theorem crowd_skeleton :
    ingestedSkeleton crowdIngested { minus_words := [['z']], plus_words := [['w']] }
        (fun _ status _ => decide (status = DocumentStatus.ACTUAL)) = crowdSkeleton := by
  decide!

theorem crowd_found :
    matchedDocuments Real.log (run crowdCalls) (ParseQuery (run crowdCalls) crowdQuery)
        (fun _ status _ => decide (status = DocumentStatus.ACTUAL)) =
      crowdSkeleton.map (skeletonRecord Real.log) := by
  rw [matchedDocuments_run _ _ (by decide), crowd_ingested, crowd_query,
    ingestedRecords_eq_skeleton, crowd_skeleton]

theorem crowd_all :
    FindAllDocuments Real.log (run crowdCalls) (ParseQuery (run crowdCalls) crowdQuery)
        (fun _ status _ => decide (status = DocumentStatus.ACTUAL)) =
      .ok (crowdSkeleton.map (skeletonRecord Real.log)) := by
  rw [FindAllDocuments_eq Real.log _ (run_Inv _), crowd_found]

theorem log_eighteen_seventeenths_bounds :
    (1 : ℝ) / 18 ≤ Real.log (18 / 17) ∧ Real.log (18 / 17) ≤ 1 / 17 := by
  constructor
  · have h := Real.one_sub_inv_le_log_of_pos (show (0 : ℝ) < 18 / 17 by norm_num)
    norm_num at h
    linarith
  · have h := Real.log_le_sub_one_of_pos (show (0 : ℝ) < 18 / 17 by norm_num)
    norm_num at h
    linarith

/-- The comparison ranks the records of the documents 0 and 1 of `crowdCalls` each above
the other. -/
theorem crowd_mutual :
    FindTopDocumentsLess (skeletonRecord Real.log ⟨0, [⟨18, 17, 1, 1000⟩], 0⟩)
        (skeletonRecord Real.log ⟨1, [⟨18, 17, 1, 1001⟩], 1⟩) = true ∧
      FindTopDocumentsLess (skeletonRecord Real.log ⟨1, [⟨18, 17, 1, 1001⟩], 1⟩)
        (skeletonRecord Real.log ⟨0, [⟨18, 17, 1, 1000⟩], 0⟩) = true := by
  obtain ⟨h1, h2⟩ := log_eighteen_seventeenths_bounds
  rw [FindTopDocumentsLess_iff, FindTopDocumentsLess_iff]
  constructor
  · left
    simp only [skeletonRecord, summandValue, List.map, List.sum_cons, List.sum_nil,
      Nat.cast_ofNat, Nat.cast_one, add_zero]
    linarith
  · right
    simp only [skeletonRecord, summandValue, List.map, List.sum_cons, List.sum_nil,
      Nat.cast_ofNat, Nat.cast_one, add_zero, EPSILON]
    refine ⟨?_, by norm_num⟩
    rw [abs_lt]
    constructor <;> linarith

theorem crowd_not_strictWeak :
    ¬ StrictWeakOn FindTopDocumentsLess (crowdSkeleton.map (skeletonRecord Real.log)) := by
  rintro ⟨hirr, htrans, _⟩
  have ha : skeletonRecord Real.log ⟨0, [⟨18, 17, 1, 1000⟩], 0⟩ ∈
      crowdSkeleton.map (skeletonRecord Real.log) := List.mem_map_of_mem _ (by decide)
  have hb : skeletonRecord Real.log ⟨1, [⟨18, 17, 1, 1001⟩], 1⟩ ∈
      crowdSkeleton.map (skeletonRecord Real.log) := List.mem_map_of_mem _ (by decide)
  have := htrans _ ha _ hb _ ha crowd_mutual.1 crowd_mutual.2
  rw [hirr _ ha] at this
  exact Bool.false_ne_true this

/-- After `crowdCalls` a sort that returns a stray element outside its precondition makes
`FindTopDocuments` return that element. -/
theorem crowd_top_foreign :
    FindTopDocuments (sortOrForeign (foreignRecord : Document ℝ)) Real.log (run crowdCalls)
        crowdQuery (fun _ status _ => decide (status = DocumentStatus.ACTUAL)) =
      .ok [foreignRecord] := by
  rw [FindTopDocuments_eq _ Real.log _ (run_Inv _), crowd_found]
  exact FindTopDocumentsSort_ok _ _ [foreignRecord] (if_neg crowd_not_strictWeak)

/-- After `crowdCalls` a sort that does not return outside its precondition makes
`FindTopDocuments` not return. -/
theorem crowd_top_fail :
    FindTopDocuments sortOrFail Real.log (run crowdCalls) crowdQuery
        (fun _ status _ => decide (status = DocumentStatus.ACTUAL)) =
      .error Error.undefined := by
  rw [FindTopDocuments_eq _ Real.log _ (run_Inv _), crowd_found]
  exact FindTopDocumentsSort_error _ _ _ (if_neg crowd_not_strictWeak)

/-! ### The claims on the order and the number of the records -/

/-- C1, witness: the scenario of `main`, where the ids 0 to 3 are ingested once each. -/
theorem C1_relevance_is_tf_idf_witness :
    (addedIds mainCalls).Nodup ∧
      ∃ all, FindAllDocuments Real.log (run mainCalls) (ParseQuery (run mainCalls) mainQuery)
          (fun _ status _ => decide (status = DocumentStatus.ACTUAL)) = .ok all ∧
        (∀ r ∈ all, ∃ D ∈ ingested mainCalls, D.id = r.id ∧
          r.relevance =
            (((ParseQuery (run mainCalls) mainQuery).plus_words.filter
                (fun w => decide (w ∈ D.words))).map
              (fun w => ((termFrequency D w : ℚ) : ℝ) *
                Real.log ((GetDocumentCount (run mainCalls) : ℝ) /
                  (documentFrequency mainCalls w : ℝ)))).sum) ∧
        (∀ sort, SortContract sort →
          FindTopDocuments sort Real.log (run mainCalls) mainQuery
              (fun _ status _ => decide (status = DocumentStatus.ACTUAL)) =
            FindTopDocumentsSort sort all ∧
          ∀ matched : List (Document ℝ), StrictWeakOn FindTopDocumentsLess matched →
            ∃ top, FindTopDocumentsSort sort matched = .ok top ∧ ∀ r ∈ top, r ∈ matched) :=
  ⟨by decide, C1_relevance_is_tf_idf mainCalls (by decide) mainQuery _⟩

/-- C1 as stated fails for `FindTopDocuments`: after `crowdCalls`, where every id is
ingested once, the comparison is no strict weak ordering on the seventeen records found,
and a sort that returns a stray element outside its precondition makes `FindTopDocuments`
return a record with the id 17 and the relevance 1, while the document 17 holds no
plus-word of the query and the sum of the claim is 0. -/
theorem C1_counterexample :
    (addedIds crowdCalls).Nodup ∧
      SortContract (sortOrForeign (foreignRecord : Document ℝ)) ∧
      FindTopDocuments (sortOrForeign foreignRecord) Real.log (run crowdCalls) crowdQuery
        (fun _ status _ => decide (status = DocumentStatus.ACTUAL)) =
          .ok [foreignRecord] ∧
      ¬ ∃ D ∈ ingested crowdCalls, D.id = (foreignRecord : Document ℝ).id ∧
        (foreignRecord : Document ℝ).relevance =
          (((ParseQuery (run crowdCalls) crowdQuery).plus_words.filter
              (fun w => decide (w ∈ D.words))).map
            (fun w => ((termFrequency D w : ℚ) : ℝ) *
              Real.log ((GetDocumentCount (run crowdCalls) : ℝ) /
                (documentFrequency crowdCalls w : ℝ)))).sum := by
  refine ⟨by decide, sortOrForeign_contract _, crowd_top_foreign, ?_⟩
  rintro ⟨D, hD, hid, hrel⟩
  rw [crowd_ingested] at hD
  have hw : ['w'] ∉ D.words := by
    have hall : ∀ E ∈ crowdIngested, E.id = 17 → ['w'] ∉ E.words := by decide!
    exact hall D hD hid
  rw [crowd_query] at hrel
  simp [hw, foreignRecord] at hrel

/-- C2, witness: the scenario of `main` with insertion sort and a query with a
minus-word. -/
theorem C2_minus_word_excludes_witness :
    SortContract (@sortByInsertion (Document ℝ)) ∧
      ∃ all, FindAllDocuments Real.log (run mainCalls)
          (ParseQuery (run mainCalls) "пушистый -хвост кот".toList)
          (fun _ _ _ => true) = .ok all ∧
        (∀ r ∈ all, ∃ info, mapFind r.id (run mainCalls).documents_to_info_ = some info ∧
          ∀ w ∈ (ParseQuery (run mainCalls) "пушистый -хвост кот".toList).minus_words,
            w ∉ info.words) ∧
        FindTopDocuments sortByInsertion Real.log (run mainCalls)
            "пушистый -хвост кот".toList (fun _ _ _ => true) =
          FindTopDocumentsSort sortByInsertion all ∧
        ∀ matched : List (Document ℝ), StrictWeakOn FindTopDocumentsLess matched →
          ∃ top, FindTopDocumentsSort sortByInsertion matched = .ok top ∧
            ∀ r ∈ top, r ∈ matched :=
  ⟨sortByInsertion_contract,
    C2_minus_word_excludes sortByInsertion sortByInsertion_contract Real.log mainCalls _ _⟩

/-- C2 as stated fails: after `crowdCalls` the document 17 holds the minus-word `z` of
`crowdQuery`, the comparison is no strict weak ordering on the seventeen records found,
and a sort that returns a stray element outside its precondition makes `FindTopDocuments`
return a record of the document 17. -/
theorem C2_counterexample :
    SortContract (sortOrForeign (foreignRecord : Document ℝ)) ∧
      FindTopDocuments (sortOrForeign foreignRecord) Real.log (run crowdCalls) crowdQuery
        (fun _ status _ => decide (status = DocumentStatus.ACTUAL)) =
          .ok [foreignRecord] ∧
      ∃ w ∈ (ParseQuery (run crowdCalls) crowdQuery).minus_words,
        w ∈ wordsOf (run crowdCalls) (foreignRecord : Document ℝ).id := by
  refine ⟨sortOrForeign_contract _, crowd_top_foreign, ['z'], ?_, ?_⟩
  · rw [crowd_query]
    exact List.mem_singleton_self _
  · have hnd : ((ingested crowdCalls).map Ingested.id).Nodup := by
      rw [ingested_ids]
      decide
    have hD : Ingested.mk 17 [['z']] DocumentStatus.ACTUAL [] ∈ ingested crowdCalls := by
      rw [crowd_ingested]
      decide!
    exact (run_wordsOf_nodup crowdCalls hnd _ hD ['z']).mpr (List.mem_singleton_self _)

/-- C8, witness: document 1 of the scenario of `main`. -/
theorem C8_match_document_witness :
    (1 : Int) ∈ addedIds mainCalls ∧
      ∃ matched, MatchDocument (run mainCalls) "пушистый хвост -пёс".toList 1 =
          .ok (matched, statusOf (run mainCalls) 1) ∧
        ((∃ w ∈ (ParseQuery (run mainCalls) "пушистый хвост -пёс".toList).minus_words,
            w ∈ wordsOf (run mainCalls) 1) → matched = []) ∧
        ((∀ w ∈ (ParseQuery (run mainCalls) "пушистый хвост -пёс".toList).minus_words,
            w ∉ wordsOf (run mainCalls) 1) →
          matched.Pairwise (· < ·) ∧
            ∀ w, w ∈ matched ↔
              w ∈ (ParseQuery (run mainCalls) "пушистый хвост -пёс".toList).plus_words ∧
                w ∈ wordsOf (run mainCalls) 1) :=
  ⟨by decide, C8_match_document mainCalls _ 1 (by decide)⟩

/-! ## `SplitIntoWords` -/

theorem modifyHead_self {α : Type} (l : List α) : l.modifyHead (fun piece => piece) = l := by
  cases l <;> rfl

theorem SplitIntoWordsLoop_eq (text : List Char) (words : List Str) (word : Str) :
    SplitIntoWordsLoop text words word =
      words ++ ((text.splitOn ' ').modifyHead (fun piece => word ++ piece)).filter
        (fun piece => decide (piece ≠ [])) := by
  induction text generalizing words word with
  | nil =>
    by_cases hword : word = []
    · simp [SplitIntoWordsLoop, hword, List.splitOn]
    · simp [SplitIntoWordsLoop, hword, List.splitOn]
  | cons c text ih =>
    unfold SplitIntoWordsLoop
    by_cases hc : c = ' '
    · subst hc
      have hsplit : (' ' :: text).splitOn ' ' = [] :: text.splitOn ' ' := by
        simp [List.splitOn]
      rw [hsplit]
      by_cases hword : word = []
      · subst hword
        simp only [if_true, ne_eq, not_true_eq_false, if_false]
        rw [ih]
        simp [modifyHead_self]
      · simp only [if_true, ne_eq, hword, not_false_eq_true]
        rw [ih]
        simp [hword, modifyHead_self]
    · have hsplit : (c :: text).splitOn ' ' =
          (text.splitOn ' ').modifyHead (List.cons c) := by
        simp [List.splitOn, hc]
      rw [if_neg hc, ih, hsplit, List.modifyHead_modifyHead]
      congr 3
      funext piece
      simp

theorem SplitIntoWords_eq_pieces (text : Str) :
    SplitIntoWords text = piecesBetweenSpaces text := by
  unfold SplitIntoWords piecesBetweenSpaces
  rw [SplitIntoWordsLoop_eq]
  have hid : (fun (piece : List Char) => ([] : List Char) ++ piece) = id := by
    funext piece
    rfl
  rw [hid]
  cases text.splitOn ' ' <;> simp [List.modifyHead]

theorem SplitIntoWordsLoop_props (text : List Char) (words : List Str) (word : Str)
    (hwords : ∀ w ∈ words, w ≠ [] ∧ ' ' ∉ w) (hword : ' ' ∉ word) :
    (∀ w ∈ SplitIntoWordsLoop text words word, w ≠ [] ∧ ' ' ∉ w) ∧
      (SplitIntoWordsLoop text words word).flatten =
        words.flatten ++ word ++ text.filter (fun c => decide (c ≠ ' ')) := by
  induction text generalizing words word with
  | nil =>
    unfold SplitIntoWordsLoop
    by_cases hw : word = []
    · subst hw
      simpa using hwords
    · simp only [ne_eq, hw, not_false_eq_true, if_true]
      refine ⟨?_, by simp⟩
      intro w hmem
      rcases List.mem_append.mp hmem with h | h
      · exact hwords w h
      · rw [List.mem_singleton.mp h]
        exact ⟨hw, hword⟩
  | cons c text ih =>
    unfold SplitIntoWordsLoop
    by_cases hc : c = ' '
    · subst hc
      by_cases hw : word = []
      · subst hw
        simp only [if_true, ne_eq, not_true_eq_false, if_false]
        obtain ⟨h1, h2⟩ := ih words [] hwords hword
        exact ⟨h1, by rw [h2]; simp⟩
      · simp only [if_true, ne_eq, hw, not_false_eq_true]
        have hwords' : ∀ w ∈ words ++ [word], w ≠ [] ∧ ' ' ∉ w := by
          intro w hmem
          rcases List.mem_append.mp hmem with h | h
          · exact hwords w h
          · rw [List.mem_singleton.mp h]
            exact ⟨hw, hword⟩
        obtain ⟨h1, h2⟩ := ih (words ++ [word]) [] hwords' (by simp)
        exact ⟨h1, by rw [h2]; simp⟩
    · rw [if_neg hc]
      have hword' : ' ' ∉ word ++ [c] := by
        simp only [List.mem_append, List.mem_singleton, not_or]
        exact ⟨hword, fun e => hc e.symm⟩
      obtain ⟨h1, h2⟩ := ih words (word ++ [c]) hwords hword'
      exact ⟨h1, by rw [h2]; simp [hc]⟩

theorem SplitIntoWords_nonempty (text : Str) (w : Str) (hw : w ∈ SplitIntoWords text) :
    w ≠ [] :=
  ((SplitIntoWordsLoop_props text [] [] (by simp) (by simp)).1 w hw).1

theorem SplitIntoWordsNoStop_sublist (s : State) (text : Str) :
    SplitIntoWordsNoStop s text =
      (SplitIntoWords text).filter (fun w => !IsStopWord s w) := by
  unfold SplitIntoWordsNoStop
  have hfold : ∀ (l acc : List Str),
      l.foldl (fun words word => if !IsStopWord s word then words ++ [word] else words) acc =
        acc ++ l.filter (fun w => !IsStopWord s w) := by
    intro l
    induction l with
    | nil => simp
    | cons w l ih =>
      intro acc
      rw [List.foldl_cons, ih]
      by_cases hw : IsStopWord s w = true
      · simp [hw]
      · simp [hw]
  rw [hfold]
  rfl

theorem IsStopWord_iff (s : State) (w : Str) : IsStopWord s w = true ↔ w ∈ s.stop_words_ := by
  unfold IsStopWord
  rw [decide_eq_true_eq, setCount_pos_iff]

theorem mem_SplitIntoWordsNoStop (s : State) (text : Str) (w : Str) :
    w ∈ SplitIntoWordsNoStop s text ↔ w ∈ SplitIntoWords text ∧ w ∉ s.stop_words_ := by
  rw [SplitIntoWordsNoStop_sublist, List.mem_filter, ← IsStopWord_iff]
  simp

/-- C16: `SplitIntoWords` returns, in order, the non-empty pieces obtained by cutting the
text at every space: no word is empty, none holds a space, the words concatenated are the
text without its spaces, and a text of spaces only gives no word. -/
theorem C16_split_into_words (text : Str) :
    SplitIntoWords text = piecesBetweenSpaces text ∧
      (∀ w ∈ SplitIntoWords text, w ≠ [] ∧ ' ' ∉ w) ∧
      (SplitIntoWords text).flatten = text.filter (fun c => decide (c ≠ ' ')) ∧
      ((∀ c ∈ text, c = ' ') → SplitIntoWords text = []) := by
  obtain ⟨h1, h2⟩ := SplitIntoWordsLoop_props text [] [] (by simp) (by simp)
  refine ⟨SplitIntoWords_eq_pieces text, h1, by simpa using h2, ?_⟩
  intro hall
  have hfil : text.filter (fun c => decide (c ≠ ' ')) = [] := by
    rw [List.filter_eq_nil_iff]
    intro c hc
    simp [hall c hc]
  have hflat : (SplitIntoWords text).flatten = [] := by
    have := h2
    simp only [List.flatten_nil, List.append_nil, List.nil_append] at this
    rw [← hfil]
    exact this
  cases hsplit : SplitIntoWords text with
  | nil => rfl
  | cons w ws =>
    exfalso
    have hw := (h1 w (by unfold SplitIntoWords at hsplit; rw [hsplit]; simp)).1
    rw [hsplit] at hflat
    simp only [List.flatten_cons, List.append_eq_nil] at hflat
    exact hw hflat.1

/-! ## `ParseQuery`: the two word sets -/

theorem mem_foldl_setInsert (ws : List Str) (acc : List Str) (w : Str) :
    w ∈ ws.foldl (fun q word => setInsert word q) acc ↔ w ∈ acc ∨ w ∈ ws := by
  induction ws generalizing acc with
  | nil => simp
  | cons a ws ih =>
    rw [List.foldl_cons, ih, mem_setInsert, List.mem_cons]
    tauto

theorem ParseQueryWord_step (q : Query) (word : Str) :
    (∀ m, m ∈ (ParseQueryWord q word).minus_words ↔
        m ∈ q.minus_words ∨ word = '-' :: m) ∧
      (∀ p, p ∈ (ParseQueryWord q word).plus_words ↔
        p ∈ q.plus_words ∨ (p = word ∧ word ≠ [] ∧ word.head? ≠ some '-')) ∧
      (q.minus_words.Pairwise (· < ·) →
        (ParseQueryWord q word).minus_words.Pairwise (· < ·)) := by
  unfold ParseQueryWord
  cases word with
  | nil => simp
  | cons c rest =>
    by_cases hc : c = '-'
    · subst hc
      simp only [if_true]
      refine ⟨fun m => ?_, fun p => ?_, fun h => setInsert_sorted _ _ h⟩
      · rw [mem_setInsert]
        constructor
        · rintro (h | h)
          · exact Or.inr (by rw [h])
          · exact Or.inl h
        · rintro (h | h)
          · exact Or.inr h
          · exact Or.inl (List.cons.inj h).2.symm
      · simp
    · simp only [if_neg hc]
      refine ⟨fun m => ?_, fun p => ?_, fun h => h⟩
      · constructor
        · exact fun h => Or.inl h
        · rintro (h | h)
          · exact h
          · exact absurd (List.cons.inj h).1 hc
      · rw [mem_setInsert]
        simp only [ne_eq, List.cons_ne_nil, not_false_eq_true, List.head?_cons, Option.some.injEq,
          hc, and_self, and_true]
        tauto

theorem ParseQueryWord_loop (ws : List Str) (q : Query) :
    (∀ m, m ∈ (ws.foldl ParseQueryWord q).minus_words ↔
        m ∈ q.minus_words ∨ ('-' :: m) ∈ ws) ∧
      (∀ p, p ∈ (ws.foldl ParseQueryWord q).plus_words ↔
        p ∈ q.plus_words ∨ (p ∈ ws ∧ p ≠ [] ∧ p.head? ≠ some '-')) ∧
      (q.minus_words.Pairwise (· < ·) →
        (ws.foldl ParseQueryWord q).minus_words.Pairwise (· < ·)) := by
  induction ws generalizing q with
  | nil => simp
  | cons w ws ih =>
    rw [List.foldl_cons]
    obtain ⟨h1, h2, h3⟩ := ih (ParseQueryWord q w)
    obtain ⟨g1, g2, g3⟩ := ParseQueryWord_step q w
    refine ⟨fun m => ?_, fun p => ?_, fun h => h3 (g3 h)⟩
    · rw [h1, g1, List.mem_cons]
      constructor
      · rintro ((h | h) | h)
        · exact Or.inl h
        · exact Or.inr (Or.inl h.symm)
        · exact Or.inr (Or.inr h)
      · rintro (h | h | h)
        · exact Or.inl (Or.inl h)
        · exact Or.inl (Or.inr h.symm)
        · exact Or.inr h
    · rw [h2, g2, List.mem_cons]
      constructor
      · rintro ((h | ⟨h, hne, hhead⟩) | h)
        · exact Or.inl h
        · exact Or.inr ⟨Or.inl h, by rw [h]; exact hne, by rw [h]; exact hhead⟩
        · exact Or.inr ⟨Or.inr h.1, h.2⟩
      · rintro (h | ⟨h | h, hne, hhead⟩)
        · exact Or.inl (Or.inl h)
        · exact Or.inl (Or.inr ⟨h, by rw [← h]; exact hne, by rw [← h]; exact hhead⟩)
        · exact Or.inr ⟨h, hne, hhead⟩

theorem ParseQuery_minus_iff (s : State) (text : Str) (m : Str) :
    m ∈ (ParseQuery s text).minus_words ↔ ('-' :: m) ∈ SplitIntoWordsNoStop s text := by
  unfold ParseQuery
  simp only
  rw [(ParseQueryErase_loop _ _).1, (ParseQueryWord_loop _ _).1, mem_foldl_setInsert]
  simp

theorem ParseQuery_plus_iff (s : State) (text : Str) (p : Str) :
    p ∈ (ParseQuery s text).plus_words ↔
      p ∈ SplitIntoWordsNoStop s text ∧ p.head? ≠ some '-' ∧
        p ∉ (ParseQuery s text).minus_words := by
  have hminus : (ParseQuery s text).minus_words =
      (((SplitIntoWordsNoStop s text).foldl (fun q word => setInsert word q) []).foldl
        ParseQueryWord { minus_words := [], plus_words := [] }).minus_words := by
    unfold ParseQuery
    simp only
    rw [(ParseQueryErase_loop _ _).1]
  rw [hminus]
  unfold ParseQuery
  simp only
  rw [(ParseQueryErase_loop _ _).2.1, (ParseQueryWord_loop _ _).2.1, mem_foldl_setInsert]
  constructor
  · rintro ⟨h | ⟨h, _, hhead⟩, hnot⟩
    · simp at h
    · rcases h with h | h
      · simp at h
      · exact ⟨h, hhead, hnot⟩
  · rintro ⟨h, hhead, hnot⟩
    refine ⟨Or.inr ⟨Or.inr h, ?_, hhead⟩, hnot⟩
    exact SplitIntoWords_nonempty text p ((mem_SplitIntoWordsNoStop s text p).mp h).1

theorem ParseQuery_minus_sorted (s : State) (text : Str) :
    (ParseQuery s text).minus_words.Pairwise (· < ·) := by
  unfold ParseQuery
  simp only
  rw [(ParseQueryErase_loop _ _).1]
  exact (ParseQueryWord_loop _ _).2.2 List.Pairwise.nil

/-- C14: `ParseQuery` makes a minus-word of every stop-filtered token that starts with a
minus sign, with exactly that one sign removed, and a plus-word of every other
stop-filtered token that is not a minus-word; both sets are strictly ascending and they
are disjoint. The token `--cat` gives the minus-word `-cat`, the token `-` the empty
minus-word. -/
theorem C14_parse_query (s : State) (text : Str) :
    (∀ m, m ∈ (ParseQuery s text).minus_words ↔ ('-' :: m) ∈ SplitIntoWordsNoStop s text) ∧
      (∀ p, p ∈ (ParseQuery s text).plus_words ↔
        p ∈ SplitIntoWordsNoStop s text ∧ p.head? ≠ some '-' ∧
          p ∉ (ParseQuery s text).minus_words) ∧
      (ParseQuery s text).minus_words.Pairwise (· < ·) ∧
      (ParseQuery s text).plus_words.Pairwise (· < ·) ∧
      (∀ p ∈ (ParseQuery s text).plus_words, p ∉ (ParseQuery s text).minus_words) ∧
      ParseQuery State.init "--cat".toList =
        { minus_words := ["-cat".toList], plus_words := [] } ∧
      ParseQuery State.init "-".toList = { minus_words := [[]], plus_words := [] } :=
  ⟨ParseQuery_minus_iff s text, ParseQuery_plus_iff s text, ParseQuery_minus_sorted s text,
    ParseQuery_plus_sorted s text, ParseQuery_disjoint s text, by decide, by decide⟩

/-- C15, as amended: no plus-word of `ParseQuery` is a stop word, and no minus-word comes
from a token that is a stop word, the token being the minus-word with its minus sign. -/
theorem C15_stop_words_and_query (s : State) (text : Str) :
    (∀ p ∈ (ParseQuery s text).plus_words, p ∉ s.stop_words_) ∧
      (∀ m ∈ (ParseQuery s text).minus_words, ('-' :: m) ∉ s.stop_words_) := by
  constructor
  · intro p hp
    exact ((mem_SplitIntoWordsNoStop s text p).mp ((ParseQuery_plus_iff s text p).mp hp).1).2
  · intro m hm
    exact ((mem_SplitIntoWordsNoStop s text _).mp ((ParseQuery_minus_iff s text m).mp hm)).2

/-- C15 as stated fails: with the stop word `cat` the query `-cat` has the minus-word
`cat`, which is a stop word. -/
theorem C15_counterexample :
    ¬ ∀ w ∈ (ParseQuery (run stopCatCalls) "-cat".toList).minus_words,
      w ∉ (run stopCatCalls).stop_words_ := by
  decide
/-! ## `AddDocument`: status, rating and term frequencies -/

/-- C11, the code at the failing input: on a fresh server `AddDocument(7, "", BANNED, {1})`
stores the rating 1 for the id 7 but leaves its status value-initialised, and
`MatchDocument` reports `ACTUAL` for it, not `BANNED`. -/
theorem C11_status_without_words :
    mapFind 7 (run emptyTextCalls).documents_to_info_ =
        some { words := [], status := DocumentStatus.ACTUAL, rating := 1 } ∧
      MatchDocument (run emptyTextCalls) [] 7 = .ok ([], DocumentStatus.ACTUAL) := by
  have h : mapFind 7 (run emptyTextCalls).documents_to_info_ =
      some { words := [], status := DocumentStatus.ACTUAL, rating := 1 } := by decide
  refine ⟨h, ?_⟩
  rw [MatchDocument_of_info _ _ _ _ h]
  rfl

theorem wrapInt32_of_fits (x : Int) (h : FitsInt32 x) : wrapInt32 x = x := by
  unfold FitsInt32 at h
  unfold wrapInt32
  omega

theorem foldl_wrap_eq_sum (l : List Int) (a : Int)
    (h : ∀ k, FitsInt32 (a + (l.take k).sum)) :
    l.foldl (fun sum r => wrapInt32 (sum + r)) a = a + l.sum := by
  induction l generalizing a with
  | nil => simp
  | cons r l ih =>
    have h1 : FitsInt32 (a + r) := by simpa using h 1
    rw [List.foldl_cons, wrapInt32_of_fits _ h1, ih, List.sum_cons, add_assoc]
    intro k
    have := h (k + 1)
    rwa [List.take_succ_cons, List.sum_cons, ← add_assoc] at this

theorem ComputeAverageRating_eq (ratings : List Int)
    (hsum : ∀ k, FitsInt32 ((ratings.take k).sum)) (hlen : ratings.length < 2147483648) :
    ComputeAverageRating ratings =
      if ratings = [] then 0 else Int.tdiv ratings.sum (ratings.length : Int) := by
  unfold ComputeAverageRating
  by_cases hnil : ratings = []
  · simp [hnil]
  · have hne : ratings.length ≠ 0 := fun e => hnil (List.length_eq_zero.mp e)
    rw [if_neg hne, if_neg hnil, foldl_wrap_eq_sum ratings 0 (by simpa using hsum),
      wrapInt32_of_fits, zero_add]
    unfold FitsInt32
    omega

theorem foldl_wrap_zeros (n : Nat) :
    (List.replicate n (0 : Int)).foldl (fun sum r => wrapInt32 (sum + r)) 1 = 1 := by
  induction n with
  | zero => rfl
  | succ n ih =>
    rw [List.replicate_succ, List.foldl_cons]
    have : wrapInt32 (1 + 0) = 1 := by decide
    rw [this, ih]

theorem ComputeAverageRating_one_zeros (n : Nat) :
    ComputeAverageRating (1 :: List.replicate n 0) = Int.tdiv 1 (wrapInt32 ((n : Int) + 1)) := by
  unfold ComputeAverageRating
  rw [List.length_cons, List.length_replicate, if_neg (Nat.succ_ne_zero n), List.foldl_cons]
  have : wrapInt32 (0 + 1) = 1 := by decide
  rw [this, foldl_wrap_zeros]
  push_cast
  rfl

theorem take_one_zeros_sum (n k : Nat) :
    ((1 :: List.replicate n (0 : Int)).take k).sum = if k = 0 then 0 else 1 := by
  cases k with
  | zero => simp
  | succ k => simp [List.take_replicate]

/-- C12, as amended: when every partial sum of the ratings fits a 32-bit signed `int` and
there are fewer than 2^31 of them, `AddDocument` in a reachable state stores for the id
the rating 0 if the sequence is empty and otherwise the sum of the ratings divided by
their count, rounded toward zero, whatever the text; `[5,-12,2,1]` gives -1, `[8,-3]`
gives 2 and `[-1,-2]` gives -1. -/
theorem C12_stored_rating (calls : List Call) (document_id : Int) (document : Str)
    (status : DocumentStatus) (ratings : List Int)
    (hsum : ∀ k, FitsInt32 ((ratings.take k).sum)) (hlen : ratings.length < 2147483648) :
    ratingOf (AddDocument (run calls) document_id document status ratings) document_id =
        (if ratings = [] then 0 else Int.tdiv ratings.sum (ratings.length : Int)) ∧
      ratingOf (AddDocument (run calls) document_id document status [5, -12, 2, 1])
        document_id = -1 ∧
      ratingOf (AddDocument (run calls) document_id document status [8, -3]) document_id = 2 ∧
      ratingOf (AddDocument (run calls) document_id document status [-1, -2])
        document_id = -1 := by
  simp only [AddDocument_ratingOf _ _ _ _ _ (run_Inv calls), if_true]
  exact ⟨ComputeAverageRating_eq ratings hsum hlen, by decide, by decide, by decide⟩

/-- C12, witness: the ratings `[5,-12,2,1]` and a text without words on a fresh server. -/
theorem C12_stored_rating_witness :
    (∀ k, FitsInt32 ((([5, -12, 2, 1] : List Int).take k).sum)) ∧
      ([5, -12, 2, 1] : List Int).length < 2147483648 ∧
      (ratingOf (AddDocument (run []) 3 [] DocumentStatus.BANNED [5, -12, 2, 1]) 3 =
          (if ([5, -12, 2, 1] : List Int) = [] then 0
            else Int.tdiv ([5, -12, 2, 1] : List Int).sum
              (([5, -12, 2, 1] : List Int).length : Int)) ∧
        ratingOf (AddDocument (run []) 3 [] DocumentStatus.BANNED [5, -12, 2, 1]) 3 = -1 ∧
        ratingOf (AddDocument (run []) 3 [] DocumentStatus.BANNED [8, -3]) 3 = 2 ∧
        ratingOf (AddDocument (run []) 3 [] DocumentStatus.BANNED [-1, -2]) 3 = -1) := by
  have hsum : ∀ k, FitsInt32 ((([5, -12, 2, 1] : List Int).take k).sum) := by
    intro k
    rcases k with _ | _ | _ | _ | _ | k <;> simp [FitsInt32]
  exact ⟨hsum, by decide, C12_stored_rating [] 3 [] DocumentStatus.BANNED [5, -12, 2, 1] hsum
    (by decide)⟩

/-- C12 as stated fails: the partial sums of `longRatings` are 0 and 1, its sum divided by
its count is 0, but the count read as an `int` is 1 and the stored rating is 1. -/
theorem C12_counterexample :
    (∀ k, FitsInt32 ((longRatings.take k).sum)) ∧ longRatings ≠ [] ∧
      Int.tdiv longRatings.sum (longRatings.length : Int) = 0 ∧
      ratingOf (AddDocument State.init 0 [] DocumentStatus.ACTUAL longRatings) 0 = 1 := by
  refine ⟨fun k => ?_, List.cons_ne_nil _ _, ?_, ?_⟩
  · unfold longRatings
    rw [take_one_zeros_sum]
    by_cases hk : k = 0 <;> simp [hk, FitsInt32]
  · have hs : longRatings.sum = 1 := by
      have := take_one_zeros_sum 4294967296 4294967297
      rw [List.take_of_length_le (by
        rw [List.length_cons, List.length_replicate])] at this
      exact this
    have hl : (longRatings.length : Int) = 4294967297 := by
      unfold longRatings
      rw [List.length_cons, List.length_replicate]
      rfl
    rw [hs, hl]
    decide
  · rw [AddDocument_ratingOf _ _ _ _ _ Inv_init, if_pos rfl]
    unfold longRatings
    rw [ComputeAverageRating_one_zeros]
    decide

/-! ## Stored term frequencies -/

theorem sum_pos_of_mem_pos (l : List ℚ) (hnn : ∀ x ∈ l, 0 ≤ x) (x : ℚ) (hx : x ∈ l)
    (hpos : 0 < x) : 0 < l.sum := by
  induction l with
  | nil => simp at hx
  | cons a l ih =>
    rw [List.sum_cons]
    have ha : 0 ≤ a := hnn a (List.mem_cons_self _ _)
    have hl : 0 ≤ l.sum := List.sum_nonneg (fun y hy => hnn y (List.mem_cons_of_mem _ hy))
    rcases List.mem_cons.mp hx with rfl | hx
    · linarith
    · have := ih (fun y hy => hnn y (List.mem_cons_of_mem _ hy)) hx
      linarith

theorem run_freqOf_some (calls : List Call) (w : Str) (d : Int) (tf : ℚ)
    (h : freqOf (run calls) w d = some tf) :
    (∃ D ∈ ingested calls, D.id = d ∧ w ∈ D.words) ∧
      tf = (((ingested calls).filter (fun D => decide (D.id = d))).map
        (fun D => (D.words.count w : ℚ) * (1 / (D.words.length : ℚ)))).sum := by
  constructor
  · rw [← run_docsOf, (run_Inv calls).docs_freq, h]
    rfl
  · rw [← run_freqOf, h]
    rfl

theorem run_freqOf_of_mem (calls : List Call) (hnd : (addedIds calls).Nodup) (D : Ingested)
    (hD : D ∈ ingested calls) (w : Str) (hw : w ∈ D.words) :
    freqOf (run calls) w D.id = some ((D.words.count w : ℚ) / (D.words.length : ℚ)) := by
  rw [← ingested_ids] at hnd
  have hsome : (freqOf (run calls) w D.id).isSome := by
    rw [← (run_Inv calls).docs_freq, run_docsOf]
    exact ⟨D, hD, rfl, hw⟩
  have hget := run_freqOf_nodup calls hnd D hD w
  cases hf : freqOf (run calls) w D.id with
  | none => simp [hf] at hsome
  | some tf =>
    rw [hf] at hget
    simpa using hget

theorem count_div_length_pos (D : Ingested) (w : Str) (hw : w ∈ D.words) :
    0 < (D.words.count w : ℚ) * (1 / (D.words.length : ℚ)) := by
  have hc : 0 < D.words.count w := List.count_pos_iff.mpr hw
  have hl : 0 < D.words.length := List.length_pos_of_mem hw
  have hc1 : (0 : ℚ) < (D.words.count w : ℚ) := by exact_mod_cast hc
  have hl1 : (0 : ℚ) < (D.words.length : ℚ) := by exact_mod_cast hl
  positivity

/-- C13, as amended: in every state reached by `SetStopWords` and `AddDocument` calls,
every term frequency stored in `words_to_frequencies_` is strictly greater than 0, and
it is at most 1 when no id was passed to `AddDocument` more than once. -/
theorem C13_term_frequency_bounds (calls : List Call) (w : Str) (d : Int) (tf : ℚ)
    (h : freqOf (run calls) w d = some tf) :
    0 < tf ∧ ((addedIds calls).Nodup → tf ≤ 1) := by
  obtain ⟨⟨D, hD, hid, hw⟩, htf⟩ := run_freqOf_some calls w d tf h
  constructor
  · rw [htf]
    refine sum_pos_of_mem_pos _ ?_ _
      (List.mem_map_of_mem _ (List.mem_filter.mpr ⟨hD, by simpa using hid⟩))
      (count_div_length_pos D w hw)
    intro x hx
    obtain ⟨E, _, rfl⟩ := List.mem_map.mp hx
    positivity
  · intro hnd
    subst hid
    have := run_freqOf_of_mem calls hnd D hD w hw
    rw [h] at this
    rw [Option.some.inj this]
    have hl : 0 < D.words.length := List.length_pos_of_mem hw
    have hl1 : (0 : ℚ) < (D.words.length : ℚ) := by exact_mod_cast hl
    rw [div_le_one hl1]
    exact_mod_cast List.count_le_length _ _

/-- C13, witness: the word `w` in document 0 of `spreadCalls`, stored with the term
frequency 1. -/
theorem C13_term_frequency_bounds_witness :
    freqOf (run spreadCalls) ['w'] 0 = some 1 ∧
      (0 < (1 : ℚ) ∧ ((addedIds spreadCalls).Nodup → (1 : ℚ) ≤ 1)) := by
  have h : freqOf (run spreadCalls) ['w'] 0 = some 1 := by
    have := run_freqOf_of_mem spreadCalls (by decide)
      { id := 0, words := [['w']], status := DocumentStatus.ACTUAL, ratings := [0] }
      (by decide) ['w'] (by decide)
    simpa using this
  exact ⟨h, C13_term_frequency_bounds spreadCalls ['w'] 0 1 h⟩

/-- C13 as stated fails: after the text `a` is added twice under the id 0, the term
frequency stored for `a` and 0 is 2. -/
theorem C13_counterexample :
    freqOf (run readdCalls) ['a'] 0 = some 2 ∧ ¬ (0 < (2 : ℚ) ∧ (2 : ℚ) ≤ 1) := by
  refine ⟨?_, by norm_num⟩
  have hsome : (freqOf (run readdCalls) ['a'] 0).isSome := by
    rw [← (run_Inv readdCalls).docs_freq, run_docsOf]
    exact ⟨{ id := 0, words := [['a']], status := DocumentStatus.ACTUAL, ratings := [] },
      by decide, rfl, by decide⟩
  have hget := run_freqOf readdCalls ['a'] 0
  have hing : ingested readdCalls =
      [ { id := 0, words := [['a']], status := DocumentStatus.ACTUAL, ratings := [] },
        { id := 0, words := [['a']], status := DocumentStatus.ACTUAL, ratings := [] } ] := by
    decide
  rw [hing] at hget
  cases hf : freqOf (run readdCalls) ['a'] 0 with
  | none => simp [hf] at hsome
  | some tf =>
    rw [hf] at hget
    simp at hget
    rw [hget]
    norm_num

/-! ## The index invariant and the lookups of `FindTopDocuments` -/

theorem mapUpdate_ne_nil {κ ν : Type} [LinearOrder κ] (k : κ) (d : ν) (f : ν → ν)
    (m : List (κ × ν)) : mapUpdate k d f m ≠ [] := by
  cases m with
  | nil => simp [mapUpdate]
  | cons p m =>
    obtain ⟨k', v⟩ := p
    unfold mapUpdate
    by_cases h1 : k < k'
    · simp [h1]
    · by_cases h2 : k' < k <;> simp [h1, h2]

theorem AddDocumentLoop_freq_nonempty (document_id : Int) (status : DocumentStatus) (inv : ℚ)
    (words : List Str) (s : State) (h : Inv s)
    (hne : ∀ w m, mapFind w s.words_to_frequencies_ = some m → m ≠ []) :
    ∀ w m, mapFind w
      (words.foldl (AddDocumentWord document_id status inv) s).words_to_frequencies_ = some m →
        m ≠ [] := by
  induction words generalizing s with
  | nil => exact hne
  | cons word ws ih =>
    rw [List.foldl_cons]
    apply ih _ (AddDocumentWord_Inv _ _ _ _ _ h)
    intro w m hm
    rw [AddDocumentWord_freq_find _ _ _ _ _ h.toWF] at hm
    by_cases hw : w = word
    · rw [if_pos hw] at hm
      rw [← Option.some.inj hm]
      exact mapUpdate_ne_nil _ _ _ _
    · rw [if_neg hw] at hm
      exact hne w m hm

theorem AddDocument_freq_nonempty (s : State) (document_id : Int) (document : Str)
    (status : DocumentStatus) (ratings : List Int) (h : Inv s)
    (hne : ∀ w m, mapFind w s.words_to_frequencies_ = some m → m ≠ []) :
    ∀ w m, mapFind w
      (AddDocument s document_id document status ratings).words_to_frequencies_ = some m →
        m ≠ [] := by
  have h1 : Inv { s with document_count_ := s.document_count_ + 1 } :=
    Inv_congr s _ rfl rfl rfl h
  exact AddDocumentLoop_freq_nonempty document_id status
    (1 / ((SplitIntoWordsNoStop s document).length : ℚ)) (SplitIntoWordsNoStop s document) _ h1
    hne

theorem foldl_apply_freq_nonempty (calls : List Call) (s : State) (h : Inv s)
    (hne : ∀ w m, mapFind w s.words_to_frequencies_ = some m → m ≠ []) :
    ∀ w m, mapFind w (calls.foldl Call.apply s).words_to_frequencies_ = some m → m ≠ [] := by
  induction calls generalizing s with
  | nil => exact hne
  | cons c cs ih =>
    rw [List.foldl_cons]
    apply ih _ (Call_apply_Inv s c h)
    cases c with
    | setStopWords text =>
      rw [apply_setStopWords, (SetStopWords_maps s text).2.2.1]
      exact hne
    | addDocument document_id document status ratings =>
      rw [apply_addDocument]
      exact AddDocument_freq_nonempty s document_id document status ratings h hne

theorem run_freq_nonempty (calls : List Call) :
    ∀ w m, mapFind w (run calls).words_to_frequencies_ = some m → m ≠ [] :=
  foldl_apply_freq_nonempty calls State.init Inv_init (fun w m hm => by
    simp [State.init, mapFind] at hm)

theorem mem_wordsOf_iff (s : State) (w : Str) (d : Int) :
    w ∈ wordsOf s d ↔ ∃ i, mapFind d s.documents_to_info_ = some i ∧ w ∈ i.words := by
  unfold wordsOf
  cases mapFind d s.documents_to_info_ <;> simp

theorem mem_docsOf_iff (s : State) (w : Str) (d : Int) :
    d ∈ docsOf s w ↔ ∃ l, mapFind w s.words_to_documents_ = some l ∧ d ∈ l := by
  unfold docsOf
  cases mapFind w s.words_to_documents_ <;> simp

theorem freqOf_isSome_iff (s : State) (w : Str) (d : Int) :
    (freqOf s w d).isSome ↔
      ∃ m tf, mapFind w s.words_to_frequencies_ = some m ∧ mapFind d m = some tf := by
  unfold freqOf
  cases mapFind w s.words_to_frequencies_ with
  | none => simp
  | some m => simp [Option.isSome_iff_exists]

/-- C17: in every state reached by `SetStopWords` and `AddDocument` calls, for every word
`w` and id `d`: `w` is in the word set stored for `d` if and only if `d` is in
`words_to_documents_[w]`, if and only if `words_to_frequencies_[w]` has an entry for `d`;
no entry of `words_to_documents_` or of `words_to_frequencies_` is empty, and every id
in an entry of either has metadata. -/
theorem C17_index_consistency (calls : List Call) :
    (∀ w d,
      ((∃ i, mapFind d (run calls).documents_to_info_ = some i ∧ w ∈ i.words) ↔
        ∃ l, mapFind w (run calls).words_to_documents_ = some l ∧ d ∈ l) ∧
      ((∃ l, mapFind w (run calls).words_to_documents_ = some l ∧ d ∈ l) ↔
        ∃ m tf, mapFind w (run calls).words_to_frequencies_ = some m ∧
          mapFind d m = some tf)) ∧
      (∀ w l, mapFind w (run calls).words_to_documents_ = some l → l ≠ []) ∧
      (∀ w m, mapFind w (run calls).words_to_frequencies_ = some m → m ≠ []) ∧
      (∀ w l d, mapFind w (run calls).words_to_documents_ = some l → d ∈ l →
        ∃ i, mapFind d (run calls).documents_to_info_ = some i) ∧
      (∀ w m d tf, mapFind w (run calls).words_to_frequencies_ = some m →
        mapFind d m = some tf → ∃ i, mapFind d (run calls).documents_to_info_ = some i) := by
  have h := run_Inv calls
  have hdocs : ∀ w l d, mapFind w (run calls).words_to_documents_ = some l → d ∈ l →
      ∃ i, mapFind d (run calls).documents_to_info_ = some i := by
    intro w l d hl hd
    exact has_info_of_mem_docsOf _ h w d ((mem_docsOf_iff _ w d).mpr ⟨l, hl, hd⟩)
  refine ⟨fun w d => ⟨?_, ?_⟩, h.docs_nonempty, run_freq_nonempty calls, hdocs, ?_⟩
  · rw [← mem_wordsOf_iff, ← mem_docsOf_iff]
    exact (h.docs_words w d).symm
  · rw [← mem_docsOf_iff, ← freqOf_isSome_iff]
    exact h.docs_freq w d
  · intro w m d tf hm hd
    have hsome : (freqOf (run calls) w d).isSome :=
      (freqOf_isSome_iff _ w d).mpr ⟨m, tf, hm, hd⟩
    obtain ⟨l, hl, hdl⟩ := (mem_docsOf_iff _ w d).mp ((h.docs_freq w d).mpr hsome)
    exact hdocs w l d hl hdl

/-- C18, as amended: on every state reached by `SetStopWords` and `AddDocument` calls,
for every query text and predicate, `FindAllDocuments` returns a list, which
`FindTopDocuments` hands to the sort; whenever the comparison is a strict weak ordering
on the records handed to the sort, `FindTopDocuments` returns a list. For every word
that has an entry in `words_to_documents_`, the lookup `words_to_documents_.at(word)`
finds a non-empty set, so that the divisor of the inverse document frequency is not
zero, and for every id in that set the lookups `documents_to_info_.at(id)` and
`words_to_frequencies_.at(word).at(id)` find an entry. -/
theorem C18_find_top_documents_total {R : Type} [LinearOrderedField R]
    (sort : (Document R → Document R → Bool) → List (Document R) →
      Except Error (List (Document R)))
    (hsort : SortContract sort)
    (log : R → R) (calls : List Call) (raw_query : Str)
    (predicate : Int → DocumentStatus → Int → Bool) :
    (∃ all, FindAllDocuments log (run calls) (ParseQuery (run calls) raw_query) predicate =
        .ok all ∧
      FindTopDocuments sort log (run calls) raw_query predicate =
        FindTopDocumentsSort sort all) ∧
      (∀ matched : List (Document R), StrictWeakOn FindTopDocumentsLess matched →
        ∃ top, FindTopDocumentsSort sort matched = .ok top) ∧
      ∀ word, mapCount word (run calls).words_to_documents_ ≠ 0 →
        ∃ documents, mapAt word (run calls).words_to_documents_ = .ok documents ∧
          documents.length ≠ 0 ∧
          (∃ idf, ComputeInverseDocumentFrequency log (run calls) word = .ok idf) ∧
          ∀ id ∈ documents,
            (∃ info, mapAt id (run calls).documents_to_info_ = .ok info) ∧
              ∃ frequencies frequency,
                mapAt word (run calls).words_to_frequencies_ = .ok frequencies ∧
                  mapAt id frequencies = .ok frequency := by
  have h := run_Inv calls
  have hall := FindAllDocuments_eq log (run calls) h (ParseQuery (run calls) raw_query)
    predicate
  refine ⟨⟨_, hall, FindTopDocuments_of_all sort log _ raw_query predicate _ hall⟩, ?_, ?_⟩
  · intro matched hswo
    obtain ⟨top, htop, _⟩ := FindTopDocumentsSort_subset sort hsort matched hswo
    exact ⟨top, htop⟩
  intro word hcount
  cases hfind : mapFind word (run calls).words_to_documents_ with
  | none => simp [mapCount, hfind] at hcount
  | some documents =>
    have hat := mapAt_of_find _ _ _ hfind
    refine ⟨documents, hat, ?_, ?_, ?_⟩
    · intro hlen
      exact h.docs_nonempty word documents hfind (List.length_eq_zero.mp hlen)
    · unfold ComputeInverseDocumentFrequency
      rw [hat]
      exact ⟨_, rfl⟩
    · intro id hid
      have hmem : id ∈ docsOf (run calls) word := (mem_docsOf_iff _ word id).mpr ⟨_, hfind, hid⟩
      obtain ⟨info, hinfo⟩ := has_info_of_mem_docsOf _ h word id hmem
      obtain ⟨m, tf, hm, htf⟩ := (freqOf_isSome_iff _ word id).mp ((h.docs_freq word id).mp hmem)
      exact ⟨⟨info, mapAt_of_find _ _ _ hinfo⟩, m, tf, mapAt_of_find _ _ _ hm,
        mapAt_of_find _ _ _ htf⟩

/-- C18, witness: the scenario of `main` with insertion sort. -/
theorem C18_find_top_documents_total_witness :
    SortContract (@sortByInsertion (Document ℝ)) ∧
      ((∃ all, FindAllDocuments Real.log (run mainCalls)
          (ParseQuery (run mainCalls) mainQuery)
          (fun _ status _ => decide (status = DocumentStatus.ACTUAL)) = .ok all ∧
        FindTopDocuments sortByInsertion Real.log (run mainCalls) mainQuery
            (fun _ status _ => decide (status = DocumentStatus.ACTUAL)) =
          FindTopDocumentsSort sortByInsertion all) ∧
      (∀ matched : List (Document ℝ), StrictWeakOn FindTopDocumentsLess matched →
        ∃ top, FindTopDocumentsSort sortByInsertion matched = .ok top) ∧
      ∀ word, mapCount word (run mainCalls).words_to_documents_ ≠ 0 →
        ∃ documents, mapAt word (run mainCalls).words_to_documents_ = .ok documents ∧
          documents.length ≠ 0 ∧
          (∃ idf, ComputeInverseDocumentFrequency Real.log (run mainCalls) word = .ok idf) ∧
          ∀ id ∈ documents,
            (∃ info, mapAt id (run mainCalls).documents_to_info_ = .ok info) ∧
              ∃ frequencies frequency,
                mapAt word (run mainCalls).words_to_frequencies_ = .ok frequencies ∧
                  mapAt id frequencies = .ok frequency) :=
  ⟨sortByInsertion_contract,
    C18_find_top_documents_total sortByInsertion sortByInsertion_contract Real.log mainCalls
      mainQuery _⟩

/-- C18 as stated fails: after the eighteen calls of `crowdCalls` the comparison is no
strict weak ordering on the seventeen records found for `crowdQuery`, the call of
`std::sort` is outside its precondition, and with a sort that does not return there
`FindTopDocuments` does not return. -/
theorem C18_counterexample :
    SortContract (@sortOrFail (Document ℝ)) ∧
      (∃ all, FindAllDocuments Real.log (run crowdCalls)
          (ParseQuery (run crowdCalls) crowdQuery)
          (fun _ status _ => decide (status = DocumentStatus.ACTUAL)) = .ok all ∧
        all.length = 17 ∧ ¬ StrictWeakOn FindTopDocumentsLess all) ∧
      FindTopDocuments sortOrFail Real.log (run crowdCalls) crowdQuery
        (fun _ status _ => decide (status = DocumentStatus.ACTUAL)) =
          .error Error.undefined :=
  ⟨sortOrFail_contract, ⟨_, crowd_all, rfl, crowd_not_strictWeak⟩, crowd_top_fail⟩

/-! ## Relevance and term frequency -/

theorem run_docsOf_le_count (calls : List Call) (w : Str) :
    (docsOf (run calls) w).length ≤ (run calls).document_count_ := by
  have hsorted : (docsOf (run calls) w).Pairwise (· < ·) := by
    unfold docsOf
    cases hfind : mapFind w (run calls).words_to_documents_ with
    | none => simp
    | some l => simpa using (run_Inv calls).docs_inner w l hfind
  have hnd : (docsOf (run calls) w).Nodup := hsorted.imp (fun hlt => ne_of_lt hlt)
  have hsub : docsOf (run calls) w ⊆ (ingested calls).map Ingested.id := by
    intro d hd
    obtain ⟨D, hD, hid, _⟩ := (run_docsOf calls w d).mp hd
    exact hid ▸ List.mem_map_of_mem _ hD
  have := (hnd.subperm hsub).length_le
  rwa [List.length_map, ← run_count] at this

theorem run_idf_nonneg (calls : List Call) (w : Str) (hw : docsOf (run calls) w ≠ []) :
    0 ≤ idfOf Real.log (run calls) w := by
  unfold idfOf
  apply Real.log_nonneg
  have hpos : 0 < (docsOf (run calls) w).length := List.length_pos.mpr hw
  have hpos1 : (0 : ℝ) < ((docsOf (run calls) w).length : ℝ) := by exact_mod_cast hpos
  rw [one_le_div hpos1]
  exact_mod_cast run_docsOf_le_count calls w

/-- C19: in a state reached by `SetStopWords` and `AddDocument` calls, when two records
`a` and `b` returned by `FindAllDocuments` belong to documents that contain the same
plus-words of the query, and every stored term frequency of a plus-word in the document
of `a` is at most the one in the document of `b`, the relevance of `a` is at most the
relevance of `b`. The document counter is at least the number of documents of every
word, and every inverse document frequency that is computed is non-negative. -/
theorem C19_relevance_monotone (calls : List Call) (query : Query)
    (predicate : Int → DocumentStatus → Int → Bool) (all : List (Document ℝ))
    (a b : Document ℝ)
    (hall : FindAllDocuments Real.log (run calls) query predicate = .ok all)
    (ha : a ∈ all) (hb : b ∈ all)
    (hsame : ∀ w ∈ query.plus_words,
      w ∈ wordsOf (run calls) a.id ↔ w ∈ wordsOf (run calls) b.id)
    (htf : ∀ w ∈ query.plus_words, ∀ ta tb, freqOf (run calls) w a.id = some ta →
      freqOf (run calls) w b.id = some tb → ta ≤ tb) :
    a.relevance ≤ b.relevance ∧
      (∀ w, (docsOf (run calls) w).length ≤ (run calls).document_count_) ∧
      (∀ w idf, ComputeInverseDocumentFrequency Real.log (run calls) w = .ok idf →
        0 ≤ idf) := by
  have h := run_Inv calls
  refine ⟨?_, run_docsOf_le_count calls, ?_⟩
  · rw [FindAllDocuments_eq Real.log _ h] at hall
    have hall1 : matchedDocuments Real.log (run calls) query predicate = all := by
      injection hall
    rw [← hall1] at ha hb
    rw [((mem_matchedDocuments _ _ _ _ _).mp ha).2.1, ((mem_matchedDocuments _ _ _ _ _).mp hb).2.1]
    have hwords : scoringWords (run calls) query a.id = scoringWords (run calls) query b.id := by
      unfold scoringWords
      apply List.filter_congr
      intro w hw
      have : a.id ∈ docsOf (run calls) w ↔ b.id ∈ docsOf (run calls) w := by
        rw [h.docs_words, h.docs_words]
        exact hsame w hw
      by_cases hd : a.id ∈ docsOf (run calls) w
      · simp [hd, this.mp hd]
      · have hdb : b.id ∉ docsOf (run calls) w := fun hb => hd (this.mpr hb)
        simp [hd, hdb]
    unfold relevanceOf
    rw [← hwords]
    apply List.sum_le_sum
    intro w hw
    unfold scoringWords at hw
    simp only [List.mem_filter, Bool.and_eq_true, decide_eq_true_eq] at hw
    obtain ⟨hplus, _, hda⟩ := hw
    have hdb : b.id ∈ docsOf (run calls) w := by
      rw [h.docs_words] at hda ⊢
      exact (hsame w hplus).mp hda
    have hidf : 0 ≤ idfOf Real.log (run calls) w :=
      run_idf_nonneg calls w (List.ne_nil_of_mem hda)
    apply mul_le_mul_of_nonneg_left _ hidf
    have hsa := (h.docs_freq w a.id).mp hda
    have hsb := (h.docs_freq w b.id).mp hdb
    obtain ⟨ta, hta⟩ := Option.isSome_iff_exists.mp hsa
    obtain ⟨tb, htb⟩ := Option.isSome_iff_exists.mp hsb
    rw [hta, htb]
    exact_mod_cast htf w hplus ta tb hta htb
  · intro w idf hidf
    unfold ComputeInverseDocumentFrequency at hidf
    cases hfind : mapFind w (run calls).words_to_documents_ with
    | none =>
      simp [mapAt, hfind, bind, Except.bind] at hidf
    | some documents =>
      rw [mapAt_of_find _ _ _ hfind] at hidf
      simp only [bind, Except.bind, pure, Except.pure, Except.ok.injEq] at hidf
      have hdocs : docsOf (run calls) w = documents := by simp [docsOf, hfind]
      have := run_idf_nonneg calls w (by
        rw [hdocs]
        exact h.docs_nonempty w documents hfind)
      unfold idfOf at this
      rw [hdocs] at this
      rw [← hidf]
      exact this

/-- C19, witness: after `spreadCalls` the word `w` has the term frequency 1/2 in
document 1 and 1 in document 0, and the record of document 1 has at most the relevance
of the record of document 0. -/
theorem C19_relevance_monotone_witness :
    FindAllDocuments Real.log (run spreadCalls) (ParseQuery (run spreadCalls) wQuery)
        (fun _ status _ => decide (status = DocumentStatus.ACTUAL)) =
        .ok (spreadSkeleton.map (skeletonRecord Real.log)) ∧
      freqOf (run spreadCalls) ['w'] 1 = some (1 / 2) ∧
      freqOf (run spreadCalls) ['w'] 0 = some 1 ∧
      ((skeletonRecord Real.log ⟨1, [⟨7, 6, 1, 2⟩], 1⟩).relevance ≤
          (skeletonRecord Real.log ⟨0, [⟨7, 6, 1, 1⟩], 0⟩).relevance ∧
        (∀ w, (docsOf (run spreadCalls) w).length ≤ (run spreadCalls).document_count_) ∧
        (∀ w idf, ComputeInverseDocumentFrequency Real.log (run spreadCalls) w = .ok idf →
          0 ≤ idf)) := by
  have hall : FindAllDocuments Real.log (run spreadCalls) (ParseQuery (run spreadCalls) wQuery)
      (fun _ status _ => decide (status = DocumentStatus.ACTUAL)) =
      .ok (spreadSkeleton.map (skeletonRecord Real.log)) := by
    rw [FindAllDocuments_eq Real.log _ (run_Inv spreadCalls), spread_found]
  have hq : ParseQuery (run spreadCalls) wQuery = { minus_words := [], plus_words := [['w']] } := by
    decide
  have h1 : freqOf (run spreadCalls) ['w'] 1 = some (1 / 2) := by
    have := run_freqOf_of_mem spreadCalls (by decide)
      { id := 1, words := [['w'], ['x']], status := DocumentStatus.ACTUAL, ratings := [1] }
      (by decide) ['w'] (by decide)
    simpa using this
  have h0 : freqOf (run spreadCalls) ['w'] 0 = some 1 := by
    have := run_freqOf_of_mem spreadCalls (by decide)
      { id := 0, words := [['w']], status := DocumentStatus.ACTUAL, ratings := [0] }
      (by decide) ['w'] (by decide)
    simpa using this
  refine ⟨hall, h1, h0, C19_relevance_monotone spreadCalls _ _ _
    (skeletonRecord Real.log ⟨1, [⟨7, 6, 1, 2⟩], 1⟩)
    (skeletonRecord Real.log ⟨0, [⟨7, 6, 1, 1⟩], 0⟩) hall
    (List.mem_map_of_mem _ (by decide)) (List.mem_map_of_mem _ (by decide)) ?_ ?_⟩
  · intro w hw
    rw [hq] at hw
    rw [List.mem_singleton.mp hw]
    show ['w'] ∈ wordsOf (run spreadCalls) 1 ↔ ['w'] ∈ wordsOf (run spreadCalls) 0
    decide
  · intro w hw ta tb hta htb
    rw [hq] at hw
    rw [List.mem_singleton.mp hw] at hta htb
    have hta1 : freqOf (run spreadCalls) ['w'] 1 = some ta := hta
    have htb1 : freqOf (run spreadCalls) ['w'] 0 = some tb := htb
    rw [h1] at hta1
    rw [h0] at htb1
    rw [← Option.some.inj hta1, ← Option.some.inj htb1]
    norm_num

/-! ## The comparison of `FindTopDocuments` -/

/-- C20, as amended: the comparison of `FindTopDocuments` is irreflexive, and on every list
of records in which no two relevances differ by a non-zero amount below `EPSILON` it is a
strict weak ordering, in particular asymmetric. -/
theorem C20_strict_weak_without_near_ties {R : Type} [LinearOrderedField R]
    (l : List (Document R)) (hgap : NoNearTies l) :
    (∀ a : Document R, FindTopDocumentsLess a a = false) ∧
      StrictWeakOn FindTopDocumentsLess l ∧
      ∀ a ∈ l, ∀ b ∈ l,
        ¬ (FindTopDocumentsLess a b = true ∧ FindTopDocumentsLess b a = true) := by
  have hswo := strictWeakOn_of_noNearTies l hgap
  refine ⟨fun a => ?_, hswo, ?_⟩
  · simp [FindTopDocumentsLess]
  · rintro a ha b hb ⟨hab, hba⟩
    have := hswo.2.1 a ha b hb a ha hab hba
    rw [hswo.1 a ha] at this
    exact Bool.false_ne_true this

/-- C20, witness: the six records found for the query `w` after `spreadCalls`. -/
theorem C20_strict_weak_without_near_ties_witness :
    NoNearTies (spreadSkeleton.map (skeletonRecord Real.log)) ∧
      ((∀ a : Document ℝ, FindTopDocumentsLess a a = false) ∧
        StrictWeakOn FindTopDocumentsLess (spreadSkeleton.map (skeletonRecord Real.log)) ∧
        ∀ a ∈ spreadSkeleton.map (skeletonRecord Real.log),
          ∀ b ∈ spreadSkeleton.map (skeletonRecord Real.log),
            ¬ (FindTopDocumentsLess a b = true ∧ FindTopDocumentsLess b a = true)) :=
  ⟨spread_noNearTies, C20_strict_weak_without_near_ties _ spread_noNearTies⟩

/-- C20 as stated fails: after `nearTieCalls` the query `w` finds records for the
documents 0 and 1 whose relevances differ by less than `EPSILON` with the greater rating
on the smaller relevance. The comparison of `FindTopDocuments` places each of the two
before the other, and so is no strict weak ordering on the records that are sorted. -/
theorem C20_counterexample :
    ∃ all, FindAllDocuments Real.log (run nearTieCalls) (ParseQuery (run nearTieCalls) wQuery)
        (fun _ status _ => decide (status = DocumentStatus.ACTUAL)) = .ok all ∧
      (∃ a ∈ all, ∃ b ∈ all, a.id = 0 ∧ b.id = 1 ∧
        FindTopDocumentsLess a b = true ∧ FindTopDocumentsLess b a = true) ∧
      ¬ StrictWeakOn FindTopDocumentsLess all := by
  have hall : FindAllDocuments Real.log (run nearTieCalls)
      (ParseQuery (run nearTieCalls) wQuery)
      (fun _ status _ => decide (status = DocumentStatus.ACTUAL)) =
      .ok (nearTieSkeleton.map (skeletonRecord Real.log)) := by
    rw [FindAllDocuments_eq Real.log _ (run_Inv nearTieCalls), nearTie_found]
  have ha : skeletonRecord Real.log ⟨0, [⟨7, 6, 1, 1000⟩], 0⟩ ∈
      nearTieSkeleton.map (skeletonRecord Real.log) := List.mem_map_of_mem _ (by decide)
  have hb : skeletonRecord Real.log ⟨1, [⟨7, 6, 1, 1001⟩], 1⟩ ∈
      nearTieSkeleton.map (skeletonRecord Real.log) := List.mem_map_of_mem _ (by decide)
  have hne : skeletonRecord Real.log ⟨0, [⟨7, 6, 1, 1000⟩], 0⟩ ≠
      skeletonRecord Real.log ⟨1, [⟨7, 6, 1, 1001⟩], 1⟩ := by
    intro e
    have := congrArg Document.id e
    simp [skeletonRecord] at this
  have hab := (FindTopDocumentsLess_iff _ _).mpr (nearTie_found_mutual _ _ ha hb hne)
  have hba := (FindTopDocumentsLess_iff _ _).mpr (nearTie_found_mutual _ _ hb ha hne.symm)
  refine ⟨_, hall, ⟨_, ha, _, hb, rfl, rfl, hab, hba⟩, ?_⟩
  rintro ⟨hirr, htrans, _⟩
  have := htrans _ ha _ hb _ ha hab hba
  rw [hirr _ ha] at this
  exact Bool.false_ne_true this

end SearchServer
